import Mathlib

/-!
Verification of the notion-discord-bot content pipeline.

Shallow embedding of the Python sources:
  * `src/rag/vectorstore.py`  (`VectorStore.chunk_text`, `VectorStore.add_documents`,
    `VectorStore.sync_documents` and their helpers),
  * `src/rag/utils.py`        (`convert_text_to_string`, `clean_metadata`,
    `map_chunks_by_parent`, `add_sync_metadata`, `batch_process_async`),
  * `src/notion/sync.py`      (`sync_notion_content`).

Python strings are modelled as `List Char` (`PyStr`), Python dictionaries of
document metadata as the fixed record `Meta` holding exactly the keys the code
reads or writes, and the ChromaDB collection as a list of entries with unique
ids.  Mutation is modelled by explicit state passing, exceptions by
`Option`/`Except`, and the sequence of physical writes issued against the
collection by a trace of `Op` values.
-/

namespace NotionBot

/-- Python `str` modelled as a list of characters. -/
abbrev PyStr := List Char

/-- Conversion from a Lean string literal to the `PyStr` model. -/
def pyS (s : String) : PyStr := s.toList

/-- Python `str.strip()` whitespace test (default whitespace set). -/
def isWs (c : Char) : Bool :=
  c == ' ' || c == '\t' || c == '\n' || c == '\r' || c == '\x0b' || c == '\x0c'

/-- Leading-whitespace removal, one half of Python `str.strip()`. -/
def lstrip (s : PyStr) : PyStr := s.dropWhile isWs

/-- Trailing-whitespace removal, the other half of Python `str.strip()`. -/
def rstrip (s : PyStr) : PyStr := (s.reverse.dropWhile isWs).reverse

/-- Python `str.strip()`. -/
def pyStrip (s : PyStr) : PyStr := lstrip (rstrip s)

/-- Python `s.split(sep)` for a two-character separator `[a, b]`
(both separators used by `chunk_text` — `"\n\n"` and `". "` — have length 2).
Scans left to right, non-overlapping, and `"".split(sep) = [""]`. -/
def split2 (a b : Char) : PyStr → List PyStr
  | [] => [[]]
  | [c] => [[c]]
  | c :: d :: rest =>
    if c == a && d == b then
      [] :: split2 a b rest
    else
      match split2 a b (d :: rest) with
      | [] => [[c]]
      | h :: t => (c :: h) :: t

/-- Joining with a two-character separator; inverse of `split2`. -/
def joinSep2 (a b : Char) : List PyStr → PyStr
  | [] => []
  | [x] => x
  | x :: y :: rest => x ++ a :: b :: joinSep2 a b (y :: rest)

/-- Python `str` lexicographic `<` (by code point), used by
`notion_last_modified > vector_last_modified` in `sync_documents`. -/
def pyLt : PyStr → PyStr → Bool
  | [], [] => false
  | [], _ :: _ => true
  | _ :: _, [] => false
  | a :: s, b :: t =>
    if a.val < b.val then true
    else if b.val < a.val then false
    else pyLt s t

/-- Python `needle.startswith` test: `hasPre p s` is true iff `p` is a prefix of `s`. -/
def hasPre : PyStr → PyStr → Bool
  | [], _ => true
  | _ :: _, [] => false
  | a :: p, b :: s => a == b && hasPre p s

/-- Python `n in s` substring test. -/
def subIn (n : PyStr) : PyStr → Bool
  | [] => hasPre n []
  | c :: s => hasPre n (c :: s) || subIn n s

/-- Python `s.replace(pat, "")` (all occurrences), with an explicit fuel so the
definition is structural; called with fuel `s.length` which always suffices. -/
def repAllAux (pat : PyStr) : Nat → PyStr → PyStr
  | 0, s => s
  | _ + 1, [] => []
  | fuel + 1, c :: s =>
    if hasPre pat (c :: s) && pat ≠ [] then
      repAllAux pat fuel ((c :: s).drop pat.length)
    else
      c :: repAllAux pat fuel s

/-- Python `s.replace(pat, "")` for a non-empty pattern. -/
def repAll (pat : PyStr) (s : PyStr) : PyStr := repAllAux pat s.length s

/-- Decimal rendering of a natural number, for f-string interpolation of
indices and timestamps (`f"{doc_id}_chunk_{j}"` etc.). -/
def natStr (n : Nat) : PyStr := (toString n).toList

/-!
`VectorStore.chunk_text` (src/rag/vectorstore.py lines 80-112).

The Python accumulates paragraphs (split on `"\n\n"`) into a running buffer,
flushing (stripped) whenever the next piece would not fit; a paragraph longer
than the limit is split into sentences on `". "` and accumulated at sentence
granularity.  The state of the two nested loops is `(chunks, current_chunk)`.
-/

/-- One iteration of the inner sentence loop of `chunk_text`. -/
def chunkSentStep (maxChars : Nat) (st : List PyStr × PyStr) (s : PyStr) :
    List PyStr × PyStr :=
  let (chunks, cur) := st
  if cur.length + s.length < maxChars then
    (chunks, cur ++ s ++ pyS ". ")
  else
    ((if cur ≠ [] then chunks ++ [pyStrip cur] else chunks), s ++ pyS ". ")

/-- One iteration of the outer paragraph loop of `chunk_text`. -/
def chunkParaStep (maxChars : Nat) (st : List PyStr × PyStr) (p : PyStr) :
    List PyStr × PyStr :=
  if p.length > maxChars then
    (split2 '.' ' ' p).foldl (chunkSentStep maxChars) st
  else
    let (chunks, cur) := st
    if cur.length + p.length < maxChars then
      (chunks, cur ++ p ++ pyS "\n\n")
    else
      ((if cur ≠ [] then chunks ++ [pyStrip cur] else chunks), p ++ pyS "\n\n")

/-- `VectorStore.chunk_text(text, max_chars)`: the effective limit is
`min max_chars 6000`, the text is split into paragraphs, and the final
non-empty buffer is flushed at the end. -/
def chunkText (text : PyStr) (maxChars : Nat) : List PyStr :=
  let m := min maxChars 6000
  let st := (split2 '\n' '\n' text).foldl (chunkParaStep m) ([], [])
  if st.2 ≠ [] then st.1 ++ [pyStrip st.2] else st.1

/-!
Data model.

Metadata dictionaries are modelled as a record holding every key the code
reads or writes.  String-valued keys that may be absent (`meta.get(k)` used
only with Python truthiness, where `None` and `""` coincide) are plain
`PyStr` with `[]` standing for absent; keys tested with `is not None` or
compared with `==` (`parent_id`, `chunk_id`, `chunk`, `link`, `rating`,
`last_synced`) are `Option`s so the `None`-vs-value distinction survives.
-/

structure Meta where
  page_id : PyStr := []
  title : PyStr := []
  last_modified : PyStr := []
  url : PyStr := []
  tags : PyStr := []
  public_url : PyStr := []
  created_time : PyStr := []
  link : Option PyStr := none
  rating : Option PyStr := none
  resource_id : PyStr := []
  parent_id : Option PyStr := none
  chunk : Option Nat := none
  chunk_id : Option PyStr := none
  last_synced : Option PyStr := none
  source : PyStr := []
deriving DecidableEq, Repr

/-- A metadata argument as it flows through `add_documents`: normally a
dictionary (`Sum.inl`), but line 224 of vectorstore.py can substitute a raw id
string (`Sum.inr`) for it. -/
abbrev MetaV := Sum Meta PyStr

/-- `clean_metadata` (src/rag/utils.py lines 21-45).  On the typed model every
value is already a scalar (`None`-valued keys are represented as absent and
list-valued tags are joined upstream), so cleaning is the identity. -/
def cleanMeta (m : Meta) : Meta := m

/-- `add_sync_metadata` (src/rag/utils.py lines 116-121): add a
`last_synced` timestamp. -/
def addSyncMeta (now : PyStr) (m : Meta) : Meta := { m with last_synced := some now }

/-- One persisted index entry of the ChromaDB collection: an id, a text body
and a metadata mapping. -/
structure Entry where
  eid : PyStr
  text : PyStr
  meta : Meta
deriving DecidableEq, Repr

/-- The collection: entries in insertion order.  ChromaDB guarantees id
uniqueness; theorems carry it as the `Nodup` hypothesis. -/
abbrev Store := List Entry

def storeIds (st : Store) : List PyStr := st.map (·.eid)

def lookupE (st : Store) (i : PyStr) : Option Entry := st.find? (fun e => e.eid == i)

def hasId (st : Store) (i : PyStr) : Bool := (lookupE st i).isSome

/-- `collection.add` of a single entry: raises (returns `none`) when the id
already exists, otherwise appends. -/
def storeAdd (st : Store) (e : Entry) : Option Store :=
  if hasId st e.eid then none else some (st ++ [e])

/-- `collection.update`: raises "not found" (returns `none`) when the id is
absent, otherwise replaces text and metadata in place. -/
def storeUpd (st : Store) (i t : PyStr) (m : Meta) : Option Store :=
  if hasId st i then
    some (st.map (fun e => if e.eid == i then ⟨e.eid, t, m⟩ else e))
  else none

/-- `collection.delete(ids)`: removes the listed ids, silently ignoring
absent ones. -/
def storeDel (st : Store) (ids : List PyStr) : Store :=
  st.filter (fun e => !(ids.contains e.eid))

/-- A physical operation issued against the collection; write operations are
tagged with the id of the logical document being processed when they were
issued (`prov`). -/
inductive Op where
  | del (ids : List PyStr)
  | wadd (prov : PyStr) (e : Entry)
  | wupd (prov : PyStr) (e : Entry)
deriving DecidableEq, Repr

/-- Provenance of a write operation (`none` for deletions). -/
def writeProv : Op → Option PyStr
  | .del _ => none
  | .wadd p _ => some p
  | .wupd p _ => some p

/-- All ids occurring in delete operations of a trace. -/
def traceDelIds (ops : List Op) : List PyStr :=
  ops.foldl (fun acc op => match op with | .del l => acc ++ l | _ => acc) []

/-- Python `zip` over three lists (truncates to the shortest). -/
def zip3 : List α → List β → List γ → List (α × β × γ)
  | a :: as', b :: bs, c :: cs => (a, b, c) :: zip3 as' bs cs
  | _, _, _ => []

/-- Fuel-driven batching worker (`fuel = l.length` always suffices for a
positive batch size). -/
def toBatchesAux (n : Nat) : Nat → List α → List (List α)
  | 0, _ => []
  | _, [] => []
  | fuel + 1, x :: xs => (x :: xs).take n :: toBatchesAux n fuel ((x :: xs).drop n)

/-- Fixed-size batching used by `batch_process_async`
(src/rag/utils.py lines 62-95); batch sizes in the code are 100 and 20. -/
def toBatches (n : Nat) (l : List α) : List (List α) := toBatchesAux n l.length l

/-- Association-list append used to model the
`chunk_parents`/`chunk_ids_by_parent` dictionaries. -/
def assocAppend (l : List (PyStr × List PyStr)) (k v : PyStr) :
    List (PyStr × List PyStr) :=
  if (l.find? (fun kv => kv.1 == k)).isSome then
    l.map (fun kv => if kv.1 == k then (kv.1, kv.2 ++ [v]) else kv)
  else l ++ [(k, [v])]

def assocGet (l : List (PyStr × List PyStr)) (k : PyStr) : List PyStr :=
  match l.find? (fun kv => kv.1 == k) with
  | some kv => kv.2
  | none => []

def assocHas (l : List (PyStr × List PyStr)) (k : PyStr) : Bool :=
  (l.find? (fun kv => kv.1 == k)).isSome

/-- `map_chunks_by_parent` (src/rag/utils.py lines 97-114): map each parent id
with a truthy `parent_id` back-reference to the ids of its chunks, in store
order.  The Python returns the same grouping three ways (list per parent, set
per parent, set of all); the model returns the assoc list and derives the
rest. -/
def mapChunksByParent (entries : List Entry) : List (PyStr × List PyStr) :=
  entries.foldl
    (fun acc e =>
      match e.meta.parent_id with
      | some p => if p ≠ [] then assocAppend acc p e.eid else acc
      | none => acc)
    []

/-- The `all_chunk_ids` set of `map_chunks_by_parent`. -/
def allChunkIds (entries : List Entry) : List PyStr :=
  (entries.filter (fun e =>
    match e.meta.parent_id with
    | some p => p ≠ []
    | none => false)).map (·.eid)

/-- Chunk ids of one parent directly from the store (used to state theorems;
`assocGet_mapChunksByParent` connects it to the dictionaries the code builds). -/
def chunkIdsOf (st : Store) (d : PyStr) : List PyStr :=
  (st.filter (fun e => e.meta.parent_id == some d)).map (·.eid)

/-- The id space of a logical document in a store: its own id plus the ids of
its persisted chunks. -/
def idSpace (st : Store) (d : PyStr) : List PyStr := d :: chunkIdsOf st d

/-!
Write paths of `VectorStore` (src/rag/vectorstore.py).
Each function threads the collection state and appends the physical
operations it issues to a trace.
-/

/-- The chunk id scheme `f"{doc_id}_chunk_{j}"`. -/
def chunkIdStr (doc : PyStr) (j : Nat) : PyStr := doc ++ pyS "_chunk_" ++ natStr j

/-- Chunk entries generated for one document by
`_process_document_with_chunking` (lines 124-136): chunked text plus
per-chunk metadata `{**doc_meta, "chunk": j, "parent_id": doc_id,
"chunk_id": chunk_id}`. -/
def chunkData (doc txt : PyStr) (m : Meta) (chunkSize : Nat) : List Entry :=
  (chunkText txt chunkSize).enum.map (fun jc =>
    ⟨chunkIdStr doc jc.1, jc.2,
     { m with chunk := some jc.1, parent_id := some doc,
              chunk_id := some (chunkIdStr doc jc.1) }⟩)

/-- `_process_add_document` (lines 274-297): single `collection.add`; an
"already exists" collision is caught and reported as `false`.  A corrupted
metadata argument (a raw string instead of a mapping, `Sum.inr`) makes the
store reject the write, which the same handler catches. -/
def processAddDocument (st : Store) (doc txt : PyStr) (mv : MetaV) :
    Store × List Op × Bool :=
  match mv with
  | .inr _ => (st, [], false)
  | .inl m =>
    match storeAdd st ⟨doc, txt, m⟩ with
    | some st' => (st', [Op.wadd doc ⟨doc, txt, m⟩], true)
    | none => (st, [], false)

/-- `_add_single_chunk_with_fallback` (lines 299-331): try the chunk id, and
on collision retry once under `f"{chunk_id}_{int(time.time())}"`. -/
def addSingleChunkWithFallback (st : Store) (doc : PyStr) (e : Entry)
    (epoch : Nat) : Store × List Op × Bool :=
  match storeAdd st e with
  | some st' => (st', [Op.wadd doc e], true)
  | none =>
    let alt : Entry := { e with eid := e.eid ++ pyS "_" ++ natStr epoch }
    match storeAdd st alt with
    | some st' => (st', [Op.wadd doc alt], true)
    | none => (st, [], false)

/-- One iteration of the per-chunk fallback loop of
`_process_document_with_chunking` (lines 154-157). -/
def chunkFallStep (doc : PyStr) (epoch : Nat) (acc : Store × List Op × Nat)
    (e : Entry) : Store × List Op × Nat :=
  let (st, ops, n) := acc
  let (st', ops', ok) := addSingleChunkWithFallback st doc e epoch
  (st', ops ++ ops', if ok then n + 1 else n)

/-- `_process_document_with_chunking` (lines 114-170): one batch
`collection.add` of all chunks; on an "already exists" collision, fall back to
per-chunk additions with the timestamp fallback, succeeding if at least one
chunk was written.  With a corrupted metadata argument the `{**doc_meta}`
spread raises and the handler returns `false`. -/
def processDocWithChunking (st : Store) (doc txt : PyStr) (mv : MetaV)
    (chunkSize : Nat) (epoch : Nat) : Store × List Op × Bool :=
  match mv with
  | .inr _ => (st, [], false)
  | .inl m =>
    let ces := chunkData doc txt m chunkSize
    if ces.all (fun e => !(hasId st e.eid)) then
      (st ++ ces, ces.map (Op.wadd doc), true)
    else
      let r := ces.foldl (chunkFallStep doc epoch) (st, [], 0)
      (r.1, r.2.1, r.2.2 > 0)

/-- `_process_update_document` (lines 249-272): `collection.update`, falling
back to `_process_add_document` when the id is not found. -/
def processUpdateDocument (st : Store) (doc txt : PyStr) (m : Meta) :
    Store × List Op × Bool :=
  match storeUpd st doc txt m with
  | some st' => (st', [Op.wupd doc ⟨doc, txt, m⟩], true)
  | none => processAddDocument st doc txt (.inl m)

/-- `_update_chunked_document` (lines 333-357): delete every persisted entry
whose `parent_id` equals the document id, then re-add the document through
the chunking path. -/
def updateChunkedDocument (st : Store) (doc txt : PyStr) (m : Meta)
    (chunkSize epoch : Nat) : Store × List Op × Bool :=
  let dels := (st.filter (fun e => e.meta.parent_id == some doc)).map (·.eid)
  let (st1, ops1) :=
    if dels ≠ [] then (storeDel st dels, [Op.del dels]) else (st, [])
  let (st2, ops2, ok) := processDocWithChunking st1 doc txt (.inl m) chunkSize epoch
  (st2, ops1 ++ ops2, ok)

/-- `_update_simple_document` (lines 359-384): delete every persisted entry
whose `parent_id` equals the document id (the document is being converted
back to a single unit), then update in place with add fallback. -/
def updateSimpleDocument (st : Store) (doc txt : PyStr) (m : Meta) :
    Store × List Op × Bool :=
  let dels := (st.filter (fun e => e.meta.parent_id == some doc)).map (·.eid)
  let (st1, ops1) :=
    if dels ≠ [] then (storeDel st dels, [Op.del dels]) else (st, [])
  let (st2, ops2, ok) := processUpdateDocument st1 doc txt m
  (st2, ops1 ++ ops2, ok)

/-- One iteration of the per-document loop of `VectorStore.update`
(lines 404-417). -/
def updStep (chunkSize epoch : Nat) (acc : Store × List Op × Nat)
    (it : PyStr × PyStr × Meta) : Store × List Op × Nat :=
  let (st, ops, n) := acc
  let (doc, txt0, m) := it
  let txt := pyStrip txt0
  let (st', ops', ok) :=
    if txt.length > chunkSize then
      updateChunkedDocument st doc txt (cleanMeta m) chunkSize epoch
    else
      updateSimpleDocument st doc txt (cleanMeta m)
  (st', ops ++ ops', if ok then n + 1 else n)

/-- `VectorStore.update` (lines 387-420): re-normalize the inputs, then route
each document through the chunked or simple update path, counting
successes. -/
def updateDocs (st : Store) (items : List (PyStr × PyStr × Meta))
    (chunkSize epoch : Nat) : Store × List Op × Nat :=
  items.foldl (updStep chunkSize epoch) (st, [], 0)

/-- `VectorStore.add_documents` (lines 172-247).  Returns the collection, the
write trace, and the Python return value: `some n` for the `return
successfully_added` / early `return 0` paths, `none` for the bare `return` of
line 218 (every id already existed).

The `skip_existing` pre-filter reproduces the source faithfully, including
its two slips: when every id is filtered the function takes the bare
`return`; when only some are filtered, line 224 re-indexes the already
filtered id list — if the kept indices survive re-indexing the metadata list
becomes a list of raw id strings (`Sum.inr`), otherwise the `IndexError`
is caught by the surrounding `except` and the metadata list keeps its
original, now misaligned, value. -/
def addStep (chunkSize epoch : Nat) (acc : Store × List Op × Nat)
    (dtm : PyStr × PyStr × MetaV) : Store × List Op × Nat :=
  let (st, ops, n) := acc
  let (did, dtxt, dmv) := dtm
  let (st', ops', ok) :=
    if dtxt.length > chunkSize then
      processDocWithChunking st did dtxt dmv chunkSize epoch
    else
      processAddDocument st did dtxt dmv
  (st', ops ++ ops', if ok then n + 1 else n)

/-- The `skip_existing` pre-filter of `add_documents` (lines 202-227): the
possibly filtered (texts, ids, metadatas) triple and the early-return flag. -/
def addFilter (st : Store) (pTexts pIds : List PyStr) (pMetas : List MetaV) :
    List PyStr × List PyStr × List MetaV × Bool :=
  let existing := storeIds st
  let fIdx := (List.range pIds.length).filter
    (fun i => !(existing.contains (pIds.getD i [])))
  if fIdx.isEmpty then (pTexts, pIds, pMetas, true)
  else if fIdx.length < pIds.length then
    let nTexts := fIdx.map (fun i => pTexts.getD i [])
    let nIds := fIdx.map (fun i => pIds.getD i [])
    if fIdx.all (fun i => i < nIds.length) then
      (nTexts, nIds, fIdx.map (fun i => Sum.inr (nIds.getD i [])), false)
    else
      (nTexts, nIds, pMetas, false)
  else (pTexts, pIds, pMetas, false)

def addDocuments (st : Store) (texts : List PyStr) (metas? : Option (List Meta))
    (ids? : Option (List PyStr)) (skipExisting : Bool) (chunkSize epoch : Nat)
    (nowTs : PyStr) : Store × List Op × Option Nat :=
  let genIds : List PyStr :=
    (List.range texts.length).map (fun i => pyS "doc_" ++ nowTs ++ pyS "_" ++ natStr i)
  let ids : List PyStr :=
    match ids? with
    | none => genIds
    | some l => if l.isEmpty then genIds else l
  let metas : List Meta :=
    match metas? with
    | none => texts.map (fun _ => { source := pyS "notion" })
    | some l => if l.isEmpty then texts.map (fun _ => { source := pyS "notion" }) else l
  let pIds := ids
  let pTexts := texts.map pyStrip
  let pMetas : List MetaV := metas.map (fun m => .inl (cleanMeta m))
  let minLen := min pTexts.length (min pIds.length pMetas.length)
  let pTexts := pTexts.take minLen
  let pIds := pIds.take minLen
  let pMetas := pMetas.take minLen
  if pTexts.isEmpty then (st, [], some 0)
  else
    let filt : List PyStr × List PyStr × List MetaV × Bool :=
      if skipExisting then addFilter st pTexts pIds pMetas
      else (pTexts, pIds, pMetas, false)
    let fTexts := filt.1
    let fIds := filt.2.1
    let fMetas := filt.2.2.1
    let earlyRet := filt.2.2.2
    if earlyRet then (st, [], none)
    else
      let docs := zip3 fIds fTexts fMetas
      let r := docs.foldl (addStep chunkSize epoch) (st, [], 0)
      (r.1, r.2.1, some r.2.2)

/-!
`VectorStore.filter_deletions` (src/rag/vectorstore.py lines 422-469).

The inner scan over the existing documents breaks as soon as the candidate id
matches; before a match `meta` is still `None`, so the `continue` guard fires
and the parent-protection code below it never runs (the protection set stays
empty — `filterDeletions_eq` proves the function returns its input).  The
scan is embedded literally, dead branch included.
-/

/-- Insert into a set kept in insertion order. -/
def setIns (s : List PyStr) (x : PyStr) : List PyStr :=
  if s.contains x then s else s ++ [x]

/-- Insert many. -/
def setInsMany (s : List PyStr) (xs : List PyStr) : List PyStr :=
  xs.foldl setIns s

/-- `deletion_chunks.get(parent, [])` lookup (separate name from `assocGet` to
mirror that `filter_deletions` builds its own dictionary). -/
def assocGet2 (l : List (PyStr × List PyStr)) (k : PyStr) : List PyStr :=
  match l.find? (fun kv => kv.1 == k) with
  | some kv => kv.2
  | none => []

/-- State accumulated by `filter_deletions`: the protected parents (a set in
insertion order) and the `deletion_chunks` map. -/
abbrev FdState := List PyStr × List (PyStr × List PyStr)

/-- The inner `for i, doc_id in enumerate(existing_docs["ids"])` loop for one
deletion candidate (with the loop-carried `meta`). -/
def fdScan (item : PyStr) (pids : List PyStr) :
    List Entry → Option Meta → FdState → FdState
  | [], _, s => s
  | e :: rest, mo, s =>
    if e.eid == item then s
    else
      match mo with
      | none => fdScan item pids rest none s
      | some m =>
        match m.parent_id with
        | some p =>
          if p ≠ [] && pids.contains p then
            fdScan item pids rest mo
              (setIns s.1 p, assocAppend s.2 p item)
          else fdScan item pids rest mo s
        | none => fdScan item pids rest mo s

/-- `filter_deletions(to_delete, processed_ids, existing_docs, to_update)`. -/
def filterDeletions (toDel : List PyStr) (pids : List PyStr)
    (entries : List Entry) (toUpd : List (PyStr × PyStr × Meta)) : List PyStr :=
  let fd : FdState := toDel.foldl
    (fun s item => fdScan item pids entries none s) ([], [])
  let updating := toUpd.map (·.1)
  fd.1.foldl
    (fun td p =>
      if !(updating.contains p) then
        td.filter (fun c => !((assocGet2 fd.2 p).contains c))
      else td)
    toDel

/-!
`VectorStore.sync_documents` (src/rag/vectorstore.py lines 505-740).
-/

/-- Immutable per-call snapshot data derived from `existing_docs`:
the chunk maps of `map_chunks_by_parent` and the set
`existing_resource_ids` of truthy persisted `resource_id` values. -/
structure Snapshot where
  chunkParents : List (PyStr × List PyStr)
  allChunk : List PyStr
  resourceIds : List PyStr
deriving Repr

def snapOf (st : Store) : Snapshot :=
  { chunkParents := mapChunksByParent st
    allChunk := allChunkIds st
    resourceIds := st.foldl
      (fun acc e => if e.meta.resource_id ≠ [] then setIns acc e.meta.resource_id else acc)
      [] }

/-- Classification state of the reconciliation loop: the `to_add`,
`to_update` and `to_delete` working collections, the `tracked_doc_ids` set
and the mutable `existing_ids` dictionary (`rem`). -/
structure CState where
  toAdd : List (PyStr × PyStr × Meta)
  toUpd : List (PyStr × PyStr × Meta)
  toDel : List PyStr
  tracked : List PyStr
  rem : List Entry
deriving Repr

/-- `existing_ids.pop(doc_id, None)`. -/
def popId (rem : List Entry) (i : PyStr) : List Entry :=
  rem.filter (fun e => !(e.eid == i))

/-- The `vector_meta` extraction of lines 558-568: the direct entry's
metadata when the id is persisted, otherwise the first chunk's metadata
looked up in the mutable `existing_ids` dictionary (`none` models the
`KeyError` when that chunk id was popped). -/
def vmetaOf (snap : Snapshot) (rem : List Entry) (did : PyStr) : Option Meta :=
  match lookupE rem did with
  | some e => some e.meta
  | none =>
    match assocGet snap.chunkParents did with
    | c :: _ => (lookupE rem c).map (·.meta)
    | [] => none

/-- One iteration of the `for doc_id, doc_text, doc_metadata in zip(...)`
classification loop (lines 553-611).  Returns `Except` because the
chunk-grouping branch reads `existing_ids[first_chunk_id]`, which raises a
`KeyError` (propagated out of `sync_documents`) when that chunk id was popped
earlier in the loop. -/
def classifyStep (snap : Snapshot) (now : PyStr) (cs : CState)
    (dtm : PyStr × PyStr × Meta) : Except Unit CState :=
  let did := dtm.1
  let dtxt := dtm.2.1
  let dmeta := dtm.2.2
  let tr := setIns cs.tracked did
  if (lookupE cs.rem did).isSome || assocHas snap.chunkParents did then
    match vmetaOf snap cs.rem did with
    | none => .error ()
    | some vmeta =>
      if dmeta.last_modified ≠ [] ∧ vmeta.last_modified ≠ [] ∧
          pyLt vmeta.last_modified dmeta.last_modified = true then
        .ok { toAdd := cs.toAdd,
              toUpd := cs.toUpd ++ [(did, dtxt, addSyncMeta now dmeta)],
              toDel := (if assocHas snap.chunkParents did then
                          setInsMany cs.toDel (assocGet snap.chunkParents did)
                        else cs.toDel),
              tracked := tr,
              rem := popId cs.rem did }
      else
        .ok { cs with tracked := tr, rem := popId cs.rem did }
  else
    if subIn (pyS "_chunk_") did && snap.allChunk.contains did then
      .ok { cs with tracked := tr }
    else
      .ok { cs with
            tracked := tr,
            toAdd := cs.toAdd ++ [(did, dtxt, addSyncMeta now dmeta)] }

/-- The whole classification loop. -/
def classifyDocs (snap : Snapshot) (now : PyStr)
    (docs : List (PyStr × PyStr × Meta)) (cs : CState) : Except Unit CState :=
  docs.foldlM (classifyStep snap now) cs

/-- The orphan-deletion loop (lines 614-628): every remaining non-chunk entry
whose `resource_id` is in the persisted resource set and whose id was not
tracked is marked for deletion, cascading to its chunks. -/
def orphanStepE (snap : Snapshot) (cs : CState) (e : Entry) : CState :=
  if !e.meta.parent_id.isSome && snap.resourceIds.contains e.meta.resource_id
      && !(cs.tracked.contains e.eid) then
    let cs1 := { cs with toDel := setIns cs.toDel e.eid }
    if assocHas snap.chunkParents e.eid then
      { cs1 with toDel := setInsMany cs1.toDel (assocGet snap.chunkParents e.eid) }
    else cs1
  else cs

def orphanStep (snap : Snapshot) (cs : CState) : CState :=
  cs.rem.foldl (orphanStepE snap) cs

/-- The Sync Result dictionary.  `added` is an `Option` because
`add_documents` can return `None` (bare `return`, line 218), which
`sync_documents` stores unchecked into the result. -/
structure SyncRes where
  added : Option Nat
  updated : Nat
  deleted : Nat
deriving DecidableEq, Repr

/-- The `true_page_deletions` tally (lines 652-668): an item is counted as a
deleted page when no persisted metadata matches `chunk_id == item` or has any
non-`None` `parent_id` (the scan over all metadatas is the source's), and the
item is not part of an update; the `notion_` prefix is stripped before
deduplication. -/
def truePageDeletions (tdl : List PyStr) (entries : List Entry)
    (toUpd : List (PyStr × PyStr × Meta)) : Nat :=
  (tdl.foldl
    (fun acc item =>
      let isChunk := entries.any
        (fun e => e.meta.chunk_id == some item || e.meta.parent_id.isSome)
      if !isChunk && (toUpd.isEmpty || !((toUpd.map (·.1)).contains item)) then
        setIns acc
          (if hasPre (pyS "notion_") item then repAll (pyS "notion_") item else item)
      else acc)
    []).length

/-- The deletion phase of `sync_documents` (lines 670-700): filter the
candidates, issue batched deletes, tally `true_page_deletions`. -/
def delPhase (st : Store) (pIds : List PyStr) (cs : CState) :
    Store × List Op × Nat :=
  if cs.toDel ≠ [] then
    let tdl := filterDeletions cs.toDel pIds st cs.toUpd
    if tdl ≠ [] then
      (storeDel st tdl, (toBatches 100 tdl).map Op.del,
       truePageDeletions tdl st cs.toUpd)
    else (st, [], 0)
  else (st, [], 0)

/-- The addition phase of `sync_documents` (lines 702-712): hand the `to_add`
collection to `add_documents` with `skip_existing=True`. -/
def addPhase (st1 : Store) (chunkSize epoch : Nat) (now : PyStr)
    (cs : CState) : Store × List Op × Option Nat :=
  if cs.toAdd ≠ [] then
    addDocuments st1 (cs.toAdd.map (fun t => t.2.1))
      (some ((cs.toAdd.map (fun t => t.2.2)).map cleanMeta))
      (some (cs.toAdd.map (·.1))) true chunkSize epoch now
  else (st1, [], some 0)

/-- The update phase of `sync_documents` (lines 714-733): hand the `to_update`
collection to `VectorStore.update`; the reported count is the number of items,
not the number of successes. -/
def updPhase (st2 : Store) (chunkSize epoch : Nat) (cs : CState) :
    Store × List Op × Nat :=
  if cs.toUpd ≠ [] then
    let data := zip3 (cs.toUpd.map (·.1)) (cs.toUpd.map (fun t => t.2.1))
      ((cs.toUpd.map (fun t => t.2.2)).map cleanMeta)
    let (st', ops', _succ) := updateDocs st2 data chunkSize epoch
    (st', ops', data.length)
  else (st2, [], 0)

/-- Everything `sync_documents` does after a successful classification and
the orphan scan: the three phases in order, the Sync Result assembly and the
concatenated operation trace. -/
def syncPhases (st : Store) (pIds : List PyStr) (chunkSize : Nat)
    (now : PyStr) (epoch : Nat) (cs : CState) : SyncRes × Store × List Op :=
  let p1 := delPhase st pIds cs
  let p2 := addPhase p1.1 chunkSize epoch now cs
  let p3 := updPhase p2.1 chunkSize epoch cs
  ({ added := p2.2.2, updated := p3.2.2, deleted := p1.2.2 }, p3.1,
   p1.2.1 ++ p2.2.1 ++ p3.2.1)

/-- `VectorStore.sync_documents(ids, texts, metadatas)`.  Parameters beyond
the three lists: the configured `chunk_size`, the `datetime.now().isoformat()`
string `now` used by `add_sync_metadata`, and the `int(time.time())` value
`epoch` used by the chunk-id fallback.  Returns the Sync Result, the final
collection and the trace of physical operations, or `.error` for the
propagated `KeyError` of the classification loop. -/
def syncDocuments (st : Store) (ids texts : List PyStr) (metas : List Meta)
    (chunkSize : Nat) (now : PyStr) (epoch : Nat) :
    Except Unit (SyncRes × Store × List Op) :=
  let pTexts := texts.map pyStrip
  let pIds := ids
  let pMetas := metas.map cleanMeta
  let snap := snapOf st
  let docs := zip3 pIds pTexts pMetas
  match classifyDocs snap now docs ⟨[], [], [], [], st⟩ with
  | .error e => .error e
  | .ok cs0 => .ok (syncPhases st pIds chunkSize now epoch (orphanStep snap cs0))

/-- Result projection helper for concrete runs. -/
def runSyncRes (st : Store) (ids texts : List PyStr) (metas : List Meta)
    (chunkSize : Nat) (now : PyStr) (epoch : Nat) : Option SyncRes :=
  match syncDocuments st ids texts metas chunkSize now epoch with
  | .ok r => some r.1
  | .error _ => none

/-- Store projection helper for concrete runs. -/
def runSyncStore (st : Store) (ids texts : List PyStr) (metas : List Meta)
    (chunkSize : Nat) (now : PyStr) (epoch : Nat) : Option Store :=
  match syncDocuments st ids texts metas chunkSize now epoch with
  | .ok r => some r.2.1
  | .error _ => none

/-- Trace projection helper for concrete runs. -/
def runSyncTrace (st : Store) (ids texts : List PyStr) (metas : List Meta)
    (chunkSize : Nat) (now : PyStr) (epoch : Nat) : Option (List Op) :=
  match syncDocuments st ids texts metas chunkSize now epoch with
  | .ok r => some r.2.2
  | .error _ => none

/-- Two consecutive sync calls with the same input; returns the second Sync
Result. -/
def runSyncTwice (st : Store) (ids texts : List PyStr) (metas : List Meta)
    (chunkSize : Nat) (now : PyStr) (epoch : Nat) : Option SyncRes :=
  match syncDocuments st ids texts metas chunkSize now epoch with
  | .ok r => runSyncRes r.2.1 ids texts metas chunkSize now epoch
  | .error _ => none

/-!
`sync_notion_content` (src/notion/sync.py lines 11-230), modelled from the
point the page list has been fetched (resource detection, pagination and the
HTTP layer are external collaborators; their output is the `pages` input, and
the fallible `notion_client.get_page_content` call is the `fetch` input).
-/

/-- One raw page record as consumed by the per-page loop: the keys read from
the API dictionary.  `pid` is `page.get("id")` (`none` models the absent key,
whose subscript access raises and skips the item); `title` is the result of
the title-extraction chain, whose internal failures are caught and produce a
fallback string, so it is total. -/
structure Page where
  pid : Option PyStr
  lastEdited : PyStr
  title : PyStr
  tags : List PyStr
  url : PyStr
  publicUrl : PyStr
  createdTime : PyStr
  link : Option PyStr
  rating : Option PyStr
deriving DecidableEq, Repr

/-- Join a list of strings with a separator (Python `sep.flatten`). -/
def joinWith (sep : PyStr) : List PyStr → PyStr
  | [] => []
  | [x] => x
  | x :: y :: rest => x ++ sep ++ joinWith sep (y :: rest)

/-- The combined content template of lines 156-159. -/
def combineContent (title : PyStr) (tags : List PyStr) (content : PyStr) : PyStr :=
  pyS "Title: " ++ title ++ pyS "\nTags: "
    ++ (if tags ≠ [] then joinWith (pyS " ") tags else pyS "None")
    ++ pyS "\nContent: \n" ++ content

/-- The metadata record of lines 133-154. -/
def pageMeta (p : Page) (pid : PyStr) : Meta :=
  { page_id := pid
    title := p.title
    last_modified := p.lastEdited
    url := p.url
    tags := if p.tags ≠ [] then joinWith (pyS ", ") p.tags else []
    public_url := p.publicUrl
    created_time := p.createdTime
    link := p.link
    rating := p.rating }

/-- The body of the per-page loop (lines 73-178).  Returns `none` when the
item is skipped: a raised and caught exception (missing id key or a failing
content fetch), empty stripped content, or a falsy page id.  Otherwise the
`(id, combined_text, metadata)` triple appended to the accumulators. -/
def processPage (fetch : PyStr → Except PyStr PyStr) (p : Page) :
    Option (PyStr × PyStr × Meta) :=
  match p.pid with
  | none => none
  | some pid =>
    match fetch pid with
    | .error _ => none
    | .ok raw =>
      let content := pyStrip raw
      if content.isEmpty then none
      else if pid.isEmpty then none
      else some (pyS "notion_" ++ pid, combineContent p.title p.tags content,
                 pageMeta p pid)

/-- `sync_notion_content` from the fetched page list onward: build the
`texts`/`ids`/`metadatas` accumulators, return the all-zero result when no
document survived, re-filter for non-empty stripped text (the combined
template always is), call `sync_documents`, and attach `total =
len(pages)`.  The extra `Nat` of the result is the `total` field. -/
def syncNotionCore (triples : List (PyStr × PyStr × Meta)) (total : Nat)
    (st : Store) (chunkSize : Nat) (now : PyStr) (epoch : Nat) :
    Except Unit (SyncRes × Nat × Store × List Op) :=
  if triples.isEmpty then
    .ok ({ added := some 0, updated := 0, deleted := 0 }, 0, st, [])
  else
    let finals := triples.filterMap
      (fun t => if (pyStrip t.2.1).isEmpty then none
                else some (t.1, pyStrip t.2.1, t.2.2))
    if finals.isEmpty then
      .ok ({ added := some 0, updated := 0, deleted := 0 }, 0, st, [])
    else
      match syncDocuments st (finals.map (·.1)) (finals.map (fun t => t.2.1))
        (finals.map (fun t => t.2.2)) chunkSize now epoch with
      | .error e => .error e
      | .ok (r, st', ops) => .ok (r, total, st', ops)

/-- `sync_notion_content` from the fetched page list onward.  Its first touch
of the list is the unguarded `pages[0]` inside the debug f-string of line 38,
evaluated before any emptiness check: an empty page list raises `IndexError`,
which the surrounding handler only logs and re-raises (lines 227-230),
modelled `.error ()`. -/
def syncNotionContent (fetch : PyStr → Except PyStr PyStr) (pages : List Page)
    (st : Store) (chunkSize : Nat) (now : PyStr) (epoch : Nat) :
    Except Unit (SyncRes × Nat × Store × List Op) :=
  if pages.isEmpty then .error ()
  else
    syncNotionCore (pages.filterMap (processPage fetch)) pages.length st
      chunkSize now epoch

/-!
Supporting lemmas about stripping and splitting.
-/

theorem lstrip_length (s : PyStr) : (lstrip s).length ≤ s.length := by
  induction s with
  | nil => simp [lstrip]
  | cons c t ih =>
    by_cases h : isWs c
    · simp only [lstrip, List.dropWhile] at ih ⊢
      rw [h]
      exact Nat.le_trans ih (Nat.le_succ _)
    · simp only [lstrip, List.dropWhile] at ih ⊢
      rw [Bool.of_not_eq_true h]

theorem rstrip_length (s : PyStr) : (rstrip s).length ≤ s.length := by
  have := lstrip_length s.reverse
  simpa [rstrip, lstrip] using this

theorem pyStrip_length (s : PyStr) : (pyStrip s).length ≤ s.length :=
  Nat.le_trans (lstrip_length _) (rstrip_length _)

theorem rstrip_append_ws (s : PyStr) (c : Char) (h : isWs c = true) :
    rstrip (s ++ [c]) = rstrip s := by
  simp [rstrip, List.dropWhile, h]

theorem rstrip_append_nonws (s : PyStr) (c : Char) (h : isWs c = false) :
    rstrip (s ++ [c]) = s ++ [c] := by
  simp [rstrip, List.dropWhile, h]

theorem pyStrip_dot_space (t : PyStr) :
    (pyStrip (t ++ pyS ". ")).length ≤ t.length + 1 := by
  have h1 : rstrip (t ++ pyS ". ") = t ++ ['.'] := by
    have : t ++ pyS ". " = (t ++ ['.']) ++ [' '] := by simp [pyS]
    rw [this, rstrip_append_ws _ ' ' (by decide), rstrip_append_nonws _ '.' (by decide)]
  calc (pyStrip (t ++ pyS ". ")).length
      ≤ (rstrip (t ++ pyS ". ")).length := lstrip_length _
    _ = t.length + 1 := by rw [h1]; simp

theorem pyStrip_nn (t : PyStr) :
    (pyStrip (t ++ pyS "\n\n")).length ≤ t.length := by
  have h1 : rstrip (t ++ pyS "\n\n") = rstrip t := by
    have : t ++ pyS "\n\n" = (t ++ ['\n']) ++ ['\n'] := by simp [pyS]
    rw [this, rstrip_append_ws _ '\n' (by decide), rstrip_append_ws _ '\n' (by decide)]
  calc (pyStrip (t ++ pyS "\n\n")).length
      ≤ (rstrip (t ++ pyS "\n\n")).length := lstrip_length _
    _ ≤ t.length := by rw [h1]; exact rstrip_length t

theorem pyS_dot_space_eq : pyS ". " = ['.', ' '] := rfl

theorem pyS_nn_eq : pyS "\n\n" = ['\n', '\n'] := rfl

/-- Loop invariant of `chunk_text`: every flushed chunk fits the limit, and
the running buffer is empty or ends with the separator it last appended,
bounded by `m + 1` (sentence form) or `m + 2` (paragraph form). -/
def chunkInv (m : Nat) (st : List PyStr × PyStr) : Prop :=
  (∀ c ∈ st.1, c.length ≤ m) ∧
  (st.2 = [] ∨ (∃ t, st.2 = t ++ pyS ". " ∧ st.2.length ≤ m + 1)
            ∨ (∃ t, st.2 = t ++ pyS "\n\n" ∧ st.2.length ≤ m + 2))

theorem chunkInv_flush {m : Nat} {st : List PyStr × PyStr}
    (h : chunkInv m st) (hne : st.2 ≠ []) : (pyStrip st.2).length ≤ m := by
  rcases h.2 with h0 | ⟨t, ht, hl⟩ | ⟨t, ht, hl⟩
  · exact absurd h0 hne
  · have hlen : st.2.length = t.length + 2 := by
      rw [ht, pyS_dot_space_eq]; simp
    have htl : t.length + 1 ≤ m := by omega
    calc (pyStrip st.2).length = (pyStrip (t ++ pyS ". ")).length := by rw [ht]
      _ ≤ t.length + 1 := pyStrip_dot_space t
      _ ≤ m := htl
  · have hlen : st.2.length = t.length + 2 := by
      rw [ht, pyS_nn_eq]; simp
    have htl : t.length ≤ m := by omega
    calc (pyStrip st.2).length = (pyStrip (t ++ pyS "\n\n")).length := by rw [ht]
      _ ≤ t.length := pyStrip_nn t
      _ ≤ m := htl

theorem chunkSentStep_inv {m : Nat} {st : List PyStr × PyStr} {s : PyStr}
    (hs : s.length < m) (h : chunkInv m st) :
    chunkInv m (chunkSentStep m st s) := by
  obtain ⟨chunks, cur⟩ := st
  by_cases hg : cur.length + s.length < m
  · refine ⟨?_, Or.inr (Or.inl ⟨cur ++ s, ?_, ?_⟩)⟩
    · simpa [chunkSentStep, hg] using h.1
    · simp [chunkSentStep, hg]
    · simp only [chunkSentStep, hg, if_pos]
      rw [pyS_dot_space_eq]; simp; omega
  · constructor
    · intro c hc
      by_cases hne : cur = []
      · simp [chunkSentStep, hg, hne] at hc
        exact h.1 c hc
      · simp [chunkSentStep, hg, hne] at hc
        rcases hc with hc | hc
        · exact h.1 c hc
        · rw [hc]; exact chunkInv_flush h hne
    · refine Or.inr (Or.inl ⟨s, ?_, ?_⟩)
      · simp [chunkSentStep, hg]
      · simp only [chunkSentStep, hg, if_neg]
        rw [pyS_dot_space_eq]; simp; omega

theorem chunkSentFold_inv {m : Nat} (l : List PyStr) :
    ∀ st : List PyStr × PyStr, (∀ s ∈ l, s.length < m) → chunkInv m st →
    chunkInv m (l.foldl (chunkSentStep m) st) := by
  induction l with
  | nil => intro st _ h; simpa using h
  | cons s rest ih =>
    intro st hl h
    simp only [List.foldl_cons]
    exact ih _ (fun x hx => hl x (List.mem_cons_of_mem _ hx))
      (chunkSentStep_inv (hl s (List.mem_cons_self _ _)) h)

theorem chunkParaStep_inv {m : Nat} {st : List PyStr × PyStr} {p : PyStr}
    (hp : m < p.length → ∀ s ∈ split2 '.' ' ' p, s.length < m)
    (h : chunkInv m st) : chunkInv m (chunkParaStep m st p) := by
  obtain ⟨chunks, cur⟩ := st
  by_cases hover : p.length > m
  · simp only [chunkParaStep, hover, if_pos]
    exact chunkSentFold_inv _ _ (hp hover) h
  · have hple : p.length ≤ m := Nat.le_of_not_lt hover
    by_cases hg : cur.length + p.length < m
    · refine ⟨?_, Or.inr (Or.inr ⟨cur ++ p, ?_, ?_⟩)⟩
      · simpa [chunkParaStep, hover, hg] using h.1
      · simp [chunkParaStep, hover, hg]
      · simp only [chunkParaStep, hover, hg, if_neg, if_pos]
        rw [pyS_nn_eq]; simp; omega
    · constructor
      · intro c hc
        by_cases hne : cur = []
        · simp [chunkParaStep, hover, hg, hne] at hc
          exact h.1 c hc
        · simp [chunkParaStep, hover, hg, hne] at hc
          rcases hc with hc | hc
          · exact h.1 c hc
          · rw [hc]; exact chunkInv_flush h hne
      · refine Or.inr (Or.inr ⟨p, ?_, ?_⟩)
        · simp [chunkParaStep, hover, hg]
        · simp only [chunkParaStep, hover, hg]
          rw [pyS_nn_eq]; simp; omega

theorem chunkParaFold_inv {m : Nat} (l : List PyStr) :
    ∀ st : List PyStr × PyStr,
    (∀ p ∈ l, m < p.length → ∀ s ∈ split2 '.' ' ' p, s.length < m) →
    chunkInv m st → chunkInv m (l.foldl (chunkParaStep m) st) := by
  induction l with
  | nil => intro st _ h; simpa using h
  | cons p rest ih =>
    intro st hl h
    simp only [List.foldl_cons]
    exact ih _ (fun x hx => hl x (List.mem_cons_of_mem _ hx))
      (chunkParaStep_inv (hl p (List.mem_cons_self _ _)) h)

/-!
Claims C5 and C9 about `chunk_text`.
-/

/-- Counterexample to C5 as stated: `chunk_text("aaaaaa", 5)` returns the
single chunk `"aaaaaa."` of length 7 (a paragraph longer than the limit with
no `". "` boundary is kept whole, and gains a fabricated `". "`). -/
theorem chunk_size_cex :
    ¬ (∀ c ∈ chunkText (pyS "aaaaaa") 5, c.length ≤ 5) := by decide

/-- C5 (amended): every element of `chunk_text(text, max_chars)` has length at
most `max_chars`, provided every `". "`-separated sentence of every paragraph
that exceeds the effective limit `min max_chars 6000` is itself shorter than
that limit. -/
theorem chunkText_size (text : PyStr) (maxChars : Nat)
    (h : ∀ p ∈ split2 '\n' '\n' text, min maxChars 6000 < p.length →
         ∀ s ∈ split2 '.' ' ' p, s.length < min maxChars 6000) :
    ∀ c ∈ chunkText text maxChars, c.length ≤ maxChars := by
  intro c hc
  have hmin : min maxChars 6000 ≤ maxChars := Nat.min_le_left _ _
  have hinv : chunkInv (min maxChars 6000)
      ((split2 '\n' '\n' text).foldl (chunkParaStep (min maxChars 6000)) ([], [])) :=
    chunkParaFold_inv _ ([], []) h ⟨by simp, Or.inl rfl⟩
  set st := (split2 '\n' '\n' text).foldl (chunkParaStep (min maxChars 6000)) ([], [])
    with hst
  have hc' : c ∈ (if st.2 ≠ [] then st.1 ++ [pyStrip st.2] else st.1) := hc
  by_cases hne : st.2 = []
  · simp [hne] at hc'
    exact Nat.le_trans (hinv.1 c hc') hmin
  · simp [hne] at hc'
    rcases hc' with hc' | hc'
    · exact Nat.le_trans (hinv.1 c hc') hmin
    · rw [hc']
      exact Nat.le_trans (chunkInv_flush hinv hne) hmin

/-- Witness for `chunkText_size` at a concrete input. -/
theorem chunkText_size_witness :
    (∀ p ∈ split2 '\n' '\n' (pyS "ab\n\ncd"), min 4 6000 < p.length →
      ∀ s ∈ split2 '.' ' ' p, s.length < min 4 6000) ∧
    ∀ c ∈ chunkText (pyS "ab\n\ncd") 4, c.length ≤ 4 :=
  ⟨by decide, chunkText_size (pyS "ab\n\ncd") 4 (by decide)⟩

/-- C9: `chunk_text` is deterministic — a pure function of its two arguments;
two calls on equal inputs return equal chunk sequences. -/
theorem chunkText_deterministic (t1 t2 : PyStr) (m1 m2 : Nat)
    (h1 : t1 = t2) (h2 : m1 = m2) : chunkText t1 m1 = chunkText t2 m2 := by
  rw [h1, h2]

/-- Witness for `chunkText_deterministic` at a concrete input. -/
theorem chunkText_deterministic_witness :
    pyS "ab\n\ncd" = pyS "ab\n\ncd" ∧ (5 : Nat) = 5 ∧
    chunkText (pyS "ab\n\ncd") 5 = chunkText (pyS "ab\n\ncd") 5 :=
  ⟨rfl, rfl, chunkText_deterministic _ _ _ _ rfl rfl⟩

/-!
Claim C6: content preservation of `chunk_text`, measured on the
non-whitespace characters (whitespace collapsing and the removed separators
are exactly the whitespace of the input).
-/

/-- The non-whitespace content of a string. -/
def filterNW (s : PyStr) : PyStr := s.filter (fun c => !(isWs c))

theorem split2_ne_nil (a b : Char) (s : PyStr) : split2 a b s ≠ [] := by
  induction s using split2.induct a b with
  | case1 => simp [split2]
  | case2 c => simp [split2]
  | case3 c d rest hab ih => simp [split2, hab]
  | case4 c d rest hab hnil ih => exact absurd hnil ih
  | case5 c d rest hab h t hcons ih => simp [split2, hab, hcons]

theorem joinSep2_split2 (a b : Char) (s : PyStr) :
    joinSep2 a b (split2 a b s) = s := by
  induction s using split2.induct a b with
  | case1 => rfl
  | case2 c => rfl
  | case3 c d rest hab ih =>
    obtain ⟨ha, hb⟩ := And.intro (eq_of_beq (Bool.and_elim_left hab))
      (eq_of_beq (Bool.and_elim_right hab))
    rw [show split2 a b (c :: d :: rest) = [] :: split2 a b rest by
      simp [split2, hab]]
    rcases hx : split2 a b rest with _ | ⟨x, t⟩
    · exact absurd hx (split2_ne_nil a b rest)
    · rw [joinSep2]
      rw [hx] at ih
      rw [ih, ha, hb]
      rfl
  | case4 c d rest hab hnil ih => exact absurd hnil (split2_ne_nil a b _)
  | case5 c d rest hab h t hcons ih =>
    rw [show split2 a b (c :: d :: rest) = (c :: h) :: t by
      simp [split2, hab, hcons]]
    rw [hcons] at ih
    rcases t with _ | ⟨y, t'⟩
    · rw [joinSep2] at ih ⊢
      rw [ih]
    · rw [joinSep2] at ih ⊢
      rw [List.cons_append, ih]

theorem filterNW_append (s t : PyStr) :
    filterNW (s ++ t) = filterNW s ++ filterNW t := by
  simp [filterNW, List.filter_append]

theorem filterNW_lstrip (s : PyStr) : filterNW (lstrip s) = filterNW s := by
  induction s with
  | nil => rfl
  | cons c t ih =>
    by_cases h : isWs c
    · simp only [lstrip, List.dropWhile, h]
      rw [show filterNW (c :: t) = filterNW t by simp [filterNW, h]]
      simpa [lstrip] using ih
    · simp [lstrip, List.dropWhile, h]

theorem filterNW_reverse (s : PyStr) : filterNW s.reverse = (filterNW s).reverse := by
  induction s with
  | nil => rfl
  | cons c t ih =>
    by_cases h : isWs c
    · simp [filterNW, List.reverse_cons, List.filter_append, h] at ih ⊢
    · simp [filterNW, List.reverse_cons, List.filter_append, h] at ih ⊢

theorem filterNW_rstrip (s : PyStr) : filterNW (rstrip s) = filterNW s := by
  have h1 : filterNW (rstrip s) = (filterNW (lstrip s.reverse)).reverse := by
    rw [rstrip, filterNW_reverse]; rfl
  rw [h1, filterNW_lstrip, filterNW_reverse, List.reverse_reverse]

theorem filterNW_pyStrip (s : PyStr) : filterNW (pyStrip s) = filterNW s := by
  rw [pyStrip, filterNW_lstrip, filterNW_rstrip]

theorem filterNW_joinSep2 (a b : Char) (ha : isWs a = true) (hb : isWs b = true)
    (l : List PyStr) : filterNW (joinSep2 a b l) = (l.map filterNW).flatten := by
  induction l with
  | nil => rfl
  | cons x rest ih =>
    rcases rest with _ | ⟨y, t⟩
    · simp [joinSep2]
    · rw [joinSep2, filterNW_append]
      rw [show filterNW (a :: b :: joinSep2 a b (y :: t))
            = filterNW (joinSep2 a b (y :: t)) by simp [filterNW, ha, hb]]
      rw [ih]
      simp

/-- Content accounting for the paragraph loop when no paragraph exceeds the
limit (so the sentence branch never runs): the non-whitespace characters of
the flushed chunks plus the running buffer grow by exactly the non-whitespace
characters of the consumed paragraphs. -/
theorem chunkParaFold_content (m : Nat) (l : List PyStr) :
    ∀ st : List PyStr × PyStr, (∀ p ∈ l, p.length ≤ m) →
    filterNW ((l.foldl (chunkParaStep m) st).1.flatten ++ (l.foldl (chunkParaStep m) st).2)
      = filterNW (st.1.flatten ++ st.2) ++ (l.map filterNW).flatten := by
  induction l with
  | nil => intro st _; simp
  | cons p rest ih =>
    intro st hl
    obtain ⟨chunks, cur⟩ := st
    have hp : p.length ≤ m := hl p (List.mem_cons_self _ _)
    have hrest : ∀ q ∈ rest, q.length ≤ m :=
      fun q hq => hl q (List.mem_cons_of_mem _ hq)
    have hover : ¬ p.length > m := Nat.not_lt.mpr hp
    simp only [List.foldl_cons, List.map_cons, List.flatten]
    by_cases hg : cur.length + p.length < m
    · rw [show chunkParaStep m (chunks, cur) p = (chunks, cur ++ p ++ pyS "\n\n") by
        simp [chunkParaStep, hover, hg]]
      rw [ih _ hrest]
      simp only [filterNW_append]
      rw [show filterNW (pyS "\n\n") = [] by rfl]
      simp
    · by_cases hne : cur = []
      · rw [show chunkParaStep m (chunks, cur) p = (chunks, p ++ pyS "\n\n") by
          simp [chunkParaStep, hover, hg, hne]]
        rw [ih _ hrest]
        simp only [filterNW_append]
        rw [show filterNW (pyS "\n\n") = [] by rfl]
        simp [hne, filterNW]
      · rw [show chunkParaStep m (chunks, cur) p
            = (chunks ++ [pyStrip cur], p ++ pyS "\n\n") by
          simp [chunkParaStep, hover, hg, hne]]
        rw [ih _ hrest]
        simp only [filterNW_append, List.flatten_append, List.flatten]
        rw [show filterNW (pyS "\n\n") = [] by rfl]
        rw [filterNW_pyStrip]
        rw [show filterNW ([] : PyStr) = [] from rfl]
        simp

/-- Counterexample to C6 as stated: for the input `"aaaaaa"` with limit 5 the
single chunk is `"aaaaaa."` — the fabricated `"."` is a non-whitespace
character that the input does not contain, so the concatenation differs from
the input even after discarding all whitespace. -/
theorem chunk_content_cex :
    filterNW ((chunkText (pyS "aaaaaa") 5).flatten) ≠ filterNW (pyS "aaaaaa") := by
  decide

/-- C6 (amended): when every paragraph of the input fits the effective limit
`min max_chars 6000`, the concatenation of the chunks carries exactly the
non-whitespace characters of the input, in order — nothing is lost,
duplicated or reordered, and the dropped separators are whitespace.  (An
over-long paragraph instead gains one fabricated `". "` per sentence, which
is what the counterexample exhibits.) -/
theorem chunkText_content (text : PyStr) (maxChars : Nat)
    (h : ∀ p ∈ split2 '\n' '\n' text, p.length ≤ min maxChars 6000) :
    filterNW ((chunkText text maxChars).flatten) = filterNW text := by
  have hfold := chunkParaFold_content (min maxChars 6000)
    (split2 '\n' '\n' text) ([], []) h
  set st := (split2 '\n' '\n' text).foldl (chunkParaStep (min maxChars 6000)) ([], [])
    with hst
  have hjoin : filterNW (st.1.flatten ++ st.2)
      = ((split2 '\n' '\n' text).map filterNW).flatten := by
    rw [hfold]; rfl
  have htext : filterNW text = ((split2 '\n' '\n' text).map filterNW).flatten := by
    conv_lhs => rw [← joinSep2_split2 '\n' '\n' text]
    exact filterNW_joinSep2 '\n' '\n' rfl rfl _
  have hct : chunkText text maxChars
      = (if st.2 ≠ [] then st.1 ++ [pyStrip st.2] else st.1) := rfl
  by_cases hne : st.2 = []
  · rw [hct]
    simp only [hne, ne_eq, not_true_eq_false, if_neg, not_false_eq_true]
    rw [htext, ← hjoin, hne]
    simp
  · rw [hct]
    simp only [hne, ne_eq, not_false_eq_true, if_pos]
    rw [htext, ← hjoin]
    simp [List.flatten_append, filterNW_append, filterNW_pyStrip]

/-- Witness for `chunkText_content` at a concrete input. -/
theorem chunkText_content_witness :
    (∀ p ∈ split2 '\n' '\n' (pyS "ab\n\ncd"), p.length ≤ min 4 6000) ∧
    filterNW ((chunkText (pyS "ab\n\ncd") 4).flatten) = filterNW (pyS "ab\n\ncd") :=
  ⟨by decide, chunkText_content (pyS "ab\n\ncd") 4 (by decide)⟩

/-!
Concrete inputs shared by the evaluation theorems below.
-/

/-- A store with a simple document `p` and one chunk `p_chunk_0` of it. -/
def stPC : Store :=
  [⟨pyS "p", pyS "tp", { last_modified := pyS "1", resource_id := pyS "r" }⟩,
   ⟨pyS "p_chunk_0", pyS "tc",
    { last_modified := pyS "1", resource_id := pyS "r",
      parent_id := some (pyS "p"), chunk := some 0,
      chunk_id := some (pyS "p_chunk_0") }⟩]

/-- A store holding document `p` as a single chunk (no parent entry). -/
def stChunkOnly : Store :=
  [⟨pyS "p_chunk_0", pyS "told",
    { last_modified := pyS "1", resource_id := pyS "r",
      parent_id := some (pyS "p"), chunk := some 0,
      chunk_id := some (pyS "p_chunk_0") }⟩]

/-- Incoming metadata with `last_modified = "2"`. -/
def metaLm2 : Meta := { last_modified := pyS "2", resource_id := pyS "r" }

/-- Counterexample to C2 as stated.  The persisted entry `"a"` has
`resource_id = "r1"` while the sync call carries only a document of resource
`"r2"`; the entry is nevertheless placed in the deletion list and physically
deleted, because line 530 of vectorstore.py computes `existing_resource_ids`
from the persisted metadata rather than from the resources being synced. -/
theorem deletion_scope_cex :
    (runSyncTrace
        [⟨pyS "a", pyS "ta", { last_modified := pyS "1", resource_id := pyS "r1" }⟩]
        [pyS "b"] [pyS "tb"] [{ last_modified := pyS "1", resource_id := pyS "r2" }]
        100 (pyS "N") 7).map traceDelIds = some [pyS "a"]
    ∧ pyS "r1" ∉ [pyS "r2"] := by decide

/-- C3 failing input.  Store: document `p` persisted as a single entry with
`last_modified = "1"`; incoming: the same id with `last_modified = "2"` and a
text of 8 characters against `chunk_size = 5`.  The first sync updates `p`
into chunks but leaves the stale single entry `p` (with its old timestamp)
behind, so the second, identical sync classifies `p` stale again and returns
`updated = 1` instead of the all-zero result the claim requires. -/
theorem sync_idem_bug :
    runSyncRes [⟨pyS "p", pyS "t0", { last_modified := pyS "1", resource_id := pyS "r" }⟩]
        [pyS "p"] [pyS "abcdefgh"] [metaLm2] 5 (pyS "N") 7
      = some { added := some 0, updated := 1, deleted := 0 }
    ∧ runSyncTwice [⟨pyS "p", pyS "t0", { last_modified := pyS "1", resource_id := pyS "r" }⟩]
        [pyS "p"] [pyS "abcdefgh"] [metaLm2] 5 (pyS "N") 7
      = some { added := some 0, updated := 1, deleted := 0 } := by decide

/-- C4 failing input for the `deleted` tally.  The store holds the logical
document `p` (one parent entry plus one chunk); a sync whose input no longer
contains `p` physically deletes both entries (the trace shows the batch), yet
the returned Sync Result reports `deleted = 0`: the `is_chunk` re-scan of
lines 655-659 tests `meta.get("parent_id") is not None` against *every*
persisted metadata, so as soon as any chunk exists in the collection every
deletion candidate is classified as a chunk and the page tally stays 0.  The
claim (and §3 of the spec) requires this deletion to count exactly 1. -/
theorem deleted_count_bug :
    runSyncRes stPC [pyS "x"] [pyS "tx"]
        [{ last_modified := pyS "1", resource_id := pyS "r" }] 100 (pyS "N") 7
      = some { added := some 1, updated := 0, deleted := 0 }
    ∧ (runSyncTrace stPC [pyS "x"] [pyS "tx"]
        [{ last_modified := pyS "1", resource_id := pyS "r" }] 100 (pyS "N") 7).map
          traceDelIds
      = some [pyS "p", pyS "p_chunk_0"] := by decide

/-- Counterexample to C7 as stated.  Document `p` is persisted as chunks with
`last_modified = "1"`; the incoming list contains id `p` twice with
`last_modified = "2"` and different texts.  No occurrence is dropped: both are
classified UPDATE, the Sync Result double-counts (`updated = 2`), and the
store ends up with the *second* occurrence's text, so the first occurrence
does not win either. -/
theorem dup_id_cex :
    runSyncRes stChunkOnly [pyS "p", pyS "p"] [pyS "t1", pyS "t2"] [metaLm2, metaLm2]
        100 (pyS "N") 7
      = some { added := some 0, updated := 2, deleted := 0 }
    ∧ (runSyncStore stChunkOnly [pyS "p", pyS "p"] [pyS "t1", pyS "t2"]
        [metaLm2, metaLm2] 100 (pyS "N") 7).map (List.map (fun e => (e.eid, e.text)))
      = some [(pyS "p", pyS "t2")] := by decide

/-- C10 failing inputs for `add_documents(..., skip_existing=True)`.

First conjunct: when every input id already exists the function takes the bare
`return` of line 218 and yields `None` (modelled `none`) instead of the
integer 0.

Second conjunct: with ids `["a", "b"]` where only `"a"` exists, the
pre-filter keeps index 1; line 224 then indexes the already-filtered id list
out of range, the `IndexError` is swallowed, and the stale full metadata list
is zipped against the filtered ids — so `"b"` is written with `"a"`'s
metadata (title `"A"`), not its own (title `"B"`). -/
theorem add_documents_bug :
    addDocuments [⟨pyS "a", pyS "t", { title := pyS "A" }⟩] [pyS "x"]
        (some [{ title := pyS "B" }]) (some [pyS "a"]) true 100 7 (pyS "N")
      = ([⟨pyS "a", pyS "t", { title := pyS "A" }⟩], [], none)
    ∧ (addDocuments [⟨pyS "a", pyS "t", { title := pyS "A" }⟩]
        [pyS "ta2", pyS "tb"] (some [{ title := pyS "A" }, { title := pyS "B" }])
        (some [pyS "a", pyS "b"]) true 100 7 (pyS "N")).1
      = [⟨pyS "a", pyS "t", { title := pyS "A" }⟩,
         ⟨pyS "b", pyS "tb", { title := pyS "A" }⟩] := by decide

/-!
Claim C8: an input with no processable document yields the all-zero Sync
Result, and per-item failures are skipped without affecting the rest.
-/

/-- Drop the `total` component of a `sync_notion_content` outcome. -/
def sncDrop : Except Unit (SyncRes × Nat × Store × List Op) →
    Except Unit (SyncRes × Store × List Op)
  | .error e => .error e
  | .ok (r, _, st, ops) => .ok (r, st, ops)

theorem filterMap_filter_isSome {α β : Type} (f : α → Option β) (l : List α) :
    (l.filter (fun a => (f a).isSome)).filterMap f = l.filterMap f := by
  induction l with
  | nil => rfl
  | cons a t ih =>
    by_cases h : (f a).isSome
    · obtain ⟨b, hb⟩ := Option.isSome_iff_exists.mp h
      simp [List.filter_cons, h, List.filterMap_cons, hb, ih]
    · have hb : f a = none := Option.not_isSome_iff_eq_none.mp h
      simp [List.filter_cons, h, List.filterMap_cons, hb, ih]

theorem sncDrop_core (t : List (PyStr × PyStr × Meta)) (n1 n2 : Nat) (st : Store)
    (c : Nat) (now : PyStr) (e : Nat) :
    sncDrop (syncNotionCore t n1 st c now e)
      = sncDrop (syncNotionCore t n2 st c now e) := by
  unfold syncNotionCore
  by_cases h1 : t.isEmpty
  · simp [h1]
  · simp only [h1, if_false, Bool.false_eq_true]
    set finals := t.filterMap
      (fun t => if (pyStrip t.2.1).isEmpty then none
                else some (t.1, pyStrip t.2.1, t.2.2)) with hf
    by_cases h2 : finals.isEmpty
    · simp [h2]
    · simp only [h2, if_false, Bool.false_eq_true]
      cases hm : syncDocuments st (finals.map (·.1)) (finals.map (fun t => t.2.1))
          (finals.map (fun t => t.2.2)) c now e with
      | error err => simp [sncDrop]
      | ok out => obtain ⟨r, st', ops⟩ := out; simp [sncDrop]

/-- Counterexample to C8 as stated: the empty page list — a case the claim
explicitly includes — does not yield the all-zero Sync Result; the unguarded
`pages[0]` debug access of line 38 raises `IndexError`, which the handler of
lines 227-230 re-raises. -/
theorem sync_notion_empty_pages_cex :
    syncNotionContent (fun _ => Except.ok (pyS "t")) [] [] 100 (pyS "N") 7
      = .error () := rfl

/-- C8 (amended): (i) an empty page list raises (the unguarded `pages[0]`
debug access, re-raised by the outer handler) instead of returning the
all-zero Sync Result; (ii) when the page list is non-empty and no page
yields a processable document — every page's content is empty or every
per-item processing attempt fails — `sync_notion_content` returns the
all-zero Sync Result (with `total = 0`) instead of raising; (iii) per-item
failures are caught and skipped: as long as some page is processable, the
Sync Result, final store and write trace of the call coincide with those of
the call restricted to the processable pages. -/
theorem sync_notion_empty_and_skip (fetch : PyStr → Except PyStr PyStr)
    (pages : List Page) (st : Store) (chunkSize : Nat) (now : PyStr) (epoch : Nat) :
    (pages = [] →
      syncNotionContent fetch pages st chunkSize now epoch = .error ())
    ∧ (pages ≠ [] → pages.filterMap (processPage fetch) = [] →
      syncNotionContent fetch pages st chunkSize now epoch
        = .ok ({ added := some 0, updated := 0, deleted := 0 }, 0, st, []))
    ∧ (pages.filter (fun p => (processPage fetch p).isSome) ≠ [] →
      sncDrop (syncNotionContent fetch pages st chunkSize now epoch)
        = sncDrop (syncNotionContent fetch
            (pages.filter (fun p => (processPage fetch p).isSome))
            st chunkSize now epoch)) := by
  refine ⟨?_, ?_, ?_⟩
  · intro h
    subst h
    rfl
  · intro hne h
    have hpe : pages.isEmpty = false := by
      cases pages with
      | nil => exact absurd rfl hne
      | cons a l => rfl
    simp [syncNotionContent, hpe, syncNotionCore, h]
  · intro hfne
    have hpne : pages ≠ [] := by
      intro hc
      subst hc
      exact hfne rfl
    have hpe : pages.isEmpty = false := by
      cases pages with
      | nil => exact absurd rfl hpne
      | cons a l => rfl
    have hfpe : (pages.filter (fun p => (processPage fetch p).isSome)).isEmpty
        = false := by
      cases hf : pages.filter (fun p => (processPage fetch p).isSome) with
      | nil => exact absurd hf hfne
      | cons a l => rfl
    unfold syncNotionContent
    rw [hpe, hfpe]
    simp only [Bool.false_eq_true, if_false]
    rw [filterMap_filter_isSome]
    exact sncDrop_core _ _ _ _ _ _ _

/-- A page whose content fetch always fails. -/
def pgOne : Page :=
  { pid := some (pyS "p1"), lastEdited := pyS "1", title := pyS "T", tags := [],
    url := [], publicUrl := [], createdTime := [], link := none, rating := none }

/-- Witness for `sync_notion_empty_and_skip`: one page whose content fetch
raises — the list is non-empty, nothing is processable, and the call returns
the all-zero result. -/
theorem sync_notion_empty_witness :
    ([pgOne].filterMap (processPage (fun _ => Except.error [])) = []) ∧
    syncNotionContent (fun _ => Except.error []) [pgOne] [] 100 (pyS "N") 7
      = .ok ({ added := some 0, updated := 0, deleted := 0 }, 0, [], []) :=
  ⟨by decide,
   (sync_notion_empty_and_skip (fun _ => Except.error []) [pgOne] [] 100
     (pyS "N") 7).2.1 (by decide) (by decide)⟩

/-!
Small lemmas about the store, the insertion-order sets and the assoc maps.
-/

theorem contains_mem {s : List PyStr} {y : PyStr} :
    s.contains y = true ↔ y ∈ s := List.elem_iff

theorem mem_setIns {s : List PyStr} {x y : PyStr} :
    x ∈ setIns s y ↔ x ∈ s ∨ x = y := by
  unfold setIns
  by_cases h : y ∈ s
  · rw [if_pos (contains_mem.mpr h)]
    constructor
    · exact Or.inl
    · rintro (hx | rfl)
      · exact hx
      · exact h
  · rw [if_neg (fun hc => h (contains_mem.mp hc))]
    simp [List.mem_append]

theorem setIns_sub {s : List PyStr} {y : PyStr} : ∀ x ∈ s, x ∈ setIns s y :=
  fun _ hx => mem_setIns.mpr (Or.inl hx)

theorem mem_setInsMany {s : List PyStr} {l : List PyStr} {x : PyStr} :
    x ∈ setInsMany s l ↔ x ∈ s ∨ x ∈ l := by
  induction l generalizing s with
  | nil => simp [setInsMany]
  | cons y t ih =>
    unfold setInsMany at ih ⊢
    simp only [List.foldl_cons]
    rw [ih, mem_setIns]
    constructor
    · rintro ((h | rfl) | h)
      · exact Or.inl h
      · exact Or.inr (List.mem_cons_self _ _)
      · exact Or.inr (List.mem_cons_of_mem _ h)
    · rintro (h | h)
      · exact Or.inl (Or.inl h)
      · rcases List.mem_cons.mp h with rfl | h
        · exact Or.inl (Or.inr rfl)
        · exact Or.inr h

theorem lookupE_isSome_iff {st : Store} {i : PyStr} :
    (lookupE st i).isSome ↔ ∃ e ∈ st, e.eid = i := by
  unfold lookupE
  rw [Option.isSome_iff_exists]
  constructor
  · rintro ⟨e, he⟩
    exact ⟨e, List.mem_of_find?_eq_some he, by simpa using List.find?_some he⟩
  · rintro ⟨e, he, hei⟩
    rcases hf : st.find? (fun e => e.eid == i) with _ | e'
    · rw [List.find?_eq_none] at hf
      exact absurd (by simpa using hei) (hf e he)
    · exact ⟨e', hf⟩

theorem lookupE_eq_none {st : Store} {i : PyStr}
    (h : ∀ e ∈ st, e.eid ≠ i) : lookupE st i = none := by
  unfold lookupE
  rw [List.find?_eq_none]
  intro e he
  simpa using h e he

theorem lookupE_some_mem {st : Store} {i : PyStr} {e : Entry}
    (h : lookupE st i = some e) : e ∈ st ∧ e.eid = i :=
  ⟨List.mem_of_find?_eq_some h, by simpa using List.find?_some h⟩

theorem ids_nodup_unique {st : Store} (hn : (storeIds st).Nodup)
    {e e' : Entry} (he : e ∈ st) (he' : e' ∈ st) (heq : e.eid = e'.eid) :
    e = e' := by
  induction st with
  | nil => cases he
  | cons a t ih =>
    have hn' : (storeIds t).Nodup ∧ a.eid ∉ storeIds t := by
      unfold storeIds at hn ⊢
      rw [List.map_cons, List.nodup_cons] at hn
      exact ⟨hn.2, hn.1⟩
    rcases List.mem_cons.mp he with rfl | he <;>
      rcases List.mem_cons.mp he' with h' | he'
    · exact h'.symm ▸ rfl
    · exact absurd (heq ▸ List.mem_map_of_mem Entry.eid he') hn'.2
    · rw [h'] at heq
      exact absurd (heq ▸ List.mem_map_of_mem Entry.eid he) (h' ▸ hn'.2)
    · exact ih hn'.1 he he'

theorem lookupE_mem_eq {st : Store} (hn : (storeIds st).Nodup)
    {e : Entry} (he : e ∈ st) : lookupE st e.eid = some e := by
  rcases hf : lookupE st e.eid with _ | e'
  · rw [lookupE, List.find?_eq_none] at hf
    exact absurd (by simp) (hf e he)
  · obtain ⟨hmem, hid⟩ := lookupE_some_mem hf
    rw [ids_nodup_unique hn hmem he hid]

theorem mem_popId {rem : List Entry} {i : PyStr} {e : Entry} :
    e ∈ popId rem i ↔ e ∈ rem ∧ e.eid ≠ i := by
  unfold popId
  rw [List.mem_filter]
  simp

theorem lookupE_append_left {st l : Store} {x : PyStr}
    (h : (lookupE st x).isSome) : lookupE (st ++ l) x = lookupE st x := by
  unfold lookupE at h ⊢
  rw [List.find?_append]
  rcases hf : st.find? (fun e => e.eid == x) with _ | e
  · rw [hf] at h; cases h
  · rw [hf]; rfl

theorem storeDel_lookup {st : Store} {ids : List PyStr} {x : PyStr}
    (h : x ∉ ids) : lookupE (storeDel st ids) x = lookupE st x := by
  induction st with
  | nil => rfl
  | cons e t ih =>
    by_cases hx : e.eid = x
    · have hc : ids.contains e.eid = false := by
        rw [hx]
        exact Bool.not_eq_true _ ▸ (fun hc => h (contains_mem.mp hc) : ¬ _)
      have h2 : storeDel (e :: t) ids = e :: storeDel t ids := by
        unfold storeDel
        rw [List.filter_cons, if_pos (show (!(ids.contains e.eid)) = true by rw [hc]; rfl)]
      rw [h2]
      simp [lookupE, List.find?_cons, hx]
    · by_cases hc : ids.contains e.eid
      · have h1 : lookupE (e :: t) x = lookupE t x := by
          simp [lookupE, List.find?_cons, beq_false_of_ne hx]
        have h2 : storeDel (e :: t) ids = storeDel t ids := by
          simp only [storeDel, List.filter_cons, hc]
          rfl
        rw [h2, ih, h1]
      · have h2 : storeDel (e :: t) ids = e :: storeDel t ids := by
          simp only [storeDel, List.filter_cons]
          rw [Bool.of_not_eq_true hc]
          rfl
        rw [h2]
        simp only [lookupE, List.find?_cons, beq_false_of_ne hx]
        exact ih

theorem storeDel_ids_sub (st : Store) (ids : List PyStr) :
    (storeIds (storeDel st ids)).Sublist (storeIds st) :=
  List.Sublist.map _ (List.filter_sublist st)

theorem storeUpd_eq_map {st st' : Store} {i t : PyStr} {m : Meta}
    (h : storeUpd st i t m = some st') :
    st' = st.map (fun e => if e.eid == i then ⟨e.eid, t, m⟩ else e) := by
  unfold storeUpd at h
  by_cases hh : hasId st i
  · rw [if_pos hh] at h
    injection h with h
    exact h.symm
  · rw [if_neg hh] at h; cases h

theorem storeUpd_lookup {st st' : Store} {i t : PyStr} {m : Meta}
    (h : storeUpd st i t m = some st') (x : PyStr) :
    lookupE st' x = if x = i then (lookupE st i).map (fun e => ⟨e.eid, t, m⟩)
                    else lookupE st x := by
  rw [storeUpd_eq_map h]
  have hkey : lookupE (st.map (fun e => if e.eid == i then ⟨e.eid, t, m⟩ else e)) x
      = (lookupE st x).map (fun e => if e.eid == i then ⟨e.eid, t, m⟩ else e) := by
    unfold lookupE
    rw [List.find?_map]
    have hp : ((fun e => e.eid == x) ∘
          fun e => if e.eid == i then (⟨e.eid, t, m⟩ : Entry) else e)
        = (fun e : Entry => e.eid == x) := by
      funext e
      by_cases he : e.eid = i <;> simp [he, Function.comp]
    rw [hp]
  rw [hkey]
  by_cases hx : x = i
  · subst hx
    rcases hf : lookupE st x with _ | e
    · simp
    · obtain ⟨_, hid⟩ := lookupE_some_mem hf
      simp [hid]
  · rcases hf : lookupE st x with _ | e
    · simp [hx]
    · obtain ⟨_, hid⟩ := lookupE_some_mem hf
      have hbe : (e.eid == i) = false := by
        rw [hid]; exact beq_false_of_ne hx
      rw [if_neg hx, Option.map_some',
        if_neg (show ¬ (e.eid == i) = true by simp [hbe])]

theorem storeUpd_ids {st st' : Store} {i t : PyStr} {m : Meta}
    (h : storeUpd st i t m = some st') : storeIds st' = storeIds st := by
  unfold storeUpd at h
  by_cases hh : hasId st i
  · rw [if_pos hh] at h
    injection h with h
    subst h
    unfold storeIds
    rw [List.map_map]
    apply List.map_congr_left
    intro e _
    by_cases he : e.eid = i <;> simp [he]
  · rw [if_neg hh] at h; cases h

/-!
The chunk dictionaries of `map_chunks_by_parent` versus the direct store
filtering used in theorem statements.
-/

theorem assocGet_append (l : List (PyStr × List PyStr)) (k v q : PyStr) :
    assocGet (assocAppend l k v) q
      = if q = k then assocGet l q ++ [v] else assocGet l q := by
  unfold assocAppend assocGet
  by_cases hh : (l.find? (fun kv => kv.1 == k)).isSome
  · rw [if_pos hh, List.find?_map]
    have hp : ((fun kv : PyStr × List PyStr => kv.1 == q) ∘
          fun kv => if kv.1 == k then (kv.1, kv.2 ++ [v]) else kv)
        = (fun kv : PyStr × List PyStr => kv.1 == q) := by
      funext kv
      by_cases he : kv.1 = k <;> simp [he, Function.comp]
    rw [hp]
    rcases hf : l.find? (fun kv => kv.1 == q) with _ | kv
    · have hqk : q ≠ k := by
        intro hc
        subst hc
        rw [hf] at hh
        cases hh
      rw [hf, if_neg hqk]
      rfl
    · have hkvq : kv.1 = q := by
        have := List.find?_some hf
        simpa using this
      rw [hf, Option.map_some']
      by_cases hq : q = k
      · rw [if_pos hq,
          if_pos (show (kv.1 == k) = true by rw [hkvq, hq]; exact beq_self_eq_true _)]
      · rw [if_neg hq,
          if_neg (show ¬ (kv.1 == k) = true by rw [hkvq]; simpa using hq)]
  · rw [if_neg hh, List.find?_append]
    rcases hf : l.find? (fun kv => kv.1 == q) with _ | kv
    · rw [hf]
      by_cases hq : q = k
      · subst hq
        rw [show List.find? (fun kv => kv.1 == q) [(q, [v])] = some (q, [v]) by
          simp [List.find?_cons]]
        rw [if_pos rfl]
        rfl
      · rw [show List.find? (fun kv => kv.1 == q) [(k, [v])] = none by
          rw [List.find?_eq_none]
          intro x hx
          rcases List.mem_cons.mp hx with rfl | hx
          · simpa using fun hc => hq hc.symm
          · cases hx]
        rw [if_neg hq]
        rfl
    · rw [hf]
      by_cases hq : q = k
      · subst hq
        simp [hf] at hh
      · rw [if_neg hq]
        rfl

theorem assocHas_append (l : List (PyStr × List PyStr)) (k v q : PyStr) :
    assocHas (assocAppend l k v) q = (if q = k then true else assocHas l q) := by
  unfold assocAppend assocHas
  by_cases hh : (l.find? (fun kv => kv.1 == k)).isSome
  · rw [if_pos hh, List.find?_map]
    have hp : ((fun kv : PyStr × List PyStr => kv.1 == q) ∘
          fun kv => if kv.1 == k then (kv.1, kv.2 ++ [v]) else kv)
        = (fun kv : PyStr × List PyStr => kv.1 == q) := by
      funext kv
      by_cases he : kv.1 = k <;> simp [he, Function.comp]
    rw [hp]
    rcases hf : l.find? (fun kv => kv.1 == q) with _ | kv
    · rw [hf]
      by_cases hq : q = k
      · subst hq
        rw [hf] at hh
        cases hh
      · rw [if_neg hq]
        rfl
    · rw [hf]
      by_cases hq : q = k <;> simp [hq]
  · rw [if_neg hh, List.find?_append]
    by_cases hq : q = k
    · subst hq
      rw [show List.find? (fun kv => kv.1 == q) [(q, [v])] = some (q, [v]) by
        simp [List.find?_cons]]
      rw [if_pos rfl]
      rcases hf : l.find? (fun kv => kv.1 == q) with _ | kv
      · rw [hf]
        rfl
      · simp [hf] at hh
    · rw [show List.find? (fun kv => kv.1 == q) [(k, [v])] = none by
        rw [List.find?_eq_none]
        intro x hx
        rcases List.mem_cons.mp hx with rfl | hx
        · simpa using fun hc => hq hc.symm
        · cases hx]
      rw [if_neg hq]
      rcases hf : l.find? (fun kv => kv.1 == q) with _ | kv <;> rw [hf] <;> rfl

/-- The step function of `map_chunks_by_parent`. -/
def mcbpStep (acc : List (PyStr × List PyStr)) (e : Entry) :
    List (PyStr × List PyStr) :=
  match e.meta.parent_id with
  | some p => if p ≠ [] then assocAppend acc p e.eid else acc
  | none => acc

theorem mapChunksByParent_eq_fold (entries : List Entry) :
    mapChunksByParent entries = entries.foldl mcbpStep [] := rfl

theorem mcbp_fold_get (entries : List Entry) (d : PyStr) (hd : d ≠ []) :
    ∀ acc, assocGet (entries.foldl mcbpStep acc) d
      = assocGet acc d ++ (entries.filter
          (fun e => e.meta.parent_id == some d)).map (·.eid) := by
  induction entries with
  | nil => intro acc; simp
  | cons e rest ih =>
    intro acc
    simp only [List.foldl_cons, List.filter_cons]
    rcases hpar : e.meta.parent_id with _ | p
    · have hstep : mcbpStep acc e = acc := by unfold mcbpStep; rw [hpar]
      rw [hstep, show ((none : Option PyStr) == some d) = false from rfl]
      simp only [Bool.false_eq_true, if_false]
      exact ih acc
    · by_cases hp : p = []
      · subst hp
        have hstep : mcbpStep acc e = acc := by
          unfold mcbpStep
          rw [hpar]
          simp
        have hg : ((some ([] : PyStr)) == some d) = false := by
          apply beq_false_of_ne
          intro hc
          injection hc with hc
          exact hd hc.symm
        rw [hstep, hg]
        simp only [Bool.false_eq_true, if_false]
        exact ih acc
      · have hstep : mcbpStep acc e = assocAppend acc p e.eid := by
          unfold mcbpStep
          rw [hpar]
          simp [hp]
        rw [hstep]
        by_cases hdp : p = d
        · subst hdp
          rw [show ((some p) == some p) = true from beq_self_eq_true _]
          simp only [if_true]
          rw [ih _, assocGet_append, if_pos rfl]
          simp
        · have hg : ((some p) == some d) = false := by
            apply beq_false_of_ne
            intro hc
            injection hc with hc
            exact hdp hc
          rw [hg]
          simp only [Bool.false_eq_true, if_false]
          rw [ih _, assocGet_append, if_neg (fun hc => hdp hc.symm)]

/-- For a non-empty id, the parent-to-chunks dictionary built by
`map_chunks_by_parent` returns exactly the ids of the persisted chunk entries
of that parent, in store order. -/
theorem assocGet_mapChunks (st : Store) (d : PyStr) (hd : d ≠ []) :
    assocGet (mapChunksByParent st) d = chunkIdsOf st d := by
  rw [mapChunksByParent_eq_fold, mcbp_fold_get st d hd []]
  rfl

theorem mcbp_fold_has (entries : List Entry) :
    ∀ acc, (∀ q, assocHas acc q = true ↔ assocGet acc q ≠ []) →
    ∀ q, assocHas (entries.foldl mcbpStep acc) q = true
      ↔ assocGet (entries.foldl mcbpStep acc) q ≠ [] := by
  induction entries with
  | nil => intro acc hacc; simpa using hacc
  | cons e rest ih =>
    intro acc hacc
    rw [List.foldl_cons]
    apply ih
    intro q
    rcases hpar : e.meta.parent_id with _ | p
    · rw [show mcbpStep acc e = acc by unfold mcbpStep; rw [hpar]]
      exact hacc q
    · by_cases hp : p = []
      · rw [show mcbpStep acc e = acc by unfold mcbpStep; rw [hpar, hp]; simp]
        exact hacc q
      · rw [show mcbpStep acc e = assocAppend acc p e.eid by
          unfold mcbpStep; rw [hpar]; simp [hp]]
        rw [assocHas_append, assocGet_append]
        by_cases hq : q = p
        · simp [hq]
        · rw [if_neg hq, if_neg hq]
          exact hacc q

/-- The `doc_id in parent_chunk_ids` test of the classification loop, for a
non-empty id, is exactly "the store holds chunks of this parent". -/
theorem assocHas_mapChunks (st : Store) (d : PyStr) (hd : d ≠ []) :
    assocHas (mapChunksByParent st) d = true ↔ chunkIdsOf st d ≠ [] := by
  rw [mapChunksByParent_eq_fold]
  rw [mcbp_fold_has st [] (by intro q; simp [assocHas, assocGet]) d]
  rw [← mapChunksByParent_eq_fold, assocGet_mapChunks st d hd]

/-!
Shape lemmas for the classification loop.
-/

theorem setInsMany_sub {s l : List PyStr} : ∀ x ∈ s, x ∈ setInsMany s l :=
  fun _ hx => mem_setInsMany.mpr (Or.inl hx)

theorem classifyStep_spec {snap : Snapshot} {now : PyStr} {cs : CState}
    {dtm : PyStr × PyStr × Meta} {cs' : CState}
    (h : classifyStep snap now cs dtm = .ok cs') :
    (cs'.toAdd = cs.toAdd
      ∨ cs'.toAdd = cs.toAdd ++ [(dtm.1, dtm.2.1, addSyncMeta now dtm.2.2)])
  ∧ (cs'.toUpd = cs.toUpd
      ∨ cs'.toUpd = cs.toUpd ++ [(dtm.1, dtm.2.1, addSyncMeta now dtm.2.2)])
  ∧ (∀ x ∈ cs'.toDel, x ∈ cs.toDel ∨ x ∈ assocGet snap.chunkParents dtm.1)
  ∧ (∀ x ∈ cs.toDel, x ∈ cs'.toDel)
  ∧ cs'.tracked = setIns cs.tracked dtm.1
  ∧ (cs'.rem = cs.rem ∨ cs'.rem = popId cs.rem dtm.1) := by
  simp only [classifyStep] at h
  split at h
  · split at h
    · cases h
    · split at h
      · injection h with h
        subst h
        refine ⟨Or.inl rfl, Or.inr rfl, ?_, ?_, rfl, Or.inr rfl⟩
        · intro x hx
          by_cases hhas : assocHas snap.chunkParents dtm.1
          · rw [show (CState.mk cs.toAdd
                (cs.toUpd ++ [(dtm.1, dtm.2.1, addSyncMeta now dtm.2.2)])
                (if assocHas snap.chunkParents dtm.1 then
                   setInsMany cs.toDel (assocGet snap.chunkParents dtm.1)
                 else cs.toDel)
                (setIns cs.tracked dtm.1) (popId cs.rem dtm.1)).toDel
              = (if assocHas snap.chunkParents dtm.1 then
                   setInsMany cs.toDel (assocGet snap.chunkParents dtm.1)
                 else cs.toDel) from rfl, if_pos hhas] at hx
            exact mem_setInsMany.mp hx
          · rw [show (CState.mk cs.toAdd
                (cs.toUpd ++ [(dtm.1, dtm.2.1, addSyncMeta now dtm.2.2)])
                (if assocHas snap.chunkParents dtm.1 then
                   setInsMany cs.toDel (assocGet snap.chunkParents dtm.1)
                 else cs.toDel)
                (setIns cs.tracked dtm.1) (popId cs.rem dtm.1)).toDel
              = (if assocHas snap.chunkParents dtm.1 then
                   setInsMany cs.toDel (assocGet snap.chunkParents dtm.1)
                 else cs.toDel) from rfl, if_neg hhas] at hx
            exact Or.inl hx
        · intro x hx
          show x ∈ (if assocHas snap.chunkParents dtm.1 then
              setInsMany cs.toDel (assocGet snap.chunkParents dtm.1)
            else cs.toDel)
          by_cases hhas : assocHas snap.chunkParents dtm.1
          · rw [if_pos hhas]
            exact setInsMany_sub x hx
          · rw [if_neg hhas]
            exact hx
      · injection h with h
        subst h
        exact ⟨Or.inl rfl, Or.inl rfl, fun x hx => Or.inl hx, fun x hx => hx,
          rfl, Or.inr rfl⟩
  · split at h
    · injection h with h
      subst h
      exact ⟨Or.inl rfl, Or.inl rfl, fun x hx => Or.inl hx, fun x hx => hx,
        rfl, Or.inl rfl⟩
    · injection h with h
      subst h
      exact ⟨Or.inr rfl, Or.inl rfl, fun x hx => Or.inl hx, fun x hx => hx,
        rfl, Or.inl rfl⟩

theorem classifyDocs_nil {snap : Snapshot} {now : PyStr} {cs : CState} :
    classifyDocs snap now [] cs = .ok cs := rfl

theorem classifyDocs_cons {snap : Snapshot} {now : PyStr} {cs cs' : CState}
    {d : PyStr × PyStr × Meta} {rest : List (PyStr × PyStr × Meta)}
    (h : classifyDocs snap now (d :: rest) cs = .ok cs') :
    ∃ cs1, classifyStep snap now cs d = .ok cs1
      ∧ classifyDocs snap now rest cs1 = .ok cs' := by
  unfold classifyDocs at h ⊢
  rw [List.foldlM_cons] at h
  cases hs : classifyStep snap now cs d with
  | error e =>
    exfalso
    rw [hs] at h
    exact Except.noConfusion
      (show (Except.error e : Except Unit CState) = Except.ok cs' from h)
  | ok cs1 =>
    refine ⟨cs1, rfl, ?_⟩
    rw [hs] at h
    exact (show List.foldlM (classifyStep snap now) cs1 rest = Except.ok cs' from h)

theorem classifyDocs_spec {snap : Snapshot} {now : PyStr}
    (docs : List (PyStr × PyStr × Meta)) :
    ∀ cs cs', classifyDocs snap now docs cs = .ok cs' →
    (∀ x ∈ cs'.toAdd, x ∈ cs.toAdd ∨ x.1 ∈ docs.map (·.1))
  ∧ (∀ x ∈ cs.toAdd, x ∈ cs'.toAdd)
  ∧ (∀ x ∈ cs'.toUpd, x ∈ cs.toUpd ∨ x.1 ∈ docs.map (·.1))
  ∧ (∀ x ∈ cs.toUpd, x ∈ cs'.toUpd)
  ∧ (∀ x ∈ cs'.toDel, x ∈ cs.toDel
      ∨ ∃ a ∈ docs.map (·.1), x ∈ assocGet snap.chunkParents a)
  ∧ (∀ x ∈ cs.toDel, x ∈ cs'.toDel)
  ∧ (∀ x ∈ cs'.tracked, x ∈ cs.tracked ∨ x ∈ docs.map (·.1))
  ∧ (∀ a ∈ docs.map (·.1), a ∈ cs'.tracked)
  ∧ (∀ x ∈ cs.tracked, x ∈ cs'.tracked)
  ∧ (∀ e ∈ cs'.rem, e ∈ cs.rem)
  ∧ (∀ e ∈ cs.rem, e.eid ∉ docs.map (·.1) → e ∈ cs'.rem) := by
  induction docs with
  | nil =>
    intro cs cs' h
    rw [classifyDocs_nil] at h
    injection h with h
    subst h
    exact ⟨fun x hx => Or.inl hx, fun x hx => hx, fun x hx => Or.inl hx,
      fun x hx => hx, fun x hx => Or.inl hx, fun x hx => hx,
      fun x hx => Or.inl hx, fun a ha => absurd ha (List.not_mem_nil a),
      fun x hx => hx, fun e he => he, fun e he _ => he⟩
  | cons d rest ih =>
    intro cs cs' h
    obtain ⟨cs1, hstep, hrest⟩ := classifyDocs_cons h
    obtain ⟨sAdd, sUpd, sDel, sDelM, sTr, sRem⟩ := classifyStep_spec hstep
    obtain ⟨iAdd, iAddM, iUpd, iUpdM, iDel, iDelM, iTr, iTrAll, iTrM, iRem, iRemP⟩ :=
      ih cs1 cs' hrest
    have hmapcons : (d :: rest).map (fun x => x.1) = d.1 :: rest.map (·.1) := rfl
    refine ⟨?_, ?_, ?_, ?_, ?_, ?_, ?_, ?_, ?_, ?_, ?_⟩
    · intro x hx
      rcases iAdd x hx with hx1 | hx1
      · rcases sAdd with hA | hA
        · rw [hA] at hx1
          exact Or.inl hx1
        · rw [hA] at hx1
          rcases List.mem_append.mp hx1 with hx2 | hx2
          · exact Or.inl hx2
          · rcases List.mem_singleton.mp hx2 with rfl
            exact Or.inr (hmapcons ▸ List.mem_cons_self _ _)
      · exact Or.inr (hmapcons ▸ List.mem_cons_of_mem _ hx1)
    · intro x hx
      apply iAddM
      rcases sAdd with hA | hA
      · rw [hA]; exact hx
      · rw [hA]; exact List.mem_append_left _ hx
    · intro x hx
      rcases iUpd x hx with hx1 | hx1
      · rcases sUpd with hA | hA
        · rw [hA] at hx1
          exact Or.inl hx1
        · rw [hA] at hx1
          rcases List.mem_append.mp hx1 with hx2 | hx2
          · exact Or.inl hx2
          · rcases List.mem_singleton.mp hx2 with rfl
            exact Or.inr (hmapcons ▸ List.mem_cons_self _ _)
      · exact Or.inr (hmapcons ▸ List.mem_cons_of_mem _ hx1)
    · intro x hx
      apply iUpdM
      rcases sUpd with hA | hA
      · rw [hA]; exact hx
      · rw [hA]; exact List.mem_append_left _ hx
    · intro x hx
      rcases iDel x hx with hx1 | hx1
      · rcases sDel x hx1 with hx2 | hx2
        · exact Or.inl hx2
        · exact Or.inr ⟨d.1, hmapcons ▸ List.mem_cons_self _ _, hx2⟩
      · obtain ⟨a, ha, hxa⟩ := hx1
        exact Or.inr ⟨a, hmapcons ▸ List.mem_cons_of_mem _ ha, hxa⟩
    · intro x hx
      exact iDelM x (sDelM x hx)
    · intro x hx
      rcases iTr x hx with hx1 | hx1
      · rw [sTr] at hx1
        rcases mem_setIns.mp hx1 with hx2 | rfl
        · exact Or.inl hx2
        · exact Or.inr (hmapcons ▸ List.mem_cons_self _ _)
      · exact Or.inr (hmapcons ▸ List.mem_cons_of_mem _ hx1)
    · intro a ha
      rw [hmapcons] at ha
      rcases List.mem_cons.mp ha with rfl | ha
      · apply iTrM
        rw [sTr]
        exact mem_setIns.mpr (Or.inr rfl)
      · exact iTrAll a ha
    · intro x hx
      apply iTrM
      rw [sTr]
      exact setIns_sub x hx
    · intro e he
      rcases sRem with hR | hR
      · rw [← hR]; exact iRem e he
      · have := iRem e he
        rw [hR] at this
        exact (mem_popId.mp this).1
    · intro e he hne
      rw [hmapcons] at hne
      have hne1 : e.eid ≠ d.1 := fun hc => hne (hc ▸ List.mem_cons_self _ _)
      have hne2 : e.eid ∉ rest.map (·.1) := fun hc => hne (List.mem_cons_of_mem _ hc)
      apply iRemP
      · rcases sRem with hR | hR
        · rw [hR]; exact he
        · rw [hR]; exact mem_popId.mpr ⟨he, hne1⟩
      · exact hne2

/-!
Shape lemmas for the orphan loop, `filter_deletions` and the batching.
-/

theorem orphanStepE_spec (snap : Snapshot) (cs : CState) (e : Entry) :
    (orphanStepE snap cs e).toAdd = cs.toAdd
  ∧ (orphanStepE snap cs e).toUpd = cs.toUpd
  ∧ (orphanStepE snap cs e).tracked = cs.tracked
  ∧ (orphanStepE snap cs e).rem = cs.rem
  ∧ (∀ x ∈ cs.toDel, x ∈ (orphanStepE snap cs e).toDel)
  ∧ (∀ x ∈ (orphanStepE snap cs e).toDel, x ∈ cs.toDel
      ∨ ((!e.meta.parent_id.isSome
            && snap.resourceIds.contains e.meta.resource_id
            && !(cs.tracked.contains e.eid)) = true
          ∧ (x = e.eid ∨ x ∈ assocGet snap.chunkParents e.eid))) := by
  unfold orphanStepE
  by_cases hc : (!e.meta.parent_id.isSome
      && snap.resourceIds.contains e.meta.resource_id
      && !(cs.tracked.contains e.eid)) = true
  · rw [if_pos hc]
    by_cases hhas : assocHas snap.chunkParents e.eid
    · rw [if_pos hhas]
      refine ⟨rfl, rfl, rfl, rfl, ?_, ?_⟩
      · intro x hx
        exact setInsMany_sub x (setIns_sub x hx)
      · intro x hx
        rcases mem_setInsMany.mp hx with hx1 | hx1
        · rcases mem_setIns.mp hx1 with hx2 | rfl
          · exact Or.inl hx2
          · exact Or.inr ⟨hc, Or.inl rfl⟩
        · exact Or.inr ⟨hc, Or.inr hx1⟩
    · rw [if_neg hhas]
      refine ⟨rfl, rfl, rfl, rfl, ?_, ?_⟩
      · intro x hx
        exact setIns_sub x hx
      · intro x hx
        rcases mem_setIns.mp hx with hx1 | rfl
        · exact Or.inl hx1
        · exact Or.inr ⟨hc, Or.inl rfl⟩
  · rw [if_neg hc]
    exact ⟨rfl, rfl, rfl, rfl, fun x hx => hx, fun x hx => Or.inl hx⟩

theorem orphanFold_spec (snap : Snapshot) (l : List Entry) :
    ∀ cs : CState,
    (l.foldl (orphanStepE snap) cs).toAdd = cs.toAdd
  ∧ (l.foldl (orphanStepE snap) cs).toUpd = cs.toUpd
  ∧ (l.foldl (orphanStepE snap) cs).tracked = cs.tracked
  ∧ (l.foldl (orphanStepE snap) cs).rem = cs.rem
  ∧ (∀ x ∈ cs.toDel, x ∈ (l.foldl (orphanStepE snap) cs).toDel)
  ∧ (∀ x ∈ (l.foldl (orphanStepE snap) cs).toDel, x ∈ cs.toDel
      ∨ ∃ e ∈ l, (!e.meta.parent_id.isSome
            && snap.resourceIds.contains e.meta.resource_id
            && !(cs.tracked.contains e.eid)) = true
          ∧ (x = e.eid ∨ x ∈ assocGet snap.chunkParents e.eid)) := by
  induction l with
  | nil =>
    intro cs
    exact ⟨rfl, rfl, rfl, rfl, fun x hx => hx, fun x hx => Or.inl hx⟩
  | cons e rest ih =>
    intro cs
    obtain ⟨sA, sU, sT, sR, sM, sC⟩ := orphanStepE_spec snap cs e
    obtain ⟨iA, iU, iT, iR, iM, iC⟩ := ih (orphanStepE snap cs e)
    simp only [List.foldl_cons]
    refine ⟨iA.trans sA, iU.trans sU, iT.trans sT, iR.trans sR, ?_, ?_⟩
    · intro x hx
      exact iM x (sM x hx)
    · intro x hx
      rcases iC x hx with hx1 | hx1
      · rcases sC x hx1 with hx2 | ⟨hcond, hx2⟩
        · exact Or.inl hx2
        · exact Or.inr ⟨e, List.mem_cons_self _ _, hcond, hx2⟩
      · obtain ⟨e', he', hcond, hx2⟩ := hx1
        rw [sT] at hcond
        exact Or.inr ⟨e', List.mem_cons_of_mem _ he', hcond, hx2⟩

theorem fdScan_none (item : PyStr) (pids : List PyStr) :
    ∀ (entries : List Entry) (s : FdState),
    fdScan item pids entries none s = s := by
  intro entries
  induction entries with
  | nil => intro s; rfl
  | cons e rest ih =>
    intro s
    unfold fdScan
    by_cases he : (e.eid == item) = true
    · rw [if_pos he]
    · rw [if_neg he]
      exact ih s

theorem filterDeletions_eq (toDel : List PyStr) (pids : List PyStr)
    (entries : List Entry) (toUpd : List (PyStr × PyStr × Meta)) :
    filterDeletions toDel pids entries toUpd = toDel := by
  unfold filterDeletions
  have hfd : toDel.foldl (fun s item => fdScan item pids entries none s) ([], [])
      = (([], []) : FdState) := by
    induction toDel with
    | nil => rfl
    | cons i rest ih =>
      rw [List.foldl_cons, fdScan_none]
      exact ih
  rw [hfd]
  rfl

theorem toBatchesAux_flatten {α : Type} (n : Nat) (hn : 1 ≤ n) :
    ∀ (fuel : Nat) (l : List α), l.length ≤ fuel →
    (toBatchesAux n fuel l).flatten = l := by
  intro fuel
  induction fuel with
  | zero =>
    intro l hl
    rw [Nat.le_zero] at hl
    rw [List.length_eq_zero] at hl
    subst hl
    rfl
  | succ fuel ih =>
    intro l hl
    cases l with
    | nil => rfl
    | cons x xs =>
      rw [show toBatchesAux n (fuel + 1) (x :: xs)
          = (x :: xs).take n :: toBatchesAux n fuel ((x :: xs).drop n) from rfl]
      rw [List.flatten_cons]
      rw [ih ((x :: xs).drop n) (by
        rw [List.length_drop]
        simp only [List.length_cons] at hl ⊢
        omega)]
      exact List.take_append_drop n (x :: xs)

theorem toBatches_flatten {α : Type} (n : Nat) (hn : 1 ≤ n) (l : List α) :
    (toBatches n l).flatten = l :=
  toBatchesAux_flatten n hn l.length l (Nat.le_refl _)

/-!
Execution-phase preservation: an id that is present in the collection is
never overwritten by an add (ChromaDB rejects id collisions), so the entry
at a given id can only change through an explicit `collection.update` at that
very id, and can only disappear through a delete that lists it.
-/

/-- The entry `en` is the unique entry at id `x`. -/
def XInv (x : PyStr) (en : Entry) (st : Store) : Prop :=
  lookupE st x = some en ∧ ∀ e' ∈ st, e'.eid = x → e' = en

theorem XInv_append {x : PyStr} {en : Entry} {st : Store} {new : List Entry}
    (h : XInv x en st) (hnew : ∀ e ∈ new, e.eid ≠ x) :
    XInv x en (st ++ new) := by
  constructor
  · rw [lookupE_append_left (by rw [h.1]; rfl)]
    exact h.1
  · intro e' he' hx
    rcases List.mem_append.mp he' with he' | he'
    · exact h.2 e' he' hx
    · exact absurd hx (hnew e' he')

theorem XInv_hasId {x : PyStr} {en : Entry} {st : Store} (h : XInv x en st) :
    hasId st x = true := by
  unfold hasId
  rw [h.1]
  rfl

theorem XInv_storeDel {x : PyStr} {en : Entry} {st : Store} {ids : List PyStr}
    (h : XInv x en st) (hx : x ∉ ids) : XInv x en (storeDel st ids) := by
  constructor
  · rw [storeDel_lookup hx]
    exact h.1
  · intro e' he' hex
    exact h.2 e' (List.mem_filter.mp he').1 hex

theorem XInv_storeUpd {x : PyStr} {en : Entry} {st st' : Store}
    {uid t : PyStr} {m : Meta}
    (h : XInv x en st) (hu : storeUpd st uid t m = some st') :
    (uid = x → XInv x ⟨en.eid, t, m⟩ st')
    ∧ (uid ≠ x → XInv x en st') := by
  have hmap := storeUpd_eq_map hu
  have hlk := storeUpd_lookup hu x
  have henx : en.eid = x := (lookupE_some_mem h.1).2
  have hgeid : ∀ e0 : Entry,
      ((if (e0.eid == uid) = true then (⟨e0.eid, t, m⟩ : Entry) else e0)).eid
        = e0.eid := by
    intro e0
    by_cases hb : (e0.eid == uid) = true <;> simp [hb]
  constructor
  · intro hux
    constructor
    · rw [hlk, if_pos hux.symm, hux, h.1]
      rfl
    · intro e' he' hex
      rw [hmap] at he'
      obtain ⟨e0, he0, he0e⟩ := List.mem_map.mp he'
      have heid : e0.eid = x := by
        rw [← hex, ← he0e, hgeid]
      have h0 : e0 = en := h.2 e0 he0 heid
      subst h0
      have hb : (e0.eid == uid) = true := by
        rw [heid, hux]
        exact beq_self_eq_true _
      rw [← he0e]
      simp [hb]
  · intro hux
    constructor
    · rw [hlk, if_neg (fun hc => hux hc.symm)]
      exact h.1
    · intro e' he' hex
      rw [hmap] at he'
      obtain ⟨e0, he0, he0e⟩ := List.mem_map.mp he'
      have heid : e0.eid = x := by
        rw [← hex, ← he0e, hgeid]
      have h0 : e0 = en := h.2 e0 he0 heid
      subst h0
      have hb : (e0.eid == uid) = false := by
        rw [heid]
        exact beq_false_of_ne (fun hc => hux hc.symm)
      rw [← he0e]
      simp [hb]

theorem processAddDocument_protect {x : PyStr} {en : Entry} {st : Store}
    (doc txt : PyStr) (mv : MetaV) (h : XInv x en st) :
    XInv x en (processAddDocument st doc txt mv).1
    ∧ ∀ op ∈ (processAddDocument st doc txt mv).2.1, ∃ e2, op = Op.wadd doc e2 := by
  cases mv with
  | inr s =>
    rw [show processAddDocument st doc txt (.inr s) = (st, [], false) from rfl]
    exact ⟨h, by intro op hop; cases hop⟩
  | inl m =>
    cases ha : storeAdd st ⟨doc, txt, m⟩ with
    | none =>
      rw [show processAddDocument st doc txt (.inl m)
          = (match storeAdd st ⟨doc, txt, m⟩ with
             | some st2 => (st2, [Op.wadd doc ⟨doc, txt, m⟩], true)
             | none => (st, [], false)) from rfl, ha]
      exact ⟨h, by intro op hop; cases hop⟩
    | some st2 =>
      rw [show processAddDocument st doc txt (.inl m)
          = (match storeAdd st ⟨doc, txt, m⟩ with
             | some st2 => (st2, [Op.wadd doc ⟨doc, txt, m⟩], true)
             | none => (st, [], false)) from rfl, ha]
      have hdoc : doc ≠ x := by
        intro hc
        subst hc
        unfold storeAdd at ha
        rw [if_pos (XInv_hasId h)] at ha
        cases ha
      have hst2 : st2 = st ++ [⟨doc, txt, m⟩] := by
        unfold storeAdd at ha
        by_cases hh : hasId st doc
        · rw [if_pos hh] at ha; cases ha
        · rw [if_neg hh] at ha
          injection ha with ha
          exact ha.symm
      constructor
      · rw [show ((st2, [Op.wadd doc (⟨doc, txt, m⟩ : Entry)], true) :
            Store × List Op × Bool).1 = st2 from rfl, hst2]
        exact XInv_append h (by
          intro e he
          rcases List.mem_singleton.mp he with rfl
          exact hdoc)
      · intro op hop
        rcases List.mem_singleton.mp hop with rfl
        exact ⟨_, rfl⟩

theorem addSingleChunkWithFallback_protect {x : PyStr} {en : Entry} {st : Store}
    (doc : PyStr) (e : Entry) (epoch : Nat) (h : XInv x en st) :
    XInv x en (addSingleChunkWithFallback st doc e epoch).1
    ∧ ∀ op ∈ (addSingleChunkWithFallback st doc e epoch).2.1,
        ∃ e2, op = Op.wadd doc e2 := by
  have hfresh : ∀ (e' : Entry) (st2 : Store), storeAdd st e' = some st2 →
      st2 = st ++ [e'] ∧ e'.eid ≠ x := by
    intro e' st2 ha
    unfold storeAdd at ha
    by_cases hh : hasId st e'.eid
    · rw [if_pos hh] at ha; cases ha
    · rw [if_neg hh] at ha
      injection ha with ha
      refine ⟨ha.symm, ?_⟩
      intro hc
      rw [hc] at hh
      exact hh (XInv_hasId h)
  have hbody : addSingleChunkWithFallback st doc e epoch
      = (match storeAdd st e with
         | some st2 => (st2, [Op.wadd doc e], true)
         | none =>
           match storeAdd st { e with eid := e.eid ++ pyS "_" ++ natStr epoch } with
           | some st2 => (st2,
               [Op.wadd doc { e with eid := e.eid ++ pyS "_" ++ natStr epoch }], true)
           | none => (st, [], false)) := rfl
  cases ha : storeAdd st e with
  | some st2 =>
    rw [hbody, ha]
    obtain ⟨hst2, hne⟩ := hfresh e st2 ha
    constructor
    · rw [show ((st2, [Op.wadd doc e], true) : Store × List Op × Bool).1 = st2 from rfl,
        hst2]
      exact XInv_append h (by
        intro e' he'
        rcases List.mem_singleton.mp he' with rfl
        exact hne)
    · intro op hop
      rcases List.mem_singleton.mp hop with rfl
      exact ⟨_, rfl⟩
  | none =>
    cases hb : storeAdd st { e with eid := e.eid ++ pyS "_" ++ natStr epoch } with
    | some st2 =>
      rw [hbody, ha, hb]
      obtain ⟨hst2, hne⟩ := hfresh _ st2 hb
      constructor
      · rw [show ((st2,
            [Op.wadd doc { e with eid := e.eid ++ pyS "_" ++ natStr epoch }], true) :
            Store × List Op × Bool).1 = st2 from rfl, hst2]
        exact XInv_append h (by
          intro e' he'
          rcases List.mem_singleton.mp he' with rfl
          exact hne)
      · intro op hop
        rcases List.mem_singleton.mp hop with rfl
        exact ⟨_, rfl⟩
    | none =>
      rw [hbody, ha, hb]
      exact ⟨h, by intro op hop; cases hop⟩

/-- An operation that, if it is a deletion, does not list the id `x`. -/
def delSafe (x : PyStr) (op : Op) : Prop := ∀ l, op = Op.del l → x ∉ l

theorem delSafe_of_wadd {x p : PyStr} {e : Entry} : delSafe x (Op.wadd p e) :=
  fun _ h => Op.noConfusion h

theorem delSafe_of_wupd {x p : PyStr} {e : Entry} : delSafe x (Op.wupd p e) :=
  fun _ h => Op.noConfusion h

theorem chunkFallFold_protect {x : PyStr} {en : Entry} (doc : PyStr) (epoch : Nat)
    (ces : List Entry) :
    ∀ (st : Store) (ops0 : List Op) (n0 : Nat), XInv x en st →
    XInv x en (ces.foldl (chunkFallStep doc epoch) (st, ops0, n0)).1
    ∧ ∀ op ∈ (ces.foldl (chunkFallStep doc epoch) (st, ops0, n0)).2.1,
        op ∈ ops0 ∨ ∃ e2, op = Op.wadd doc e2 := by
  induction ces with
  | nil =>
    intro st ops0 n0 h
    exact ⟨h, fun op hop => Or.inl hop⟩
  | cons e rest ih =>
    intro st ops0 n0 h
    rw [List.foldl_cons]
    obtain ⟨hinv, hops⟩ := addSingleChunkWithFallback_protect doc e epoch h
    have hstep : chunkFallStep doc epoch (st, ops0, n0) e
        = ((addSingleChunkWithFallback st doc e epoch).1,
           ops0 ++ (addSingleChunkWithFallback st doc e epoch).2.1,
           if (addSingleChunkWithFallback st doc e epoch).2.2 then n0 + 1 else n0) := by
      unfold chunkFallStep
      rfl
    rw [hstep]
    obtain ⟨ih1, ih2⟩ := ih _ _ _ hinv
    refine ⟨ih1, ?_⟩
    intro op hop
    rcases ih2 op hop with hop1 | hop1
    · rcases List.mem_append.mp hop1 with hop2 | hop2
      · exact Or.inl hop2
      · exact Or.inr (hops op hop2)
    · exact Or.inr hop1

theorem processDocWithChunking_protect {x : PyStr} {en : Entry} {st : Store}
    (doc txt : PyStr) (mv : MetaV) (c ep : Nat) (h : XInv x en st) :
    XInv x en (processDocWithChunking st doc txt mv c ep).1
    ∧ ∀ op ∈ (processDocWithChunking st doc txt mv c ep).2.1,
        ∃ e2, op = Op.wadd doc e2 := by
  cases mv with
  | inr s =>
    rw [show processDocWithChunking st doc txt (.inr s) c ep = (st, [], false) from rfl]
    exact ⟨h, by intro op hop; cases hop⟩
  | inl m =>
    by_cases hall : ((chunkData doc txt m c).all (fun e => !(hasId st e.eid))) = true
    · rw [show processDocWithChunking st doc txt (.inl m) c ep
          = (st ++ chunkData doc txt m c,
             (chunkData doc txt m c).map (Op.wadd doc), true) by
        simp only [processDocWithChunking]
        rw [if_pos hall]]
      constructor
      · apply XInv_append h
        intro e he hc
        have := List.all_eq_true.mp hall e he
        rw [hc] at this
        rw [XInv_hasId h] at this
        cases this
      · intro op hop
        obtain ⟨e2, _, he2⟩ := List.mem_map.mp hop
        exact ⟨e2, he2.symm⟩
    · rw [show processDocWithChunking st doc txt (.inl m) c ep
          = (((chunkData doc txt m c).foldl (chunkFallStep doc ep) (st, [], 0)).1,
             ((chunkData doc txt m c).foldl (chunkFallStep doc ep) (st, [], 0)).2.1,
             decide (((chunkData doc txt m c).foldl (chunkFallStep doc ep) (st, [], 0)).2.2 > 0)) by
        simp only [processDocWithChunking]
        rw [if_neg hall]]
      obtain ⟨h1, h2⟩ := chunkFallFold_protect doc ep (chunkData doc txt m c) st [] 0 h
      refine ⟨h1, ?_⟩
      intro op hop
      rcases h2 op hop with hop1 | hop1
      · cases hop1
      · exact hop1

theorem processUpdateDocument_protect {x : PyStr} {en : Entry} {st : Store}
    (uid txt : PyStr) (m : Meta) (h : XInv x en st) :
    (∃ en', XInv x en' (processUpdateDocument st uid txt m).1
        ∧ (en' = en ∨ (uid = x ∧ en' = ⟨en.eid, txt, m⟩)))
    ∧ ∀ op ∈ (processUpdateDocument st uid txt m).2.1, delSafe x op := by
  cases hu : storeUpd st uid txt m with
  | some st2 =>
    rw [show processUpdateDocument st uid txt m
        = (st2, [Op.wupd uid ⟨uid, txt, m⟩], true) by
      unfold processUpdateDocument
      rw [hu]]
    obtain ⟨hpos, hneg⟩ := XInv_storeUpd h hu
    constructor
    · by_cases hux : uid = x
      · exact ⟨⟨en.eid, txt, m⟩, hpos hux, Or.inr ⟨hux, rfl⟩⟩
      · exact ⟨en, hneg hux, Or.inl rfl⟩
    · intro op hop
      rcases List.mem_singleton.mp hop with rfl
      exact delSafe_of_wupd
  | none =>
    rw [show processUpdateDocument st uid txt m
        = processAddDocument st uid txt (.inl m) by
      unfold processUpdateDocument
      rw [hu]]
    obtain ⟨h1, h2⟩ := processAddDocument_protect uid txt (.inl m) h
    refine ⟨⟨en, h1, Or.inl rfl⟩, ?_⟩
    intro op hop
    obtain ⟨e2, he2⟩ := h2 op hop
    rw [he2]
    exact delSafe_of_wadd

theorem updDels_not_x {x : PyStr} {en : Entry} {st : Store} {uid : PyStr}
    (h : XInv x en st) (hne : en.meta.parent_id ≠ some uid) :
    x ∉ ((st.filter (fun e => e.meta.parent_id == some uid)).map (·.eid)) := by
  intro hx
  obtain ⟨e', he', heid⟩ := List.mem_map.mp hx
  obtain ⟨hmem, hpar⟩ := List.mem_filter.mp he'
  have := h.2 e' hmem heid
  subst this
  exact hne (by simpa using hpar)

theorem updateChunkedDocument_protect {x : PyStr} {en : Entry} {st : Store}
    (uid txt : PyStr) (m : Meta) (c ep : Nat)
    (h : XInv x en st) (hne : en.meta.parent_id ≠ some uid) :
    XInv x en (updateChunkedDocument st uid txt m c ep).1
    ∧ ∀ op ∈ (updateChunkedDocument st uid txt m c ep).2.1, delSafe x op := by
  have hdel := updDels_not_x h hne
  set dels := (st.filter (fun e => e.meta.parent_id == some uid)).map (·.eid)
    with hdels
  have hbody : updateChunkedDocument st uid txt m c ep
      = ((processDocWithChunking
            (if dels ≠ [] then storeDel st dels else st) uid txt (.inl m) c ep).1,
         (if dels ≠ [] then [Op.del dels] else [])
           ++ (processDocWithChunking
            (if dels ≠ [] then storeDel st dels else st) uid txt (.inl m) c ep).2.1,
         (processDocWithChunking
            (if dels ≠ [] then storeDel st dels else st) uid txt (.inl m) c ep).2.2) := by
    unfold updateChunkedDocument
    by_cases hd : dels ≠ [] <;> simp [← hdels, hd]
  have hst1 : XInv x en (if dels ≠ [] then storeDel st dels else st) := by
    by_cases hd : dels ≠ []
    · rw [if_pos hd]
      exact XInv_storeDel h hdel
    · rw [if_neg hd]
      exact h
  obtain ⟨h1, h2⟩ := processDocWithChunking_protect uid txt (.inl m) c ep hst1
  rw [hbody]
  refine ⟨h1, ?_⟩
  intro op hop
  rcases List.mem_append.mp hop with hop1 | hop1
  · by_cases hd : dels ≠ []
    · rw [if_pos hd] at hop1
      rcases List.mem_singleton.mp hop1 with rfl
      intro l hl
      injection hl with hl
      subst hl
      exact hdel
    · rw [if_neg hd] at hop1
      cases hop1
  · obtain ⟨e2, he2⟩ := h2 op hop1
    rw [he2]
    exact delSafe_of_wadd

theorem updateSimpleDocument_protect {x : PyStr} {en : Entry} {st : Store}
    (uid txt : PyStr) (m : Meta)
    (h : XInv x en st) (hne : en.meta.parent_id ≠ some uid) :
    (∃ en', XInv x en' (updateSimpleDocument st uid txt m).1
        ∧ (en' = en ∨ (uid = x ∧ en' = ⟨en.eid, txt, m⟩)))
    ∧ ∀ op ∈ (updateSimpleDocument st uid txt m).2.1, delSafe x op := by
  have hdel := updDels_not_x h hne
  set dels := (st.filter (fun e => e.meta.parent_id == some uid)).map (·.eid)
    with hdels
  have hbody : updateSimpleDocument st uid txt m
      = ((processUpdateDocument
            (if dels ≠ [] then storeDel st dels else st) uid txt m).1,
         (if dels ≠ [] then [Op.del dels] else [])
           ++ (processUpdateDocument
            (if dels ≠ [] then storeDel st dels else st) uid txt m).2.1,
         (processUpdateDocument
            (if dels ≠ [] then storeDel st dels else st) uid txt m).2.2) := by
    unfold updateSimpleDocument
    by_cases hd : dels ≠ [] <;> simp [← hdels, hd]
  have hst1 : XInv x en (if dels ≠ [] then storeDel st dels else st) := by
    by_cases hd : dels ≠ []
    · rw [if_pos hd]
      exact XInv_storeDel h hdel
    · rw [if_neg hd]
      exact h
  obtain ⟨h1, h2⟩ := processUpdateDocument_protect uid txt m hst1
  rw [hbody]
  refine ⟨h1, ?_⟩
  intro op hop
  rcases List.mem_append.mp hop with hop1 | hop1
  · by_cases hd : dels ≠ []
    · rw [if_pos hd] at hop1
      rcases List.mem_singleton.mp hop1 with rfl
      intro l hl
      injection hl with hl
      subst hl
      exact hdel
    · rw [if_neg hd] at hop1
      cases hop1
  · exact h2 op hop1

theorem updStep_eq (chunkSize epoch : Nat) (st : Store) (ops0 : List Op)
    (n0 : Nat) (doc txt0 : PyStr) (m : Meta) :
    updStep chunkSize epoch (st, ops0, n0) (doc, txt0, m)
      = ((if (pyStrip txt0).length > chunkSize then
            updateChunkedDocument st doc (pyStrip txt0) (cleanMeta m) chunkSize epoch
          else
            updateSimpleDocument st doc (pyStrip txt0) (cleanMeta m)).1,
         ops0 ++ (if (pyStrip txt0).length > chunkSize then
            updateChunkedDocument st doc (pyStrip txt0) (cleanMeta m) chunkSize epoch
          else
            updateSimpleDocument st doc (pyStrip txt0) (cleanMeta m)).2.1,
         if (if (pyStrip txt0).length > chunkSize then
            updateChunkedDocument st doc (pyStrip txt0) (cleanMeta m) chunkSize epoch
          else
            updateSimpleDocument st doc (pyStrip txt0) (cleanMeta m)).2.2
         then n0 + 1 else n0) := rfl

theorem updFold_protect {x : PyStr} (chunkSize epoch : Nat)
    (items : List (PyStr × PyStr × Meta)) :
    ∀ (st : Store) (ops0 : List Op) (n0 : Nat) (en : Entry),
    XInv x en st →
    (∀ it ∈ items, en.meta.parent_id ≠ some it.1) →
    (∀ it ∈ items, ∀ it2 ∈ items, (cleanMeta it.2.2).parent_id ≠ some it2.1) →
    (∃ en', XInv x en' (items.foldl (updStep chunkSize epoch) (st, ops0, n0)).1
        ∧ en'.eid = en.eid
        ∧ (en' = en ∨ ∃ it ∈ items, it.1 = x ∧ en'.meta = cleanMeta it.2.2))
    ∧ ∀ op ∈ (items.foldl (updStep chunkSize epoch) (st, ops0, n0)).2.1,
        op ∈ ops0 ∨ delSafe x op := by
  induction items with
  | nil =>
    intro st ops0 n0 en h _ _
    exact ⟨⟨en, h, rfl, Or.inl rfl⟩, fun op hop => Or.inl hop⟩
  | cons it rest ih =>
    intro st ops0 n0 en h hpar hmeta
    obtain ⟨doc, txt0, m⟩ := it
    rw [List.foldl_cons, updStep_eq]
    set res := (if (pyStrip txt0).length > chunkSize then
        updateChunkedDocument st doc (pyStrip txt0) (cleanMeta m) chunkSize epoch
      else
        updateSimpleDocument st doc (pyStrip txt0) (cleanMeta m)) with hres
    have hne : en.meta.parent_id ≠ some doc := hpar _ (List.mem_cons_self _ _)
    have hstep : (∃ en1, XInv x en1 res.1 ∧ en1.eid = en.eid
          ∧ (en1 = en ∨ (doc = x ∧ en1.meta = cleanMeta m)))
        ∧ ∀ op ∈ res.2.1, delSafe x op := by
      by_cases hl : (pyStrip txt0).length > chunkSize
      · rw [hres, if_pos hl]
        obtain ⟨h1, h2⟩ := updateChunkedDocument_protect doc (pyStrip txt0)
          (cleanMeta m) chunkSize epoch h hne
        exact ⟨⟨en, h1, rfl, Or.inl rfl⟩, h2⟩
      · rw [hres, if_neg hl]
        obtain ⟨⟨en1, h1, hd⟩, h2⟩ := updateSimpleDocument_protect doc
          (pyStrip txt0) (cleanMeta m) h hne
        rcases hd with rfl | ⟨hdx, rfl⟩
        · exact ⟨⟨en1, h1, rfl, Or.inl rfl⟩, h2⟩
        · exact ⟨⟨_, h1, rfl, Or.inr ⟨hdx, rfl⟩⟩, h2⟩
    obtain ⟨⟨en1, h1, heid1, hd1⟩, hops1⟩ := hstep
    have hpar1 : ∀ it2 ∈ rest, en1.meta.parent_id ≠ some it2.1 := by
      intro it2 h2m
      rcases hd1 with rfl | ⟨_, hm1⟩
      · exact hpar it2 (List.mem_cons_of_mem _ h2m)
      · rw [hm1]
        exact hmeta _ (List.mem_cons_self _ _) it2 (List.mem_cons_of_mem _ h2m)
    have hmeta1 : ∀ it3 ∈ rest, ∀ it2 ∈ rest,
        (cleanMeta it3.2.2).parent_id ≠ some it2.1 :=
      fun a ha b hb =>
        hmeta a (List.mem_cons_of_mem _ ha) b (List.mem_cons_of_mem _ hb)
    obtain ⟨⟨en2, h2, heid2, hd2⟩, hops2⟩ :=
      ih res.1 (ops0 ++ res.2.1) _ en1 h1 hpar1 hmeta1
    constructor
    · refine ⟨en2, h2, ?_, ?_⟩
      · rcases hd1 with rfl | ⟨_, _⟩
        · exact heid2
        · exact heid2.trans heid1
      · rcases hd2 with rfl | ⟨it2, hit2, hx2, hm2⟩
        · rcases hd1 with rfl | ⟨hdx, hm1⟩
          · exact Or.inl rfl
          · exact Or.inr ⟨(doc, txt0, m), List.mem_cons_self _ _, hdx, hm1⟩
        · exact Or.inr ⟨it2, List.mem_cons_of_mem _ hit2, hx2, hm2⟩
    · intro op hop
      rcases hops2 op hop with hop1 | hop1
      · rcases List.mem_append.mp hop1 with hop2 | hop2
        · exact Or.inl hop2
        · exact Or.inr (hops1 op hop2)
      · exact Or.inr hop1

theorem updateDocs_protect {x : PyStr} {en : Entry} {st : Store}
    (items : List (PyStr × PyStr × Meta)) (chunkSize epoch : Nat)
    (h : XInv x en st)
    (hpar : ∀ it ∈ items, en.meta.parent_id ≠ some it.1)
    (hmeta : ∀ it ∈ items, ∀ it2 ∈ items,
      (cleanMeta it.2.2).parent_id ≠ some it2.1) :
    (∃ en', XInv x en' (updateDocs st items chunkSize epoch).1
        ∧ en'.eid = en.eid
        ∧ (en' = en ∨ ∃ it ∈ items, it.1 = x ∧ en'.meta = cleanMeta it.2.2))
    ∧ ∀ op ∈ (updateDocs st items chunkSize epoch).2.1, delSafe x op := by
  obtain ⟨h1, h2⟩ := updFold_protect chunkSize epoch items st [] 0 en h hpar hmeta
  refine ⟨h1, fun op hop => ?_⟩
  rcases h2 op hop with hop1 | hop1
  · cases hop1
  · exact hop1

theorem zip3_mem_fst {α β γ : Type} {t : α × β × γ} :
    ∀ {a : List α} {b : List β} {c : List γ}, t ∈ zip3 a b c → t.1 ∈ a := by
  intro a
  induction a with
  | nil => intro b c h; cases b <;> cases c <;> cases h
  | cons x xs ih =>
    intro b c h
    cases b with
    | nil => cases c <;> cases h
    | cons y ys =>
      cases c with
      | nil => cases h
      | cons z zs =>
        rcases List.mem_cons.mp h with rfl | h2
        · exact List.mem_cons_self _ _
        · exact List.mem_cons_of_mem _ (ih h2)

theorem getD_mem_of_lt {l : List PyStr} {i : Nat} (h : i < l.length) :
    l.getD i [] ∈ l := by
  rw [List.getD_eq_getElem l [] h]
  exact List.getElem_mem h

theorem addFilter_ids_sub (st : Store) (pTexts pIds : List PyStr)
    (pMetas : List MetaV) :
    ∀ i ∈ (addFilter st pTexts pIds pMetas).2.1, i ∈ pIds := by
  intro i hi
  simp only [addFilter] at hi
  split at hi
  · exact hi
  · split at hi
    · split at hi
      all_goals
        obtain ⟨j, hj, hji⟩ := List.mem_map.mp hi
        have hjlt : j < pIds.length := List.mem_range.mp (List.mem_filter.mp hj).1
        rw [← hji]
        exact getD_mem_of_lt hjlt
    · exact hi

theorem addFold_protect {x : PyStr} {en : Entry} (chunkSize epoch : Nat)
    (docs : List (PyStr × PyStr × MetaV)) :
    ∀ (st : Store) (ops0 : List Op) (n0 : Nat), XInv x en st →
    XInv x en (docs.foldl (addStep chunkSize epoch) (st, ops0, n0)).1
    ∧ ∀ op ∈ (docs.foldl (addStep chunkSize epoch) (st, ops0, n0)).2.1,
        op ∈ ops0 ∨ ∃ dtm ∈ docs, ∃ e2, op = Op.wadd dtm.1 e2 := by
  induction docs with
  | nil =>
    intro st ops0 n0 h
    exact ⟨h, fun op hop => Or.inl hop⟩
  | cons dtm rest ih =>
    intro st ops0 n0 h
    obtain ⟨did, dtxt, dmv⟩ := dtm
    rw [List.foldl_cons]
    have hstep : addStep chunkSize epoch (st, ops0, n0) (did, dtxt, dmv)
        = ((if dtxt.length > chunkSize then
              processDocWithChunking st did dtxt dmv chunkSize epoch
            else processAddDocument st did dtxt dmv).1,
           ops0 ++ (if dtxt.length > chunkSize then
              processDocWithChunking st did dtxt dmv chunkSize epoch
            else processAddDocument st did dtxt dmv).2.1,
           if (if dtxt.length > chunkSize then
              processDocWithChunking st did dtxt dmv chunkSize epoch
            else processAddDocument st did dtxt dmv).2.2
           then n0 + 1 else n0) := rfl
    rw [hstep]
    set res := (if dtxt.length > chunkSize then
        processDocWithChunking st did dtxt dmv chunkSize epoch
      else processAddDocument st did dtxt dmv) with hres
    have hone : XInv x en res.1 ∧ ∀ op ∈ res.2.1, ∃ e2, op = Op.wadd did e2 := by
      by_cases hl : dtxt.length > chunkSize
      · rw [hres, if_pos hl]
        exact processDocWithChunking_protect did dtxt dmv chunkSize epoch h
      · rw [hres, if_neg hl]
        exact processAddDocument_protect did dtxt dmv h
    obtain ⟨h1, hops1⟩ := hone
    obtain ⟨h2, hops2⟩ := ih res.1 (ops0 ++ res.2.1) _ h1
    refine ⟨h2, fun op hop => ?_⟩
    rcases hops2 op hop with hop1 | hop1
    · rcases List.mem_append.mp hop1 with hop2 | hop2
      · exact Or.inl hop2
      · obtain ⟨e2, he2⟩ := hops1 op hop2
        exact Or.inr ⟨(did, dtxt, dmv), List.mem_cons_self _ _, e2, he2⟩
    · obtain ⟨d2, hd2, e2, he2⟩ := hop1
      exact Or.inr ⟨d2, List.mem_cons_of_mem _ hd2, e2, he2⟩

theorem addDocuments_protect {x : PyStr} {en : Entry} {st : Store}
    (texts : List PyStr) (metas? : Option (List Meta)) (l0 : List PyStr)
    (skipExisting : Bool) (chunkSize epoch : Nat) (nowTs : PyStr)
    (h : XInv x en st) (hl0 : l0 ≠ []) :
    XInv x en (addDocuments st texts metas? (some l0) skipExisting
      chunkSize epoch nowTs).1
    ∧ ∀ op ∈ (addDocuments st texts metas? (some l0) skipExisting
        chunkSize epoch nowTs).2.1,
        ∃ d ∈ l0, ∃ e2, op = Op.wadd d e2 := by
  have hle : l0.isEmpty = false := by
    cases l0 with
    | nil => exact absurd rfl hl0
    | cons a l => rfl
  simp only [addDocuments, hle, Bool.false_eq_true, if_false]
  by_cases hskip : skipExisting = true
  · rw [if_pos hskip]
    split
    · exact ⟨h, by intro op hop; cases hop⟩
    · split
      · exact ⟨h, by intro op hop; cases hop⟩
      · refine ⟨(addFold_protect chunkSize epoch _ st [] 0 h).1, ?_⟩
        intro op hop
        rcases (addFold_protect chunkSize epoch _ st [] 0 h).2 op hop
          with hop1 | hop1
        · cases hop1
        · obtain ⟨dtm, hdtm, e2, he2⟩ := hop1
          refine ⟨dtm.1, ?_, e2, he2⟩
          exact List.take_subset _ _
            (addFilter_ids_sub _ _ _ _ _ (zip3_mem_fst hdtm))
  · rw [if_neg hskip]
    split
    · exact ⟨h, by intro op hop; cases hop⟩
    · refine ⟨(addFold_protect chunkSize epoch _ st [] 0 h).1, ?_⟩
      intro op hop
      rcases (addFold_protect chunkSize epoch _ st [] 0 h).2 op hop
        with hop1 | hop1
      · cases hop1
      · obtain ⟨dtm, hdtm, e2, he2⟩ := hop1
        refine ⟨dtm.1, ?_, e2, he2⟩
        exact List.take_subset _ _ (zip3_mem_fst hdtm)

theorem zip3_mem_trd {α β γ : Type} {t : α × β × γ} :
    ∀ {a : List α} {b : List β} {c : List γ}, t ∈ zip3 a b c → t.2.2 ∈ c := by
  intro a
  induction a with
  | nil => intro b c h; cases b <;> cases c <;> cases h
  | cons x xs ih =>
    intro b c h
    cases b with
    | nil => cases c <;> cases h
    | cons y ys =>
      cases c with
      | nil => cases h
      | cons z zs =>
        rcases List.mem_cons.mp h with rfl | h2
        · exact List.mem_cons_self _ _
        · exact List.mem_cons_of_mem _ (ih h2)

theorem zip3_len {α β γ : Type} :
    ∀ {a : List α} {b : List β} {c : List γ}, b.length = a.length →
    c.length = a.length → (zip3 a b c).length = a.length := by
  intro a
  induction a with
  | nil =>
    intro b c hb _
    rw [List.length_eq_zero.mp hb]
    cases c <;> rfl
  | cons x xs ih =>
    intro b c hb hc
    cases b with
    | nil => cases hb
    | cons y ys =>
      cases c with
      | nil => cases hc
      | cons z zs =>
        rw [show zip3 (x :: xs) (y :: ys) (z :: zs) = (x, y, z) :: zip3 xs ys zs
            from rfl]
        simp only [List.length_cons] at hb hc ⊢
        rw [ih (Nat.succ_injective hb) (Nat.succ_injective hc)]

theorem mem_chunkIdsOf {st : Store} {d x : PyStr} :
    x ∈ chunkIdsOf st d ↔ ∃ e ∈ st, e.eid = x ∧ e.meta.parent_id = some d := by
  unfold chunkIdsOf
  constructor
  · intro hx
    obtain ⟨e, he, heid⟩ := List.mem_map.mp hx
    obtain ⟨hmem, hpar⟩ := List.mem_filter.mp he
    exact ⟨e, hmem, heid, by simpa using hpar⟩
  · rintro ⟨e, hmem, heid, hpar⟩
    exact List.mem_map.mpr ⟨e, List.mem_filter.mpr ⟨hmem, by simp [hpar]⟩, heid⟩

theorem chunkIdsOf_disjoint {st : Store} (hn : (storeIds st).Nodup)
    {a d x : PyStr} (hne : a ≠ d) (hx : x ∈ chunkIdsOf st a) :
    x ∉ chunkIdsOf st d := by
  intro hxd
  obtain ⟨e1, he1, heid1, hpar1⟩ := mem_chunkIdsOf.mp hx
  obtain ⟨e2, he2, heid2, hpar2⟩ := mem_chunkIdsOf.mp hxd
  have := ids_nodup_unique hn he1 he2 (heid1.trans heid2.symm)
  subst this
  rw [hpar1] at hpar2
  injection hpar2 with hc
  exact hne hc

theorem not_mem_chunkIdsOf_self {st : Store} {d a : PyStr}
    (H5 : ∀ e ∈ st, e.eid = d → e.meta.parent_id = none) :
    d ∉ chunkIdsOf st a := by
  intro hd
  obtain ⟨e, he, heid, hpar⟩ := mem_chunkIdsOf.mp hd
  rw [H5 e he heid] at hpar
  cases hpar

theorem mem_toBatches {α : Type} {n : Nat} (hn : 1 ≤ n) {l : List α} {x : α}
    (hx : x ∈ l) : ∃ b ∈ toBatches n l, x ∈ b := by
  rw [← toBatches_flatten n hn l] at hx
  exact List.mem_flatten.mp hx

theorem addSyncMeta_parent (now : PyStr) (m : Meta) :
    (addSyncMeta now m).parent_id = m.parent_id := rfl

/-!
Provenance of the physical write operations issued by each path.
-/

theorem processAddDocument_ops (st : Store) (doc txt : PyStr) (mv : MetaV) :
    ∀ op ∈ (processAddDocument st doc txt mv).2.1, writeProv op = some doc := by
  intro op hop
  cases mv with
  | inr s => cases hop
  | inl m =>
    rw [show processAddDocument st doc txt (.inl m)
        = (match storeAdd st ⟨doc, txt, m⟩ with
           | some st' => (st', [Op.wadd doc ⟨doc, txt, m⟩], true)
           | none => (st, [], false)) from rfl] at hop
    rcases hsa : storeAdd st ⟨doc, txt, m⟩ with _ | st2 <;> rw [hsa] at hop
    · cases hop
    · rcases List.mem_singleton.mp hop with rfl
      rfl

theorem addSingleChunkWithFallback_ops (st : Store) (doc : PyStr) (e : Entry)
    (epoch : Nat) :
    ∀ op ∈ (addSingleChunkWithFallback st doc e epoch).2.1,
      writeProv op = some doc := by
  intro op hop
  rw [show addSingleChunkWithFallback st doc e epoch
      = (match storeAdd st e with
         | some st' => (st', [Op.wadd doc e], true)
         | none =>
           match storeAdd st { e with eid := e.eid ++ pyS "_" ++ natStr epoch } with
           | some st' =>
             (st', [Op.wadd doc { e with eid := e.eid ++ pyS "_" ++ natStr epoch }],
              true)
           | none => (st, [], false)) from rfl] at hop
  rcases hsa : storeAdd st e with _ | st2 <;> rw [hsa] at hop
  · rcases hsb : storeAdd st { e with eid := e.eid ++ pyS "_" ++ natStr epoch }
      with _ | st3 <;> rw [hsb] at hop
    · cases hop
    · rcases List.mem_singleton.mp hop with rfl
      rfl
  · rcases List.mem_singleton.mp hop with rfl
    rfl

theorem chunkFallFold_ops (doc : PyStr) (epoch : Nat) (ces : List Entry) :
    ∀ (st : Store) (ops0 : List Op) (n0 : Nat),
    ∀ op ∈ (ces.foldl (chunkFallStep doc epoch) (st, ops0, n0)).2.1,
      op ∈ ops0 ∨ writeProv op = some doc := by
  induction ces with
  | nil => intro st ops0 n0 op hop; exact Or.inl hop
  | cons e rest ih =>
    intro st ops0 n0 op hop
    rw [List.foldl_cons, show chunkFallStep doc epoch (st, ops0, n0) e
        = ((addSingleChunkWithFallback st doc e epoch).1,
           ops0 ++ (addSingleChunkWithFallback st doc e epoch).2.1,
           if (addSingleChunkWithFallback st doc e epoch).2.2 then n0 + 1
           else n0) from rfl] at hop
    rcases ih _ _ _ op hop with hop1 | hop1
    · rcases List.mem_append.mp hop1 with hop2 | hop2
      · exact Or.inl hop2
      · exact Or.inr (addSingleChunkWithFallback_ops st doc e epoch op hop2)
    · exact Or.inr hop1

theorem processDocWithChunking_ops (st : Store) (doc txt : PyStr) (mv : MetaV)
    (c ep : Nat) :
    ∀ op ∈ (processDocWithChunking st doc txt mv c ep).2.1,
      writeProv op = some doc := by
  intro op hop
  cases mv with
  | inr s => cases hop
  | inl m =>
    by_cases hall : ((chunkData doc txt m c).all (fun e => !(hasId st e.eid))) = true
    · rw [show processDocWithChunking st doc txt (.inl m) c ep
          = (st ++ chunkData doc txt m c,
             (chunkData doc txt m c).map (Op.wadd doc), true) by
        simp only [processDocWithChunking]
        rw [if_pos hall]] at hop
      obtain ⟨e2, _, he2⟩ := List.mem_map.mp hop
      rw [← he2]
      rfl
    · rw [show processDocWithChunking st doc txt (.inl m) c ep
          = (((chunkData doc txt m c).foldl (chunkFallStep doc ep) (st, [], 0)).1,
             ((chunkData doc txt m c).foldl (chunkFallStep doc ep) (st, [], 0)).2.1,
             decide (((chunkData doc txt m c).foldl (chunkFallStep doc ep)
               (st, [], 0)).2.2 > 0)) by
        simp only [processDocWithChunking]
        rw [if_neg hall]] at hop
      rcases chunkFallFold_ops doc ep (chunkData doc txt m c) st [] 0 op hop
        with hop1 | hop1
      · cases hop1
      · exact hop1

theorem processUpdateDocument_ops (st : Store) (uid txt : PyStr) (m : Meta) :
    ∀ op ∈ (processUpdateDocument st uid txt m).2.1,
      writeProv op = some uid := by
  intro op hop
  rw [show processUpdateDocument st uid txt m
      = (match storeUpd st uid txt m with
         | some st' => (st', [Op.wupd uid ⟨uid, txt, m⟩], true)
         | none => processAddDocument st uid txt (.inl m)) from rfl] at hop
  rcases hsu : storeUpd st uid txt m with _ | st2 <;> rw [hsu] at hop
  · exact processAddDocument_ops st uid txt (.inl m) op hop
  · rcases List.mem_singleton.mp hop with rfl
    rfl

theorem updateChunkedDocument_ops (st : Store) (uid txt : PyStr) (m : Meta)
    (c ep : Nat) :
    ∀ op ∈ (updateChunkedDocument st uid txt m c ep).2.1,
      writeProv op = none ∨ writeProv op = some uid := by
  intro op hop
  set dels := (st.filter (fun e => e.meta.parent_id == some uid)).map (·.eid)
    with hdels
  have hbody : updateChunkedDocument st uid txt m c ep
      = ((processDocWithChunking
            (if dels ≠ [] then storeDel st dels else st) uid txt (.inl m) c ep).1,
         (if dels ≠ [] then [Op.del dels] else [])
           ++ (processDocWithChunking
            (if dels ≠ [] then storeDel st dels else st) uid txt (.inl m) c ep).2.1,
         (processDocWithChunking
            (if dels ≠ [] then storeDel st dels else st) uid txt (.inl m) c ep).2.2) := by
    unfold updateChunkedDocument
    by_cases hd : dels ≠ [] <;> simp [← hdels, hd]
  rw [hbody] at hop
  rcases List.mem_append.mp hop with hop1 | hop1
  · by_cases hd : dels ≠ []
    · rw [if_pos hd] at hop1
      rcases List.mem_singleton.mp hop1 with rfl
      exact Or.inl rfl
    · rw [if_neg hd] at hop1
      cases hop1
  · exact Or.inr (processDocWithChunking_ops _ uid txt (.inl m) c ep op hop1)

theorem updateSimpleDocument_ops (st : Store) (uid txt : PyStr) (m : Meta) :
    ∀ op ∈ (updateSimpleDocument st uid txt m).2.1,
      writeProv op = none ∨ writeProv op = some uid := by
  intro op hop
  set dels := (st.filter (fun e => e.meta.parent_id == some uid)).map (·.eid)
    with hdels
  have hbody : updateSimpleDocument st uid txt m
      = ((processUpdateDocument
            (if dels ≠ [] then storeDel st dels else st) uid txt m).1,
         (if dels ≠ [] then [Op.del dels] else [])
           ++ (processUpdateDocument
            (if dels ≠ [] then storeDel st dels else st) uid txt m).2.1,
         (processUpdateDocument
            (if dels ≠ [] then storeDel st dels else st) uid txt m).2.2) := by
    unfold updateSimpleDocument
    by_cases hd : dels ≠ [] <;> simp [← hdels, hd]
  rw [hbody] at hop
  rcases List.mem_append.mp hop with hop1 | hop1
  · by_cases hd : dels ≠ []
    · rw [if_pos hd] at hop1
      rcases List.mem_singleton.mp hop1 with rfl
      exact Or.inl rfl
    · rw [if_neg hd] at hop1
      cases hop1
  · exact Or.inr (processUpdateDocument_ops _ uid txt m op hop1)

theorem updFold_ops (chunkSize epoch : Nat)
    (items : List (PyStr × PyStr × Meta)) :
    ∀ (st : Store) (ops0 : List Op) (n0 : Nat),
    ∀ op ∈ (items.foldl (updStep chunkSize epoch) (st, ops0, n0)).2.1,
      op ∈ ops0 ∨ writeProv op = none
      ∨ ∃ it ∈ items, writeProv op = some it.1 := by
  induction items with
  | nil => intro st ops0 n0 op hop; exact Or.inl hop
  | cons it rest ih =>
    intro st ops0 n0 op hop
    obtain ⟨doc, txt0, m⟩ := it
    rw [List.foldl_cons, updStep_eq] at hop
    rcases ih _ _ _ op hop with hop1 | hop1 | hop1
    · rcases List.mem_append.mp hop1 with hop2 | hop2
      · exact Or.inl hop2
      · by_cases hl : (pyStrip txt0).length > chunkSize
        · rw [if_pos hl] at hop2
          rcases updateChunkedDocument_ops st doc (pyStrip txt0) (cleanMeta m)
            chunkSize epoch op hop2 with h2 | h2
          · exact Or.inr (Or.inl h2)
          · exact Or.inr (Or.inr ⟨(doc, txt0, m), List.mem_cons_self _ _, h2⟩)
        · rw [if_neg hl] at hop2
          rcases updateSimpleDocument_ops st doc (pyStrip txt0) (cleanMeta m)
            op hop2 with h2 | h2
          · exact Or.inr (Or.inl h2)
          · exact Or.inr (Or.inr ⟨(doc, txt0, m), List.mem_cons_self _ _, h2⟩)
    · exact Or.inr (Or.inl hop1)
    · obtain ⟨it2, hit2, h2⟩ := hop1
      exact Or.inr (Or.inr ⟨it2, List.mem_cons_of_mem _ hit2, h2⟩)

theorem updateDocs_ops (st : Store) (items : List (PyStr × PyStr × Meta))
    (chunkSize epoch : Nat) :
    ∀ op ∈ (updateDocs st items chunkSize epoch).2.1,
      writeProv op = none ∨ ∃ it ∈ items, writeProv op = some it.1 := by
  intro op hop
  rcases updFold_ops chunkSize epoch items st [] 0 op hop with h1 | h1 | h1
  · cases h1
  · exact Or.inl h1
  · exact Or.inr h1

/-!
Refined classification lemmas: processing split around one document of
interest, exact branch shapes, and provenance of the update items.
-/

theorem classifyDocs_append {snap : Snapshot} {now : PyStr} {cs cs' : CState}
    {l1 l2 : List (PyStr × PyStr × Meta)}
    (h : classifyDocs snap now (l1 ++ l2) cs = .ok cs') :
    ∃ cs1, classifyDocs snap now l1 cs = .ok cs1
      ∧ classifyDocs snap now l2 cs1 = .ok cs' := by
  induction l1 generalizing cs with
  | nil => exact ⟨cs, rfl, h⟩
  | cons a t ih =>
    obtain ⟨cs1, hstep, hrest⟩ := classifyDocs_cons h
    obtain ⟨cs2, h1, h2⟩ := ih hrest
    refine ⟨cs2, ?_, h2⟩
    unfold classifyDocs
    rw [List.foldlM_cons, hstep]
    exact h1

theorem classifyStep_update {snap : Snapshot} (now : PyStr) {cs : CState}
    (dtm : PyStr × PyStr × Meta) {vmeta : Meta}
    (hcond : ((lookupE cs.rem dtm.1).isSome
        || assocHas snap.chunkParents dtm.1) = true)
    (hv : vmetaOf snap cs.rem dtm.1 = some vmeta)
    (hstale : dtm.2.2.last_modified ≠ [] ∧ vmeta.last_modified ≠ [] ∧
      pyLt vmeta.last_modified dtm.2.2.last_modified = true) :
    classifyStep snap now cs dtm
      = .ok { toAdd := cs.toAdd,
              toUpd := cs.toUpd ++ [(dtm.1, dtm.2.1, addSyncMeta now dtm.2.2)],
              toDel := (if assocHas snap.chunkParents dtm.1 then
                          setInsMany cs.toDel (assocGet snap.chunkParents dtm.1)
                        else cs.toDel),
              tracked := setIns cs.tracked dtm.1,
              rem := popId cs.rem dtm.1 } := by
  have h1 : classifyStep snap now cs dtm
      = (if dtm.2.2.last_modified ≠ [] ∧ vmeta.last_modified ≠ [] ∧
            pyLt vmeta.last_modified dtm.2.2.last_modified = true then
          (.ok { toAdd := cs.toAdd,
                 toUpd := cs.toUpd ++ [(dtm.1, dtm.2.1, addSyncMeta now dtm.2.2)],
                 toDel := (if assocHas snap.chunkParents dtm.1 then
                             setInsMany cs.toDel
                               (assocGet snap.chunkParents dtm.1)
                           else cs.toDel),
                 tracked := setIns cs.tracked dtm.1,
                 rem := popId cs.rem dtm.1 } : Except Unit CState)
         else
           .ok { cs with tracked := setIns cs.tracked dtm.1,
                         rem := popId cs.rem dtm.1 }) := by
    simp only [classifyStep]
    rw [if_pos hcond, hv]
  rw [h1, if_pos hstale]

theorem classifyStep_noop {snap : Snapshot} (now : PyStr) {cs : CState}
    (dtm : PyStr × PyStr × Meta) {vmeta : Meta}
    (hcond : ((lookupE cs.rem dtm.1).isSome
        || assocHas snap.chunkParents dtm.1) = true)
    (hv : vmetaOf snap cs.rem dtm.1 = some vmeta)
    (hfresh : ¬(dtm.2.2.last_modified ≠ [] ∧ vmeta.last_modified ≠ [] ∧
      pyLt vmeta.last_modified dtm.2.2.last_modified = true)) :
    classifyStep snap now cs dtm
      = .ok { cs with tracked := setIns cs.tracked dtm.1,
                      rem := popId cs.rem dtm.1 } := by
  have h1 : classifyStep snap now cs dtm
      = (if dtm.2.2.last_modified ≠ [] ∧ vmeta.last_modified ≠ [] ∧
            pyLt vmeta.last_modified dtm.2.2.last_modified = true then
          (.ok { toAdd := cs.toAdd,
                 toUpd := cs.toUpd ++ [(dtm.1, dtm.2.1, addSyncMeta now dtm.2.2)],
                 toDel := (if assocHas snap.chunkParents dtm.1 then
                             setInsMany cs.toDel
                               (assocGet snap.chunkParents dtm.1)
                           else cs.toDel),
                 tracked := setIns cs.tracked dtm.1,
                 rem := popId cs.rem dtm.1 } : Except Unit CState)
         else
           .ok { cs with tracked := setIns cs.tracked dtm.1,
                         rem := popId cs.rem dtm.1 }) := by
    simp only [classifyStep]
    rw [if_pos hcond, hv]
  rw [h1, if_neg hfresh]

theorem classifyDocs_toUpd_meta {snap : Snapshot} {now : PyStr}
    (docs : List (PyStr × PyStr × Meta)) :
    ∀ cs cs', classifyDocs snap now docs cs = .ok cs' →
    ∀ x ∈ cs'.toUpd, x ∈ cs.toUpd
      ∨ ∃ dtm ∈ docs, x = (dtm.1, dtm.2.1, addSyncMeta now dtm.2.2) := by
  induction docs with
  | nil =>
    intro cs cs' h x hx
    rw [classifyDocs_nil] at h
    injection h with h
    subst h
    exact Or.inl hx
  | cons dt rest ih =>
    intro cs cs' h x hx
    obtain ⟨cs1, hstep, hrest⟩ := classifyDocs_cons h
    rcases ih cs1 cs' hrest x hx with h1 | ⟨dtm, hdtm, hx2⟩
    · obtain ⟨_, sUpd, _⟩ := classifyStep_spec hstep
      rcases sUpd with hU | hU
      · rw [hU] at h1
        exact Or.inl h1
      · rw [hU] at h1
        rcases List.mem_append.mp h1 with h2 | h2
        · exact Or.inl h2
        · rcases List.mem_singleton.mp h2 with rfl
          exact Or.inr ⟨dt, List.mem_cons_self _ _, rfl⟩
    · exact Or.inr ⟨dtm, List.mem_cons_of_mem _ hdtm, hx2⟩

theorem popId_sublist (rem : List Entry) (i : PyStr) :
    (popId rem i).Sublist rem := List.filter_sublist _

theorem classifyDocs_rem_sublist {snap : Snapshot} {now : PyStr}
    (docs : List (PyStr × PyStr × Meta)) :
    ∀ cs cs', classifyDocs snap now docs cs = .ok cs' →
    cs'.rem.Sublist cs.rem := by
  induction docs with
  | nil =>
    intro cs cs' h
    rw [classifyDocs_nil] at h
    injection h with h
    subst h
    exact List.Sublist.refl _
  | cons dt rest ih =>
    intro cs cs' h
    obtain ⟨cs1, hstep, hrest⟩ := classifyDocs_cons h
    obtain ⟨_, _, _, _, _, sRem⟩ := classifyStep_spec hstep
    have h1 := ih cs1 cs' hrest
    rcases sRem with hR | hR
    · rw [hR] at h1
      exact h1
    · rw [hR] at h1
      exact h1.trans (popId_sublist _ _)

theorem rem_ids_nodup {st : Store} (hn : (storeIds st).Nodup)
    {rem : List Entry} (hsub : rem.Sublist st) : (storeIds rem).Nodup :=
  List.Nodup.sublist (List.Sublist.map _ hsub) hn

theorem mcbp_fold_get_nil (entries : List Entry) :
    ∀ acc, assocGet acc ([] : PyStr) = [] →
    assocGet (entries.foldl mcbpStep acc) ([] : PyStr) = [] := by
  induction entries with
  | nil => intro acc h; exact h
  | cons e rest ih =>
    intro acc h
    rw [List.foldl_cons]
    apply ih
    rcases hpar : e.meta.parent_id with _ | p
    · rw [show mcbpStep acc e = acc by unfold mcbpStep; rw [hpar]]
      exact h
    · by_cases hp : p = []
      · rw [show mcbpStep acc e = acc by unfold mcbpStep; rw [hpar, hp]; simp]
        exact h
      · rw [show mcbpStep acc e = assocAppend acc p e.eid by
          unfold mcbpStep; rw [hpar]; simp [hp]]
        rw [assocGet_append, if_neg (fun hc : ([] : PyStr) = p => hp hc.symm)]
        exact h

theorem mem_assocGet_mapChunks {st : Store} {a x : PyStr}
    (hx : x ∈ assocGet (mapChunksByParent st) a) :
    ∃ e ∈ st, e.eid = x ∧ e.meta.parent_id = some a := by
  by_cases ha : a = []
  · subst ha
    rw [mapChunksByParent_eq_fold, mcbp_fold_get_nil st [] rfl] at hx
    cases hx
  · rw [assocGet_mapChunks st a ha] at hx
    exact mem_chunkIdsOf.mp hx

/-- Chunk-dictionary entries of a foreign parent never name the id space of
a document whose direct entry (if any) carries no `parent_id`. -/
theorem assocGet_disjoint_idSpace {st : Store} {d : PyStr}
    (H0 : (storeIds st).Nodup)
    (H5 : ∀ e ∈ st, e.eid = d → e.meta.parent_id = none)
    {a x : PyStr} (ha : a ≠ d)
    (hx : x ∈ assocGet (mapChunksByParent st) a) : x ∉ idSpace st d := by
  obtain ⟨e, he, heid, hpar⟩ := mem_assocGet_mapChunks hx
  intro hxid
  rcases List.mem_cons.mp hxid with rfl | hxc
  · rw [H5 e he heid] at hpar
    cases hpar
  · obtain ⟨e2, he2, heid2, hpar2⟩ := mem_chunkIdsOf.mp hxc
    have hee := ids_nodup_unique H0 he he2 (heid.trans heid2.symm)
    subst hee
    rw [hpar] at hpar2
    injection hpar2 with hc
    exact ha hc

/-- Classification of one incoming document of interest `d` whose id (or
chunk grouping) is persisted: staleness routes it to `to_update` with its
chunk ids marked for deletion, freshness leaves every working collection
untouched for it and pops it from the deletion-candidate dictionary. -/
theorem classify_around {st : Store} {now : PyStr}
    {pre post : List (PyStr × PyStr × Meta)} {d td T1 T2 : PyStr} {md : Meta}
    {cs0 : CState}
    (H0 : (storeIds st).Nodup)
    (hc : classifyDocs (snapOf st) now (pre ++ (d, td, md) :: post)
        ⟨[], [], [], [], st⟩ = .ok cs0)
    (Honce : ∀ dtm ∈ pre ++ post, dtm.1 ≠ d)
    (H2 : ∀ dtm ∈ pre ++ post, dtm.1 ∉ idSpace st d)
    (H3 : hasId st d = true ∨ chunkIdsOf st d ≠ [])
    (H4 : ∀ e ∈ st, e.eid = d ∨ e.meta.parent_id = some d →
      e.meta.last_modified = T1)
    (H5 : ∀ e ∈ st, e.eid = d → e.meta.parent_id = none)
    (Hd : d ≠ []) (HT1 : T1 ≠ []) (HT2 : T2 ≠ [])
    (Hmd : md.last_modified = T2) :
    (∀ x ∈ cs0.toAdd, x.1 ≠ d)
    ∧ cs0.rem.Sublist st
    ∧ d ∈ cs0.tracked
    ∧ (pyLt T1 T2 = true →
        (d, td, addSyncMeta now md) ∈ cs0.toUpd
        ∧ ∀ c ∈ chunkIdsOf st d, c ∈ cs0.toDel)
    ∧ (pyLt T1 T2 = false →
        (∀ x ∈ cs0.toUpd, x.1 ≠ d)
        ∧ (∀ e ∈ cs0.rem, e.eid ≠ d)
        ∧ (∀ x ∈ cs0.toDel, x ∉ idSpace st d)) := by
  obtain ⟨cs1, hpre, hrest⟩ := classifyDocs_append hc
  obtain ⟨cs2, hstep, hpost⟩ := classifyDocs_cons hrest
  obtain ⟨pA1, pA2, pU1, pU2, pD1, pD2, pT1, pT2, pT3, pR1, pR2⟩ :=
    classifyDocs_spec pre _ _ hpre
  have hsub1 : cs1.rem.Sublist st := classifyDocs_rem_sublist pre _ _ hpre
  have hpreid : ∀ a ∈ pre.map (·.1), a ≠ d := by
    intro a ha
    obtain ⟨dtm, hdtm, hd1⟩ := List.mem_map.mp ha
    rw [← hd1]
    exact Honce dtm (List.mem_append.mpr (Or.inl hdtm))
  have hpostid : ∀ a ∈ post.map (·.1), a ≠ d := by
    intro a ha
    obtain ⟨dtm, hdtm, hd1⟩ := List.mem_map.mp ha
    rw [← hd1]
    exact Honce dtm (List.mem_append.mpr (Or.inr hdtm))
  have hpreidSp : ∀ a ∈ pre.map (·.1), a ∉ idSpace st d := by
    intro a ha
    obtain ⟨dtm, hdtm, hd1⟩ := List.mem_map.mp ha
    rw [← hd1]
    exact H2 dtm (List.mem_append.mpr (Or.inl hdtm))
  have hdirect : hasId st d = true → (lookupE cs1.rem d).isSome = true := by
    intro h3
    obtain ⟨e, he, heid⟩ := lookupE_isSome_iff.mp
      (show (lookupE st d).isSome = true from h3)
    have herem : e ∈ cs1.rem :=
      pR2 e he (fun hmem => hpreid e.eid hmem heid)
    exact lookupE_isSome_iff.mpr ⟨e, herem, heid⟩
  have hcond : ((lookupE cs1.rem d).isSome
      || assocHas (snapOf st).chunkParents d) = true := by
    rw [Bool.or_eq_true]
    rcases H3 with h3 | h3
    · exact Or.inl (hdirect h3)
    · exact Or.inr ((assocHas_mapChunks st d Hd).mpr h3)
  have hget : assocGet (snapOf st).chunkParents d = chunkIdsOf st d :=
    assocGet_mapChunks st d Hd
  obtain ⟨vmeta, hv, hvT1⟩ :
      ∃ vmeta, vmetaOf (snapOf st) cs1.rem d = some vmeta
        ∧ vmeta.last_modified = T1 := by
    rcases hlk : lookupE cs1.rem d with _ | e
    · have h3 : chunkIdsOf st d ≠ [] := by
        rcases H3 with h3 | h3
        · have hctr := hdirect h3
          rw [hlk] at hctr
          cases hctr
        · exact h3
      rcases hcg : chunkIdsOf st d with _ | ⟨c, rest2⟩
      · exact absurd hcg h3
      · obtain ⟨ec, hec, heceid, hecpar⟩ := mem_chunkIdsOf.mp
          (show c ∈ chunkIdsOf st d by rw [hcg]; exact List.mem_cons_self c rest2)
        have hcid : c ∈ idSpace st d := by
          unfold idSpace
          exact List.mem_cons_of_mem _
            (show c ∈ chunkIdsOf st d by rw [hcg]; exact List.mem_cons_self c rest2)
        have hecrem : ec ∈ cs1.rem :=
          pR2 ec hec (fun hmem => hpreidSp ec.eid hmem (heceid ▸ hcid))
        have hlkc : lookupE cs1.rem c = some ec := by
          rw [← heceid]
          exact lookupE_mem_eq (rem_ids_nodup H0 hsub1) hecrem
        refine ⟨ec.meta, ?_, H4 ec hec (Or.inr hecpar)⟩
        simp only [vmetaOf, hlk, hget, hcg, hlkc, Option.map_some']
    · obtain ⟨herem, heid⟩ := lookupE_some_mem hlk
      refine ⟨e.meta, ?_, H4 e (hsub1.subset herem) (Or.inl heid)⟩
      simp only [vmetaOf, hlk]
  by_cases hlt : pyLt T1 T2 = true
  · have hstale : md.last_modified ≠ [] ∧ vmeta.last_modified ≠ [] ∧
        pyLt vmeta.last_modified md.last_modified = true := by
      rw [Hmd, hvT1]
      exact ⟨HT2, HT1, hlt⟩
    have hcs2 := classifyStep_update now (d, td, md) hcond hv hstale
    rw [hstep] at hcs2
    injection hcs2 with hcs2
    subst hcs2
    obtain ⟨qA1, qA2, qU1, qU2, qD1, qD2, qT1, qT2, qT3, qR1, qR2⟩ :=
      classifyDocs_spec post _ _ hpost
    refine ⟨?_, ?_, ?_, ?_, fun hf => absurd hlt (by rw [hf]; intro hc2; cases hc2)⟩
    · intro x hx
      rcases qA1 x hx with hx1 | hx1
      · rcases pA1 x hx1 with hx2 | hx2
        · cases hx2
        · exact hpreid x.1 hx2
      · exact hpostid x.1 hx1
    · exact (classifyDocs_rem_sublist post _ _ hpost).trans
        ((popId_sublist _ _).trans hsub1)
    · exact qT3 d (mem_setIns.mpr (Or.inr rfl))
    · intro _
      constructor
      · exact qU2 _ (List.mem_append.mpr (Or.inr (List.mem_singleton.mpr rfl)))
      · intro c hcc
        apply qD2
        have hhas : assocHas (snapOf st).chunkParents d = true :=
          (assocHas_mapChunks st d Hd).mpr (List.ne_nil_of_mem hcc)
        show c ∈ (if assocHas (snapOf st).chunkParents d then
            setInsMany cs1.toDel (assocGet (snapOf st).chunkParents d)
          else cs1.toDel)
        rw [if_pos hhas, hget]
        exact mem_setInsMany.mpr (Or.inr hcc)
  · have hfresh : ¬(md.last_modified ≠ [] ∧ vmeta.last_modified ≠ [] ∧
        pyLt vmeta.last_modified md.last_modified = true) := by
      intro hcontra
      rw [hvT1, Hmd] at hcontra
      exact hlt hcontra.2.2
    have hcs2 := classifyStep_noop now (d, td, md) hcond hv hfresh
    rw [hstep] at hcs2
    injection hcs2 with hcs2
    subst hcs2
    obtain ⟨qA1, qA2, qU1, qU2, qD1, qD2, qT1, qT2, qT3, qR1, qR2⟩ :=
      classifyDocs_spec post _ _ hpost
    refine ⟨?_, ?_, ?_, fun ht => absurd ht (by rw [Bool.not_eq_true] at hlt ⊢; exact hlt),
      fun _ => ⟨?_, ?_, ?_⟩⟩
    · intro x hx
      rcases qA1 x hx with hx1 | hx1
      · rcases pA1 x hx1 with hx2 | hx2
        · cases hx2
        · exact hpreid x.1 hx2
      · exact hpostid x.1 hx1
    · exact (classifyDocs_rem_sublist post _ _ hpost).trans
        ((popId_sublist _ _).trans hsub1)
    · exact qT3 d (mem_setIns.mpr (Or.inr rfl))
    · intro x hx
      rcases qU1 x hx with hx1 | hx1
      · rcases pU1 x hx1 with hx2 | hx2
        · cases hx2
        · exact hpreid x.1 hx2
      · exact hpostid x.1 hx1
    · intro e he
      exact (mem_popId.mp (qR1 e he)).2
    · intro x hx
      rcases qD1 x hx with hx1 | ⟨a, ha, hx1⟩
      · rcases pD1 x hx1 with hx2 | ⟨a, ha, hx2⟩
        · cases hx2
        · exact assocGet_disjoint_idSpace H0 H5 (hpreid a ha) hx2
      · exact assocGet_disjoint_idSpace H0 H5 (hpostid a ha) hx1

/-- The orphan-deletion loop adds nothing from the id space of a tracked
document whose direct entry carries no `parent_id`. -/
theorem orphan_toDel_spec {st : Store} {d : PyStr} {cs0 : CState}
    (H0 : (storeIds st).Nodup)
    (H5 : ∀ e ∈ st, e.eid = d → e.meta.parent_id = none)
    (htr : d ∈ cs0.tracked) (hsub : cs0.rem.Sublist st)
    (hdel0 : ∀ x ∈ cs0.toDel, x ∉ idSpace st d) :
    ∀ x ∈ (orphanStep (snapOf st) cs0).toDel, x ∉ idSpace st d := by
  intro x hx
  obtain ⟨_, _, _, _, _, hchar⟩ := orphanFold_spec (snapOf st) cs0.rem cs0
  rcases hchar x hx with hx1 | ⟨e, he, hcond, hx2⟩
  · exact hdel0 x hx1
  · have hest : e ∈ st := hsub.subset he
    rw [Bool.and_eq_true, Bool.and_eq_true] at hcond
    obtain ⟨⟨hnp, _⟩, hntr⟩ := hcond
    have hedne : e.eid ≠ d := by
      intro hc
      rw [Bool.not_eq_true'] at hntr
      rw [hc] at hntr
      have := contains_mem.mpr htr
      rw [hntr] at this
      cases this
    rcases hx2 with rfl | hx2
    · intro hxid
      rcases List.mem_cons.mp hxid with hxc | hxc
      · exact hedne hxc
      · obtain ⟨e2, he2, heid2, hpar2⟩ := mem_chunkIdsOf.mp hxc
        have hee := ids_nodup_unique H0 hest he2 heid2.symm
        subst hee
        simp [hpar2] at hnp
    · exact assocGet_disjoint_idSpace H0 H5 hedne hx2

/-- The dead protection logic of `filter_deletions` makes the deletion phase
operate on the raw candidate set. -/
theorem delPhase_eq (st : Store) (pIds : List PyStr) (cs : CState) :
    delPhase st pIds cs
      = if cs.toDel ≠ [] then
          (storeDel st cs.toDel, (toBatches 100 cs.toDel).map Op.del,
           truePageDeletions cs.toDel st cs.toUpd)
        else (st, [], 0) := by
  unfold delPhase
  rw [filterDeletions_eq]
  by_cases hd : cs.toDel ≠ []
  · rw [if_pos hd]
  · rw [if_neg hd, if_neg hd]

theorem syncDocuments_decomp {st : Store} {ids texts : List PyStr}
    {metas : List Meta} {chunkSize : Nat} {now : PyStr} {epoch : Nat}
    {r : SyncRes} {st' : Store} {tr : List Op}
    (h : syncDocuments st ids texts metas chunkSize now epoch
      = .ok (r, st', tr)) :
    ∃ cs0, classifyDocs (snapOf st) now
        (zip3 ids (texts.map pyStrip) (metas.map cleanMeta))
        ⟨[], [], [], [], st⟩ = .ok cs0
      ∧ syncPhases st ids chunkSize now epoch (orphanStep (snapOf st) cs0)
        = (r, st', tr) := by
  have huf : syncDocuments st ids texts metas chunkSize now epoch
      = (match classifyDocs (snapOf st) now
          (zip3 ids (texts.map pyStrip) (metas.map cleanMeta))
          ⟨[], [], [], [], st⟩ with
         | .error e => .error e
         | .ok cs0 =>
           .ok (syncPhases st ids chunkSize now epoch
             (orphanStep (snapOf st) cs0))) := rfl
  rw [huf] at h
  rcases hcc : classifyDocs (snapOf st) now
      (zip3 ids (texts.map pyStrip) (metas.map cleanMeta))
      ⟨[], [], [], [], st⟩ with e | cs0 <;> rw [hcc] at h
  · exact Except.noConfusion
      (show (Except.error e : Except Unit (SyncRes × Store × List Op))
        = Except.ok (r, st', tr) from h)
  · have h2 : Except.ok (syncPhases st ids chunkSize now epoch
        (orphanStep (snapOf st) cs0))
        = (Except.ok (r, st', tr) : Except Unit (SyncRes × Store × List Op)) := h
    injection h2 with h3
    exact ⟨cs0, rfl, h3⟩

theorem mem_of_mem_toBatches {α : Type} {n : Nat} (hn : 1 ≤ n) {l : List α}
    {b : List α} {x : α} (hb : b ∈ toBatches n l) (hx : x ∈ b) : x ∈ l := by
  rw [← toBatches_flatten n hn l]
  exact List.mem_flatten.mpr ⟨b, hb, hx⟩

theorem XInv_of_nodup {st : Store} (hn : (storeIds st).Nodup) {x : PyStr}
    {en : Entry} (h : lookupE st x = some en) : XInv x en st := by
  obtain ⟨hmem, heid⟩ := lookupE_some_mem h
  exact ⟨h, fun e' he' hx => ids_nodup_unique hn he' hmem (hx.trans heid.symm)⟩

theorem addFold_ops (chunkSize epoch : Nat)
    (docs : List (PyStr × PyStr × MetaV)) :
    ∀ (st : Store) (ops0 : List Op) (n0 : Nat),
    ∀ op ∈ (docs.foldl (addStep chunkSize epoch) (st, ops0, n0)).2.1,
      op ∈ ops0 ∨ ∃ dtm ∈ docs, writeProv op = some dtm.1 := by
  induction docs with
  | nil => intro st ops0 n0 op hop; exact Or.inl hop
  | cons dtm rest ih =>
    intro st ops0 n0 op hop
    obtain ⟨did, dtxt, dmv⟩ := dtm
    rw [List.foldl_cons, show addStep chunkSize epoch (st, ops0, n0)
        (did, dtxt, dmv)
        = ((if dtxt.length > chunkSize then
              processDocWithChunking st did dtxt dmv chunkSize epoch
            else processAddDocument st did dtxt dmv).1,
           ops0 ++ (if dtxt.length > chunkSize then
              processDocWithChunking st did dtxt dmv chunkSize epoch
            else processAddDocument st did dtxt dmv).2.1,
           if (if dtxt.length > chunkSize then
              processDocWithChunking st did dtxt dmv chunkSize epoch
            else processAddDocument st did dtxt dmv).2.2
           then n0 + 1 else n0) from rfl] at hop
    rcases ih _ _ _ op hop with hop1 | hop1
    · rcases List.mem_append.mp hop1 with hop2 | hop2
      · exact Or.inl hop2
      · refine Or.inr ⟨(did, dtxt, dmv), List.mem_cons_self _ _, ?_⟩
        by_cases hl : dtxt.length > chunkSize
        · rw [if_pos hl] at hop2
          exact processDocWithChunking_ops st did dtxt dmv chunkSize epoch op hop2
        · rw [if_neg hl] at hop2
          exact processAddDocument_ops st did dtxt dmv op hop2
    · obtain ⟨d2, hd2, h2⟩ := hop1
      exact Or.inr ⟨d2, List.mem_cons_of_mem _ hd2, h2⟩

theorem addDocuments_ops (st : Store) (texts : List PyStr)
    (metas? : Option (List Meta)) (l0 : List PyStr) (skipExisting : Bool)
    (chunkSize epoch : Nat) (nowTs : PyStr) (hl0 : l0 ≠ []) :
    ∀ op ∈ (addDocuments st texts metas? (some l0) skipExisting
        chunkSize epoch nowTs).2.1,
      ∃ a ∈ l0, writeProv op = some a := by
  have hle : l0.isEmpty = false := by
    cases l0 with
    | nil => exact absurd rfl hl0
    | cons a l => rfl
  simp only [addDocuments, hle, Bool.false_eq_true, if_false]
  by_cases hskip : skipExisting = true
  · rw [if_pos hskip]
    split
    · intro op hop; cases hop
    · split
      · intro op hop; cases hop
      · intro op hop
        rcases addFold_ops chunkSize epoch _ st [] 0 op hop with hop1 | hop1
        · cases hop1
        · obtain ⟨dtm, hdtm, h2⟩ := hop1
          refine ⟨dtm.1, ?_, h2⟩
          exact List.take_subset _ _
            (addFilter_ids_sub _ _ _ _ _ (zip3_mem_fst hdtm))
  · rw [if_neg hskip]
    split
    · intro op hop; cases hop
    · intro op hop
      rcases addFold_ops chunkSize epoch _ st [] 0 op hop with hop1 | hop1
      · cases hop1
      · obtain ⟨dtm, hdtm, h2⟩ := hop1
        exact ⟨dtm.1, List.take_subset _ _ (zip3_mem_fst hdtm), h2⟩

theorem map_ne_nil {α β : Type} {l : List α} (f : α → β) (h : l ≠ []) :
    l.map f ≠ [] := by
  intro hc
  exact h (List.map_eq_nil_iff.mp hc)

theorem delPhase_ops_shape (st : Store) (pIds : List PyStr) (cs : CState) :
    ∀ op ∈ (delPhase st pIds cs).2.1,
      ∃ b ∈ toBatches 100 cs.toDel, op = Op.del b := by
  rw [delPhase_eq]
  by_cases hd : cs.toDel ≠ []
  · rw [if_pos hd]
    intro op hop
    obtain ⟨b, hb, hbo⟩ := List.mem_map.mp hop
    exact ⟨b, hb, hbo.symm⟩
  · rw [if_neg hd]
    intro op hop
    cases hop

theorem delPhase_fst (st : Store) (pIds : List PyStr) (cs : CState) :
    (delPhase st pIds cs).1
      = if cs.toDel ≠ [] then storeDel st cs.toDel else st := by
  rw [delPhase_eq]
  by_cases hd : cs.toDel ≠ []
  · rw [if_pos hd, if_pos hd]
  · rw [if_neg hd, if_neg hd]

theorem addPhase_ops_shape (st1 : Store) (chunkSize epoch : Nat)
    (now2 : PyStr) (cs : CState) :
    ∀ op ∈ (addPhase st1 chunkSize epoch now2 cs).2.1,
      ∃ a ∈ cs.toAdd.map (·.1), writeProv op = some a := by
  unfold addPhase
  by_cases ha : cs.toAdd ≠ []
  · rw [if_pos ha]
    exact addDocuments_ops st1 _ _ _ true chunkSize epoch now2
      (map_ne_nil _ ha)
  · rw [if_neg ha]
    intro op hop
    cases hop

theorem addPhase_protect {x : PyStr} {en : Entry} {st1 : Store}
    (chunkSize epoch : Nat) (now2 : PyStr) (cs : CState)
    (h : XInv x en st1) :
    XInv x en (addPhase st1 chunkSize epoch now2 cs).1
    ∧ ∀ op ∈ (addPhase st1 chunkSize epoch now2 cs).2.1, delSafe x op := by
  unfold addPhase
  by_cases ha : cs.toAdd ≠ []
  · rw [if_pos ha]
    obtain ⟨h1, h2⟩ := addDocuments_protect _ _ _ true
      chunkSize epoch now2 h (map_ne_nil _ ha)
    refine ⟨h1, fun op hop => ?_⟩
    obtain ⟨a, _, e2, he2⟩ := h2 op hop
    rw [he2]
    exact delSafe_of_wadd
  · rw [if_neg ha]
    exact ⟨h, fun op hop => absurd hop (List.not_mem_nil op)⟩

theorem updPhase_eq (st2 : Store) (chunkSize epoch : Nat) (cs : CState) :
    updPhase st2 chunkSize epoch cs
      = if cs.toUpd ≠ [] then
          ((updateDocs st2 (zip3 (cs.toUpd.map (·.1))
              (cs.toUpd.map (fun t => t.2.1))
              ((cs.toUpd.map (fun t => t.2.2)).map cleanMeta))
              chunkSize epoch).1,
           (updateDocs st2 (zip3 (cs.toUpd.map (·.1))
              (cs.toUpd.map (fun t => t.2.1))
              ((cs.toUpd.map (fun t => t.2.2)).map cleanMeta))
              chunkSize epoch).2.1,
           (zip3 (cs.toUpd.map (·.1)) (cs.toUpd.map (fun t => t.2.1))
              ((cs.toUpd.map (fun t => t.2.2)).map cleanMeta)).length)
        else (st2, [], 0) := rfl

theorem updPhase_ops_shape (st2 : Store) (chunkSize epoch : Nat)
    (cs : CState) :
    ∀ op ∈ (updPhase st2 chunkSize epoch cs).2.1,
      writeProv op = none ∨ ∃ a ∈ cs.toUpd.map (·.1), writeProv op = some a := by
  rw [updPhase_eq]
  by_cases hu : cs.toUpd ≠ []
  · rw [if_pos hu]
    intro op hop
    rcases updateDocs_ops _ _ chunkSize epoch op hop with h1 | ⟨it, hit, h1⟩
    · exact Or.inl h1
    · exact Or.inr ⟨it.1, zip3_mem_fst hit, h1⟩
  · rw [if_neg hu]
    intro op hop
    cases hop

theorem updPhase_protect {x : PyStr} {en : Entry} {st2 : Store}
    (chunkSize epoch : Nat) (cs : CState)
    (h : XInv x en st2)
    (hpar : ∀ a ∈ cs.toUpd.map (·.1), en.meta.parent_id ≠ some a)
    (hmetaN : ∀ tu ∈ cs.toUpd, tu.2.2.parent_id = none) :
    ∀ op ∈ (updPhase st2 chunkSize epoch cs).2.1, delSafe x op := by
  rw [updPhase_eq]
  by_cases hu : cs.toUpd ≠ []
  · rw [if_pos hu]
    intro op hop
    refine (updateDocs_protect _ chunkSize epoch h ?_ ?_).2 op hop
    · intro it hit
      exact hpar it.1 (zip3_mem_fst hit)
    · intro it hit it2 hit2
      have h3 := zip3_mem_trd hit
      obtain ⟨v, hv, hveq⟩ := List.mem_map.mp h3
      obtain ⟨tu, htu, htueq⟩ := List.mem_map.mp hv
      have : (cleanMeta it.2.2).parent_id = none := by
        rw [← hveq, ← htueq]
        exact hmetaN tu htu
      rw [this]
      intro hc
      cases hc
  · rw [if_neg hu]
    intro op hop
    cases hop

/-- C1.  For a sync call and an incoming document `(d, td, md)` whose id or
chunk grouping is already persisted (unique ids, one occurrence of `d`, no
incoming id inside `d`'s id space, uniform persisted timestamp `T1`, direct
entry without `parent_id`, incoming documents without `parent_id`, incoming
timestamp `T2`): when `T2 > T1` (Python string comparison) the document is
classified UPDATE — it lands in `to_update`, every persisted chunk id of the
parent lands in `to_delete`, it is not added — the returned `updated` count
is at least one, and the trace splits into a prefix of pure batched deletions
covering every old chunk id, followed by the remaining writes; when
`T2 <= T1` the document is classified NO-OP — it reaches neither `to_add`
nor `to_update` and is removed from the deletion-candidate dictionary — no
operation of the trace carries its provenance, and no delete of the trace
lists any persisted id of its id space. -/
theorem sync_stale_update_fresh_noop
    (st : Store) (ids texts : List PyStr) (metas : List Meta)
    (chunkSize : Nat) (now : PyStr) (epoch : Nat)
    (pre post : List (PyStr × PyStr × Meta))
    (d td T1 T2 : PyStr) (md : Meta)
    (r : SyncRes) (st' : Store) (tr : List Op)
    (H0 : (storeIds st).Nodup)
    (Hsplit : zip3 ids (texts.map pyStrip) (metas.map cleanMeta)
      = pre ++ (d, td, md) :: post)
    (Honce : ∀ dtm ∈ pre ++ post, dtm.1 ≠ d)
    (H2 : ∀ dtm ∈ pre ++ post, dtm.1 ∉ idSpace st d)
    (H3 : hasId st d = true ∨ chunkIdsOf st d ≠ [])
    (H4 : ∀ e ∈ st, e.eid = d ∨ e.meta.parent_id = some d →
      e.meta.last_modified = T1)
    (H5 : ∀ e ∈ st, e.eid = d → e.meta.parent_id = none)
    (H7 : ∀ m ∈ metas, m.parent_id = none)
    (Hd : d ≠ []) (HT1 : T1 ≠ []) (HT2 : T2 ≠ [])
    (Hmd : md.last_modified = T2)
    (Hrun : syncDocuments st ids texts metas chunkSize now epoch
      = .ok (r, st', tr)) :
    (pyLt T1 T2 = true →
      ∃ cs0, classifyDocs (snapOf st) now
          (zip3 ids (texts.map pyStrip) (metas.map cleanMeta))
          ⟨[], [], [], [], st⟩ = .ok cs0
        ∧ d ∈ cs0.toUpd.map (·.1)
        ∧ (∀ c ∈ chunkIdsOf st d, c ∈ cs0.toDel)
        ∧ (∀ x ∈ cs0.toAdd, x.1 ≠ d)
        ∧ 1 ≤ r.updated
        ∧ ∃ t1 t2, tr = t1 ++ t2
            ∧ (∀ op ∈ t1, ∃ l, op = Op.del l)
            ∧ (∀ c ∈ chunkIdsOf st d, ∃ l, Op.del l ∈ t1 ∧ c ∈ l)
            ∧ (∀ op ∈ t1, writeProv op = none))
    ∧ (pyLt T1 T2 = false →
      (∃ cs0, classifyDocs (snapOf st) now
          (zip3 ids (texts.map pyStrip) (metas.map cleanMeta))
          ⟨[], [], [], [], st⟩ = .ok cs0
        ∧ (∀ x ∈ cs0.toUpd, x.1 ≠ d)
        ∧ (∀ x ∈ cs0.toAdd, x.1 ≠ d)
        ∧ (∀ e ∈ cs0.rem, e.eid ≠ d))
      ∧ (∀ op ∈ tr, writeProv op ≠ some d)
      ∧ (∀ x ∈ idSpace st d, hasId st x = true →
          ∀ op ∈ tr, ∀ l, op = Op.del l → x ∉ l)) := by
  obtain ⟨cs0, hcz, hphases⟩ := syncDocuments_decomp Hrun
  have hcsplit := hcz
  rw [Hsplit] at hcsplit
  obtain ⟨hAdd0, hsub0, htr0, hupd0, hnoop0⟩ :=
    classify_around H0 hcsplit Honce H2 H3 H4 H5 Hd HT1 HT2 Hmd
  obtain ⟨oA, oU, oT, oR, oDm, oDc⟩ := orphanFold_spec (snapOf st) cs0.rem cs0
  set cs := orphanStep (snapOf st) cs0 with hcsdef
  have hCSa : cs.toAdd = cs0.toAdd := by rw [hcsdef]; exact oA
  have hCSu : cs.toUpd = cs0.toUpd := by rw [hcsdef]; exact oU
  have hCSdm : ∀ x ∈ cs0.toDel, x ∈ cs.toDel := by rw [hcsdef]; exact oDm
  have hph : (SyncRes.mk
        ((addPhase (delPhase st ids cs).1 chunkSize epoch now cs).2.2)
        ((updPhase (addPhase (delPhase st ids cs).1 chunkSize epoch
          now cs).1 chunkSize epoch cs).2.2)
        ((delPhase st ids cs).2.2),
      (updPhase (addPhase (delPhase st ids cs).1 chunkSize epoch now cs).1
        chunkSize epoch cs).1,
      (delPhase st ids cs).2.1
        ++ (addPhase (delPhase st ids cs).1 chunkSize epoch now cs).2.1
        ++ (updPhase (addPhase (delPhase st ids cs).1 chunkSize epoch
             now cs).1 chunkSize epoch cs).2.1)
      = (r, st', tr) := hphases
  rw [Prod.mk.injEq, Prod.mk.injEq] at hph
  obtain ⟨hres, hst3, htrace⟩ := hph
  constructor
  · intro hlt
    obtain ⟨hmemU, hchunks⟩ := hupd0 hlt
    have hune : cs.toUpd ≠ [] := by
      rw [hCSu]
      exact List.ne_nil_of_mem hmemU
    refine ⟨cs0, hcz, List.mem_map.mpr ⟨_, hmemU, rfl⟩, hchunks, hAdd0, ?_, ?_⟩
    · have hupdlen : ∀ X : Store,
          (updPhase X chunkSize epoch cs).2.2 = cs.toUpd.length := by
        intro X
        rw [updPhase_eq, if_pos hune]
        show (zip3 (cs.toUpd.map (·.1)) (cs.toUpd.map (fun t => t.2.1))
          ((cs.toUpd.map (fun t => t.2.2)).map cleanMeta)).length
          = cs.toUpd.length
        rw [zip3_len (by rw [List.length_map, List.length_map])
          (by rw [List.length_map, List.length_map, List.length_map]),
          List.length_map]
      have hru : r.updated = cs.toUpd.length := by
        rw [← hres]
        exact hupdlen _
      rw [hru]
      exact List.length_pos.mpr hune
    · refine ⟨(delPhase st ids cs).2.1,
        (addPhase (delPhase st ids cs).1 chunkSize epoch now cs).2.1
          ++ (updPhase (addPhase (delPhase st ids cs).1 chunkSize epoch
               now cs).1 chunkSize epoch cs).2.1, ?_, ?_, ?_, ?_⟩
      · rw [← htrace, List.append_assoc]
      · intro op hop
        obtain ⟨b, _, hbo⟩ := delPhase_ops_shape st ids cs op hop
        exact ⟨b, hbo⟩
      · intro c hcc
        have hcdel : c ∈ cs.toDel := hCSdm c (hchunks c hcc)
        have hdne : cs.toDel ≠ [] := List.ne_nil_of_mem hcdel
        obtain ⟨b, hb, hcb⟩ := @mem_toBatches PyStr 100 (by decide) _ _ hcdel
        refine ⟨b, ?_, hcb⟩
        show Op.del b ∈ (delPhase st ids cs).2.1
        rw [delPhase_eq, if_pos hdne]
        exact List.mem_map_of_mem Op.del hb
      · intro op hop
        obtain ⟨b, _, hbo⟩ := delPhase_ops_shape st ids cs op hop
        rw [hbo]
        rfl
  · intro hlt
    obtain ⟨hUpdne, hRemne, hDelDisj⟩ := hnoop0 hlt
    have hDel : ∀ x ∈ cs.toDel, x ∉ idSpace st d := by
      rw [hcsdef]
      exact orphan_toDel_spec H0 H5 htr0 hsub0 hDelDisj
    have hAddne : ∀ x ∈ cs.toAdd, x.1 ≠ d := by
      intro x hx
      rw [hCSa] at hx
      exact hAdd0 x hx
    have hUpdne2 : ∀ x ∈ cs.toUpd, x.1 ≠ d := by
      intro x hx
      rw [hCSu] at hx
      exact hUpdne x hx
    have hmetaN : ∀ tu ∈ cs.toUpd, tu.2.2.parent_id = none := by
      intro tu htu
      rw [hCSu] at htu
      rcases classifyDocs_toUpd_meta _ _ _ hcz tu htu with h1 | ⟨dtm, hdtm, h1⟩
      · cases h1
      · rw [h1]
        show (addSyncMeta now dtm.2.2).parent_id = none
        rw [addSyncMeta_parent]
        obtain ⟨m, hm, hmeq⟩ := List.mem_map.mp (zip3_mem_trd hdtm)
        rw [← hmeq]
        exact H7 m hm
    refine ⟨⟨cs0, hcz, hUpdne, hAdd0, hRemne⟩, ?_, ?_⟩
    · intro op hop
      rw [← htrace] at hop
      rcases List.mem_append.mp hop with hop12 | hop3
      · rcases List.mem_append.mp hop12 with hop1 | hop2
        · obtain ⟨b, _, hbo⟩ := delPhase_ops_shape st ids cs op hop1
          rw [hbo]
          exact fun hc => Option.noConfusion hc
        · obtain ⟨a, ha, hprov⟩ := addPhase_ops_shape _ chunkSize epoch now cs op hop2
          obtain ⟨xx, hxx, hxa⟩ := List.mem_map.mp ha
          rw [hprov]
          intro hc
          injection hc with hc
          exact hAddne xx hxx (hxa.trans hc)
      · rcases updPhase_ops_shape _ chunkSize epoch cs op hop3 with h1 | ⟨a, ha, hprov⟩
        · rw [h1]
          exact fun hc => Option.noConfusion hc
        · obtain ⟨xx, hxx, hxa⟩ := List.mem_map.mp ha
          rw [hprov]
          intro hc
          injection hc with hc
          exact hUpdne2 xx hxx (hxa.trans hc)
    · intro x hxid hxhas op hop l hol
      have hxid2 : x = d ∨ x ∈ chunkIdsOf st d := List.mem_cons.mp hxid
      obtain ⟨en, hen⟩ : ∃ en, lookupE st x = some en :=
        Option.isSome_iff_exists.mp hxhas
      have hXI : XInv x en st := XInv_of_nodup H0 hen
      have hxdel : x ∉ cs.toDel := fun hmem => hDel x hmem hxid
      have hX1 : XInv x en (delPhase st ids cs).1 := by
        rw [delPhase_fst]
        by_cases hdne : cs.toDel ≠ []
        · rw [if_pos hdne]
          exact XInv_storeDel hXI hxdel
        · rw [if_neg hdne]
          exact hXI
      obtain ⟨hX2, hp2safe⟩ := addPhase_protect chunkSize epoch now cs hX1
      have hparx : ∀ a ∈ cs.toUpd.map (·.1), en.meta.parent_id ≠ some a := by
        intro a ha
        obtain ⟨xx, hxx, hxa⟩ := List.mem_map.mp ha
        have hand : a ≠ d := by
          rw [← hxa]
          exact hUpdne2 xx hxx
        obtain ⟨henmem, heneid⟩ := lookupE_some_mem hen
        rcases hxid2 with hxd | hxc
        · rw [H5 en henmem (heneid.trans hxd)]
          intro hc
          cases hc
        · obtain ⟨e2, he2, heid2, hpar2⟩ := mem_chunkIdsOf.mp hxc
          have hee := ids_nodup_unique H0 henmem he2 (heneid.trans heid2.symm)
          rw [hee, hpar2]
          intro hc
          injection hc with hc
          exact hand hc.symm
      have hp3safe := updPhase_protect chunkSize epoch cs hX2 hparx hmetaN
      rw [← htrace] at hop
      rcases List.mem_append.mp hop with hop12 | hop3
      · rcases List.mem_append.mp hop12 with hop1 | hop2
        · obtain ⟨b, hb, hbo⟩ := delPhase_ops_shape st ids cs op hop1
          rw [hbo] at hol
          injection hol with hol
          subst hol
          intro hxl
          exact hxdel (mem_of_mem_toBatches (by decide) hb hxl)
        · exact hp2safe op hop2 l hol
      · exact hp3safe op hop3 l hol

/-- Concrete scenario for the classification dichotomy: a chunked document
`p` persisted at timestamp `1` with one chunk `p_c`, re-synced at
timestamp `2`. -/
def c1M1 : Meta := { last_modified := pyS "1", resource_id := pyS "r" }

def c1M2 : Meta :=
  { c1M1 with parent_id := some (pyS "p"), chunk_id := some (pyS "p_c") }

def c1Store : Store := [⟨pyS "p", pyS "t", c1M1⟩, ⟨pyS "p_c", pyS "t", c1M2⟩]

def c1Md : Meta := { last_modified := pyS "2", resource_id := pyS "r" }

def c1Res : SyncRes := { added := some 0, updated := 1, deleted := 0 }

def c1StoreOut : Store := [⟨pyS "p", pyS "t2", addSyncMeta (pyS "N") c1Md⟩]

def c1Trace : List Op :=
  [Op.del [pyS "p_c"],
   Op.wupd (pyS "p") ⟨pyS "p", pyS "t2", addSyncMeta (pyS "N") c1Md⟩]

/-- C1 witness: syncing the stale chunked document `p` classifies it UPDATE,
marks its chunk for deletion, counts one update, and the trace opens with the
batched deletion covering the old chunk before the rewrite of `p`. -/
theorem sync_stale_update_fresh_noop_witness :
    ∃ cs0, classifyDocs (snapOf c1Store) (pyS "N")
        (zip3 [pyS "p"] ([pyS "t2"].map pyStrip) ([c1Md].map cleanMeta))
        ⟨[], [], [], [], c1Store⟩ = .ok cs0
      ∧ pyS "p" ∈ cs0.toUpd.map (·.1)
      ∧ (∀ c ∈ chunkIdsOf c1Store (pyS "p"), c ∈ cs0.toDel)
      ∧ (∀ x ∈ cs0.toAdd, x.1 ≠ pyS "p")
      ∧ 1 ≤ c1Res.updated
      ∧ ∃ t1 t2, c1Trace = t1 ++ t2
          ∧ (∀ op ∈ t1, ∃ l, op = Op.del l)
          ∧ (∀ c ∈ chunkIdsOf c1Store (pyS "p"), ∃ l, Op.del l ∈ t1 ∧ c ∈ l)
          ∧ (∀ op ∈ t1, writeProv op = none) :=
  (sync_stale_update_fresh_noop c1Store [pyS "p"] [pyS "t2"] [c1Md] 100
    (pyS "N") 7 [] [] (pyS "p") (pyStrip (pyS "t2")) (pyS "1") (pyS "2") c1Md
    c1Res c1StoreOut c1Trace
    (by decide) (by decide) (by decide) (by decide) (by decide) (by decide)
    (by decide) (by decide) (by decide) (by decide) (by decide) (by decide)
    rfl).1 (by decide)

/-- The classification loop only ever appends to `to_update`. -/
theorem classifyDocs_toUpd_append {snap : Snapshot} {now : PyStr}
    (docs : List (PyStr × PyStr × Meta)) :
    ∀ cs cs', classifyDocs snap now docs cs = .ok cs' →
    ∃ ext, cs'.toUpd = cs.toUpd ++ ext
      ∧ ∀ x ∈ ext, x.1 ∈ docs.map (·.1) := by
  induction docs with
  | nil =>
    intro cs cs' h
    rw [classifyDocs_nil] at h
    injection h with h
    subst h
    exact ⟨[], (List.append_nil _).symm, fun x hx => absurd hx (List.not_mem_nil x)⟩
  | cons dt rest ih =>
    intro cs cs' h
    obtain ⟨cs1, hstep, hrest⟩ := classifyDocs_cons h
    obtain ⟨ext, hext, hextid⟩ := ih cs1 cs' hrest
    obtain ⟨_, sUpd, _⟩ := classifyStep_spec hstep
    rcases sUpd with hU | hU
    · refine ⟨ext, by rw [hext, hU], ?_⟩
      intro x hx
      exact List.mem_cons_of_mem _ (hextid x hx)
    · refine ⟨(dt.1, dt.2.1, addSyncMeta now dt.2.2) :: ext, ?_, ?_⟩
      · rw [hext, hU, List.append_assoc]
        rfl
      · intro x hx
        rcases List.mem_cons.mp hx with rfl | hx2
        · show dt.1 ∈ (dt :: rest).map (·.1)
          exact List.mem_map_of_mem _ (List.mem_cons_self _ _)
        · exact List.mem_cons_of_mem _ (hextid x hx2)

theorem resIds_fold_nonempty (entries : List Entry) :
    ∀ acc : List PyStr, (∀ rid ∈ acc, rid ≠ []) →
    ∀ rid ∈ entries.foldl
      (fun acc e => if e.meta.resource_id ≠ [] then
        setIns acc e.meta.resource_id else acc) acc, rid ≠ [] := by
  induction entries with
  | nil => intro acc h; exact h
  | cons e rest ih =>
    intro acc h
    rw [List.foldl_cons]
    apply ih
    by_cases hr : e.meta.resource_id ≠ []
    · rw [if_pos hr]
      intro rid hrid
      rcases mem_setIns.mp hrid with h1 | rfl
      · exact h rid h1
      · exact hr
    · rw [if_neg hr]
      exact h

/-- The `existing_resource_ids` snapshot set holds only truthy resource ids. -/
theorem resourceIds_nonempty (st : Store) :
    ∀ rid ∈ (snapOf st).resourceIds, rid ≠ [] :=
  resIds_fold_nonempty st [] (fun rid h => absurd h (List.not_mem_nil rid))

theorem updPhase_inv {x : PyStr} {en : Entry} {st2 : Store}
    (chunkSize epoch : Nat) (cs : CState)
    (h : XInv x en st2)
    (hpar : ∀ a ∈ cs.toUpd.map (·.1), en.meta.parent_id ≠ some a)
    (hmetaN : ∀ tu ∈ cs.toUpd, tu.2.2.parent_id = none) :
    ∃ en', XInv x en' (updPhase st2 chunkSize epoch cs).1 := by
  rw [updPhase_eq]
  by_cases hu : cs.toUpd ≠ []
  · rw [if_pos hu]
    obtain ⟨⟨en', h1, _⟩, _⟩ := updateDocs_protect
      (zip3 (cs.toUpd.map (·.1)) (cs.toUpd.map (fun t => t.2.1))
        ((cs.toUpd.map (fun t => t.2.2)).map cleanMeta)) chunkSize epoch h
      (fun it hit => hpar it.1 (zip3_mem_fst hit))
      (by
        intro it hit it2 hit2
        obtain ⟨v, hv, hveq⟩ := List.mem_map.mp (zip3_mem_trd hit)
        obtain ⟨tu, htu, htueq⟩ := List.mem_map.mp hv
        have hn : (cleanMeta it.2.2).parent_id = none := by
          rw [← hveq, ← htueq]
          exact hmetaN tu htu
        rw [hn]
        intro hc
        cases hc)
    exact ⟨en', h1⟩
  · rw [if_neg hu]
    exact ⟨en, h⟩

/-- C2 (amended).  A persisted entry whose metadata has no `parent_id` and an
empty `resource_id` is never added to the deletion set and never deleted:
its id appears in no deletion candidate, in no delete operation of the trace,
and an entry under its id is still present in the final collection. -/
theorem sync_empty_resource_protected
    (st : Store) (ids texts : List PyStr) (metas : List Meta)
    (chunkSize : Nat) (now : PyStr) (epoch : Nat)
    (en : Entry) (r : SyncRes) (st' : Store) (tr : List Op)
    (H0 : (storeIds st).Nodup)
    (Hen : en ∈ st)
    (Hpar : en.meta.parent_id = none)
    (Hrid : en.meta.resource_id = [])
    (H7 : ∀ m ∈ metas, m.parent_id = none)
    (Hrun : syncDocuments st ids texts metas chunkSize now epoch
      = .ok (r, st', tr)) :
    (∃ cs0, classifyDocs (snapOf st) now
        (zip3 ids (texts.map pyStrip) (metas.map cleanMeta))
        ⟨[], [], [], [], st⟩ = .ok cs0
      ∧ en.eid ∉ (orphanStep (snapOf st) cs0).toDel)
    ∧ (∀ op ∈ tr, ∀ l, op = Op.del l → en.eid ∉ l)
    ∧ (∃ en', lookupE st' en.eid = some en') := by
  obtain ⟨cs0, hcz, hphases⟩ := syncDocuments_decomp Hrun
  obtain ⟨oA, oU, oT, oR, oDm, oDc⟩ := orphanFold_spec (snapOf st) cs0.rem cs0
  set cs := orphanStep (snapOf st) cs0 with hcsdef
  have hCSu : cs.toUpd = cs0.toUpd := by rw [hcsdef]; exact oU
  have hph : (SyncRes.mk
        ((addPhase (delPhase st ids cs).1 chunkSize epoch now cs).2.2)
        ((updPhase (addPhase (delPhase st ids cs).1 chunkSize epoch
          now cs).1 chunkSize epoch cs).2.2)
        ((delPhase st ids cs).2.2),
      (updPhase (addPhase (delPhase st ids cs).1 chunkSize epoch now cs).1
        chunkSize epoch cs).1,
      (delPhase st ids cs).2.1
        ++ (addPhase (delPhase st ids cs).1 chunkSize epoch now cs).2.1
        ++ (updPhase (addPhase (delPhase st ids cs).1 chunkSize epoch
             now cs).1 chunkSize epoch cs).2.1)
      = (r, st', tr) := hphases
  rw [Prod.mk.injEq, Prod.mk.injEq] at hph
  obtain ⟨hres, hst3, htrace⟩ := hph
  have henlk : lookupE st en.eid = some en := lookupE_mem_eq H0 Hen
  have hXI : XInv en.eid en st := XInv_of_nodup H0 henlk
  have hxdel : en.eid ∉ cs.toDel := by
    intro hmem
    rw [hcsdef] at hmem
    rcases oDc en.eid hmem with h1 | ⟨e, he, hcond, hx2⟩
    · obtain ⟨_, _, _, _, cD1, _⟩ := classifyDocs_spec _ _ _ hcz
      rcases cD1 en.eid h1 with h2 | ⟨a, _, h2⟩
      · cases h2
      · obtain ⟨e2, he2, heid2, hpar2⟩ := mem_assocGet_mapChunks h2
        have hee := ids_nodup_unique H0 he2 Hen heid2
        rw [hee, Hpar] at hpar2
        cases hpar2
    · rw [Bool.and_eq_true, Bool.and_eq_true] at hcond
      obtain ⟨⟨_, hrc⟩, _⟩ := hcond
      have hsubr : cs0.rem.Sublist st := classifyDocs_rem_sublist _ _ _ hcz
      have hest : e ∈ st := hsubr.subset he
      rcases hx2 with hx2 | hx2
      · have hee := ids_nodup_unique H0 hest Hen hx2.symm
        rw [hee, Hrid] at hrc
        exact resourceIds_nonempty st [] (contains_mem.mp hrc) rfl
      · obtain ⟨e2, he2, heid2, hpar2⟩ := mem_assocGet_mapChunks hx2
        have hee := ids_nodup_unique H0 he2 Hen heid2
        rw [hee, Hpar] at hpar2
        cases hpar2
  have hX1 : XInv en.eid en (delPhase st ids cs).1 := by
    rw [delPhase_fst]
    by_cases hdne : cs.toDel ≠ []
    · rw [if_pos hdne]
      exact XInv_storeDel hXI hxdel
    · rw [if_neg hdne]
      exact hXI
  obtain ⟨hX2, hp2safe⟩ := addPhase_protect chunkSize epoch now cs hX1
  have hparx : ∀ a ∈ cs.toUpd.map (·.1), en.meta.parent_id ≠ some a := by
    intro a _
    rw [Hpar]
    intro hc
    cases hc
  have hmetaN : ∀ tu ∈ cs.toUpd, tu.2.2.parent_id = none := by
    intro tu htu
    rw [hCSu] at htu
    rcases classifyDocs_toUpd_meta _ _ _ hcz tu htu with h1 | ⟨dtm, hdtm, h1⟩
    · cases h1
    · rw [h1]
      show (addSyncMeta now dtm.2.2).parent_id = none
      rw [addSyncMeta_parent]
      obtain ⟨m, hm, hmeq⟩ := List.mem_map.mp (zip3_mem_trd hdtm)
      rw [← hmeq]
      exact H7 m hm
  have hp3safe := updPhase_protect chunkSize epoch cs hX2 hparx hmetaN
  refine ⟨⟨cs0, hcz, by rw [← hcsdef]; exact hxdel⟩, ?_, ?_⟩
  · intro op hop l hol
    rw [← htrace] at hop
    rcases List.mem_append.mp hop with hop12 | hop3
    · rcases List.mem_append.mp hop12 with hop1 | hop2
      · obtain ⟨b, hb, hbo⟩ := delPhase_ops_shape st ids cs op hop1
        rw [hbo] at hol
        injection hol with hol
        subst hol
        intro hxl
        exact hxdel (mem_of_mem_toBatches (by decide) hb hxl)
      · exact hp2safe op hop2 l hol
    · exact hp3safe op hop3 l hol
  · obtain ⟨en', hen'⟩ := updPhase_inv chunkSize epoch cs hX2 hparx hmetaN
    exact ⟨en', by rw [← hst3]; exact hen'.1⟩

/-- Concrete scenario for the amended deletion-scope invariant: entry `k`
carries no `resource_id`, entry `a` belongs to resource `r`; syncing only a
new document `b` of resource `r` orphan-deletes `a` but must not touch `k`. -/
def c2K : Entry := ⟨pyS "k", pyS "t", { title := pyS "keep" }⟩

def c2A : Entry :=
  ⟨pyS "a", pyS "t", { last_modified := pyS "1", resource_id := pyS "r" }⟩

def c2Store : Store := [c2K, c2A]

def c2Md : Meta := { last_modified := pyS "2", resource_id := pyS "r" }

def c2Res : SyncRes := { added := some 1, updated := 0, deleted := 1 }

def c2StoreOut : Store :=
  [c2K, ⟨pyS "b", pyS "tb", addSyncMeta (pyS "N") c2Md⟩]

def c2Trace : List Op :=
  [Op.del [pyS "a"],
   Op.wadd (pyS "b") ⟨pyS "b", pyS "tb", addSyncMeta (pyS "N") c2Md⟩]

/-- C2 witness: in the concrete scenario the resource-less entry `k` is in
no deletion candidate set, no delete of the trace lists it, and it survives
in the final collection, while the sibling `a` of the synced resource is
deleted. -/
theorem sync_empty_resource_protected_witness :
    ((∃ cs0, classifyDocs (snapOf c2Store) (pyS "N")
        (zip3 [pyS "b"] ([pyS "tb"].map pyStrip) ([c2Md].map cleanMeta))
        ⟨[], [], [], [], c2Store⟩ = .ok cs0
      ∧ c2K.eid ∉ (orphanStep (snapOf c2Store) cs0).toDel)
    ∧ (∀ op ∈ c2Trace, ∀ l, op = Op.del l → c2K.eid ∉ l)
    ∧ (∃ en', lookupE c2StoreOut c2K.eid = some en')) :=
  sync_empty_resource_protected c2Store [pyS "b"] [pyS "tb"] [c2Md] 100
    (pyS "N") 7 c2K c2Res c2StoreOut c2Trace
    (by decide) (by decide) (by decide) (by decide) (by decide) rfl

/-- C7 (amended).  No deduplication of incoming ids exists: a duplicated id
whose document is persisted as chunks and is stale on both occurrences is
appended to the update list once per occurrence, and the returned `updated`
count tallies every occurrence — here exactly two entries for the id, so
`updated` covers both and is at least two. -/
theorem sync_duplicate_id_counts_twice
    (st : Store) (ids texts : List PyStr) (metas : List Meta)
    (chunkSize : Nat) (now : PyStr) (epoch : Nat)
    (pre mid post : List (PyStr × PyStr × Meta))
    (d ta tb T1 T2 : PyStr) (ma mb : Meta)
    (r : SyncRes) (st' : Store) (tr : List Op)
    (H0 : (storeIds st).Nodup)
    (Hsplit : zip3 ids (texts.map pyStrip) (metas.map cleanMeta)
      = pre ++ (d, ta, ma) :: mid ++ (d, tb, mb) :: post)
    (Hoth : ∀ dtm ∈ pre ++ mid ++ post, dtm.1 ≠ d)
    (H2 : ∀ dtm ∈ pre ++ mid ++ post, dtm.1 ∉ idSpace st d)
    (Hnd : hasId st d = false)
    (HC : chunkIdsOf st d ≠ [])
    (H4 : ∀ e ∈ st, e.meta.parent_id = some d → e.meta.last_modified = T1)
    (Hd : d ≠ []) (HT1 : T1 ≠ []) (HT2 : T2 ≠ [])
    (Hlt : pyLt T1 T2 = true)
    (Hma : ma.last_modified = T2) (Hmb : mb.last_modified = T2)
    (Hrun : syncDocuments st ids texts metas chunkSize now epoch
      = .ok (r, st', tr)) :
    ∃ cs0, classifyDocs (snapOf st) now
        (zip3 ids (texts.map pyStrip) (metas.map cleanMeta))
        ⟨[], [], [], [], st⟩ = .ok cs0
      ∧ (cs0.toUpd.map (·.1)).count d = 2
      ∧ r.updated = cs0.toUpd.length
      ∧ 2 ≤ r.updated := by
  obtain ⟨cs0, hcz, hphases⟩ := syncDocuments_decomp Hrun
  obtain ⟨oA, oU, oT, oR, oDm, oDc⟩ := orphanFold_spec (snapOf st) cs0.rem cs0
  set cs := orphanStep (snapOf st) cs0 with hcsdef
  have hCSu : cs.toUpd = cs0.toUpd := by rw [hcsdef]; exact oU
  have hph : (SyncRes.mk
        ((addPhase (delPhase st ids cs).1 chunkSize epoch now cs).2.2)
        ((updPhase (addPhase (delPhase st ids cs).1 chunkSize epoch
          now cs).1 chunkSize epoch cs).2.2)
        ((delPhase st ids cs).2.2),
      (updPhase (addPhase (delPhase st ids cs).1 chunkSize epoch now cs).1
        chunkSize epoch cs).1,
      (delPhase st ids cs).2.1
        ++ (addPhase (delPhase st ids cs).1 chunkSize epoch now cs).2.1
        ++ (updPhase (addPhase (delPhase st ids cs).1 chunkSize epoch
             now cs).1 chunkSize epoch cs).2.1)
      = (r, st', tr) := hphases
  rw [Prod.mk.injEq, Prod.mk.injEq] at hph
  obtain ⟨hres, hst3, htrace⟩ := hph
  have hcsplit := hcz
  rw [Hsplit] at hcsplit
  obtain ⟨cs3, hfirst, hrest3⟩ := classifyDocs_append hcsplit
  obtain ⟨cs4, hstep2, hpost⟩ := classifyDocs_cons hrest3
  obtain ⟨cs1, hpre, hrest1⟩ := classifyDocs_append hfirst
  obtain ⟨cs2, hstep1, hmid⟩ := classifyDocs_cons hrest1
  have hnoeid : ∀ e ∈ st, e.eid ≠ d := by
    intro e he hc
    have h1 : hasId st d = true := lookupE_isSome_iff.mpr ⟨e, he, hc⟩
    rw [Hnd] at h1
    cases h1
  have hpreid : ∀ a ∈ pre.map (·.1), a ≠ d := by
    intro a ha
    obtain ⟨dtm, hdtm, hd1⟩ := List.mem_map.mp ha
    rw [← hd1]
    exact Hoth dtm (List.mem_append.mpr (Or.inl (List.mem_append.mpr (Or.inl hdtm))))
  have hmidid : ∀ a ∈ mid.map (·.1), a ≠ d := by
    intro a ha
    obtain ⟨dtm, hdtm, hd1⟩ := List.mem_map.mp ha
    rw [← hd1]
    exact Hoth dtm (List.mem_append.mpr (Or.inl (List.mem_append.mpr (Or.inr hdtm))))
  have hpostid : ∀ a ∈ post.map (·.1), a ≠ d := by
    intro a ha
    obtain ⟨dtm, hdtm, hd1⟩ := List.mem_map.mp ha
    rw [← hd1]
    exact Hoth dtm (List.mem_append.mpr (Or.inr hdtm))
  have hpreSp : ∀ a ∈ pre.map (·.1), a ∉ idSpace st d := by
    intro a ha
    obtain ⟨dtm, hdtm, hd1⟩ := List.mem_map.mp ha
    rw [← hd1]
    exact H2 dtm (List.mem_append.mpr (Or.inl (List.mem_append.mpr (Or.inl hdtm))))
  have hmidSp : ∀ a ∈ mid.map (·.1), a ∉ idSpace st d := by
    intro a ha
    obtain ⟨dtm, hdtm, hd1⟩ := List.mem_map.mp ha
    rw [← hd1]
    exact H2 dtm (List.mem_append.mpr (Or.inl (List.mem_append.mpr (Or.inr hdtm))))
  have hget : assocGet (snapOf st).chunkParents d = chunkIdsOf st d :=
    assocGet_mapChunks st d Hd
  have hhas : assocHas (snapOf st).chunkParents d = true :=
    (assocHas_mapChunks st d Hd).mpr HC
  rcases hcg : chunkIdsOf st d with _ | ⟨c, crest⟩
  · exact absurd hcg HC
  obtain ⟨ec, hec, heceid, hecpar⟩ := mem_chunkIdsOf.mp
    (show c ∈ chunkIdsOf st d by rw [hcg]; exact List.mem_cons_self c crest)
  have hcid : c ∈ idSpace st d := by
    unfold idSpace
    exact List.mem_cons_of_mem _
      (show c ∈ chunkIdsOf st d by rw [hcg]; exact List.mem_cons_self c crest)
  have hcneqd : c ≠ d := fun hc => hnoeid ec hec (heceid.trans hc)
  have hvT1 : ec.meta.last_modified = T1 := H4 ec hec hecpar
  have hsub1 : cs1.rem.Sublist st := classifyDocs_rem_sublist pre _ _ hpre
  obtain ⟨pA1, pA2, pU1, pU2, pD1, pD2, pT1, pT2, pT3, pR1, pR2⟩ :=
    classifyDocs_spec pre _ _ hpre
  have hlk1 : lookupE cs1.rem d = none :=
    lookupE_eq_none (fun e he => hnoeid e (hsub1.subset he))
  have hcond1 : ((lookupE cs1.rem d).isSome
      || assocHas (snapOf st).chunkParents d) = true := by
    rw [Bool.or_eq_true]
    exact Or.inr hhas
  have hecrem1 : ec ∈ cs1.rem :=
    pR2 ec hec (fun hmem => hpreSp ec.eid hmem (heceid ▸ hcid))
  have hlkc1 : lookupE cs1.rem c = some ec := by
    rw [← heceid]
    exact lookupE_mem_eq (rem_ids_nodup H0 hsub1) hecrem1
  have hv1 : vmetaOf (snapOf st) cs1.rem d = some ec.meta := by
    simp only [vmetaOf, hlk1, hget, hcg, hlkc1, Option.map_some']
  have hstale1 : ma.last_modified ≠ [] ∧ ec.meta.last_modified ≠ [] ∧
      pyLt ec.meta.last_modified ma.last_modified = true := by
    rw [Hma, hvT1]
    exact ⟨HT2, HT1, Hlt⟩
  have hcs2 := classifyStep_update now (d, ta, ma) hcond1 hv1 hstale1
  rw [hstep1] at hcs2
  injection hcs2 with hcs2
  have hcs2U : cs2.toUpd = cs1.toUpd ++ [(d, ta, addSyncMeta now ma)] := by
    rw [hcs2]
  have hcs2R : cs2.rem = popId cs1.rem d := by
    rw [hcs2]
  have hsub2 : cs2.rem.Sublist cs1.rem := by
    rw [hcs2R]
    exact popId_sublist _ _
  have hsub3 : cs3.rem.Sublist st :=
    ((classifyDocs_rem_sublist mid _ _ hmid).trans hsub2).trans hsub1
  obtain ⟨qA1, qA2, qU1, qU2, qD1, qD2, qT1, qT2, qT3, qR1, qR2⟩ :=
    classifyDocs_spec mid _ _ hmid
  have hlk2 : lookupE cs3.rem d = none :=
    lookupE_eq_none (fun e he => hnoeid e (hsub3.subset he))
  have hcond2 : ((lookupE cs3.rem d).isSome
      || assocHas (snapOf st).chunkParents d) = true := by
    rw [Bool.or_eq_true]
    exact Or.inr hhas
  have hecrem2 : ec ∈ cs2.rem := by
    rw [hcs2R]
    exact mem_popId.mpr ⟨hecrem1, by rw [heceid]; exact hcneqd⟩
  have hecrem3 : ec ∈ cs3.rem :=
    qR2 ec hecrem2 (fun hmem => hmidSp ec.eid hmem (heceid ▸ hcid))
  have hlkc2 : lookupE cs3.rem c = some ec := by
    rw [← heceid]
    exact lookupE_mem_eq (rem_ids_nodup H0 hsub3) hecrem3
  have hv2 : vmetaOf (snapOf st) cs3.rem d = some ec.meta := by
    simp only [vmetaOf, hlk2, hget, hcg, hlkc2, Option.map_some']
  have hstale2 : mb.last_modified ≠ [] ∧ ec.meta.last_modified ≠ [] ∧
      pyLt ec.meta.last_modified mb.last_modified = true := by
    rw [Hmb, hvT1]
    exact ⟨HT2, HT1, Hlt⟩
  have hcs4 := classifyStep_update now (d, tb, mb) hcond2 hv2 hstale2
  rw [hstep2] at hcs4
  injection hcs4 with hcs4
  have hcs4U : cs4.toUpd = cs3.toUpd ++ [(d, tb, addSyncMeta now mb)] := by
    rw [hcs4]
  obtain ⟨ext1, hx1, hx1id⟩ := classifyDocs_toUpd_append pre _ _ hpre
  obtain ⟨ext2, hx2, hx2id⟩ := classifyDocs_toUpd_append mid _ _ hmid
  obtain ⟨ext3, hx3, hx3id⟩ := classifyDocs_toUpd_append post _ _ hpost
  have hcnt0 : ∀ (ext : List (PyStr × PyStr × Meta)),
      (∀ x ∈ ext, x.1 ≠ d) → (ext.map (·.1)).count d = 0 := by
    intro ext hext
    rw [List.count_eq_zero]
    intro hmem
    obtain ⟨x, hx, hxe⟩ := List.mem_map.mp hmem
    exact hext x hx hxe
  have hc0 : (cs0.toUpd.map (·.1)).count d = 2 := by
    rw [hx3, hcs4U, hx2, hcs2U, hx1,
      show (⟨[], [], [], [], st⟩ : CState).toUpd = [] from rfl]
    simp only [List.nil_append, List.map_append, List.count_append]
    rw [hcnt0 ext1 (fun x hx => hpreid x.1 (hx1id x hx)),
      hcnt0 ext2 (fun x hx => hmidid x.1 (hx2id x hx)),
      hcnt0 ext3 (fun x hx => hpostid x.1 (hx3id x hx))]
    simp
  have hdmem : d ∈ cs0.toUpd.map (·.1) :=
    List.count_pos_iff.mp (by rw [hc0]; exact Nat.succ_pos 1)
  have hune : cs.toUpd ≠ [] := by
    rw [hCSu]
    obtain ⟨x, hx, _⟩ := List.mem_map.mp hdmem
    exact List.ne_nil_of_mem hx
  have hupdlen : ∀ X : Store,
      (updPhase X chunkSize epoch cs).2.2 = cs.toUpd.length := by
    intro X
    rw [updPhase_eq, if_pos hune]
    show (zip3 (cs.toUpd.map (·.1)) (cs.toUpd.map (fun t => t.2.1))
      ((cs.toUpd.map (fun t => t.2.2)).map cleanMeta)).length
      = cs.toUpd.length
    rw [zip3_len (by rw [List.length_map, List.length_map])
      (by rw [List.length_map, List.length_map, List.length_map]),
      List.length_map]
  have hru : r.updated = cs0.toUpd.length := by
    rw [← hres]
    rw [show (SyncRes.mk
        ((addPhase (delPhase st ids cs).1 chunkSize epoch now cs).2.2)
        ((updPhase (addPhase (delPhase st ids cs).1 chunkSize epoch
          now cs).1 chunkSize epoch cs).2.2)
        ((delPhase st ids cs).2.2)).updated
      = (updPhase (addPhase (delPhase st ids cs).1 chunkSize epoch
          now cs).1 chunkSize epoch cs).2.2 from rfl]
    rw [hupdlen, hCSu]
  refine ⟨cs0, hcz, hc0, hru, ?_⟩
  have hle : (cs0.toUpd.map (·.1)).count d ≤ (cs0.toUpd.map (·.1)).length :=
    List.count_le_length d (cs0.toUpd.map (·.1))
  rw [hc0, List.length_map] at hle
  rw [hru]
  exact hle

/-- Concrete scenario for the duplicate-id behaviour: a document `p`
persisted purely as the chunk `pc`, synced with `p` incoming twice. -/
def c7MC : Meta :=
  { last_modified := pyS "1", resource_id := pyS "r",
    parent_id := some (pyS "p"), chunk_id := some (pyS "pc") }

def c7Store : Store := [⟨pyS "pc", pyS "t", c7MC⟩]

def c7Md : Meta := { last_modified := pyS "2", resource_id := pyS "r" }

def c7Res : SyncRes := { added := some 0, updated := 2, deleted := 0 }

def c7StoreOut : Store :=
  [⟨pyS "p", pyS "u2", addSyncMeta (pyS "N") c7Md⟩]

def c7Trace : List Op :=
  [Op.del [pyS "pc"],
   Op.wadd (pyS "p") ⟨pyS "p", pyS "u1", addSyncMeta (pyS "N") c7Md⟩,
   Op.wupd (pyS "p") ⟨pyS "p", pyS "u2", addSyncMeta (pyS "N") c7Md⟩]

/-- C7 witness: syncing `[p, p]` against the chunked stale document puts `p`
on the update list twice and reports `updated = 2` — one count per
occurrence, nothing dropped. -/
theorem sync_duplicate_id_counts_twice_witness :
    ∃ cs0, classifyDocs (snapOf c7Store) (pyS "N")
        (zip3 [pyS "p", pyS "p"] ([pyS "u1", pyS "u2"].map pyStrip)
          ([c7Md, c7Md].map cleanMeta)) ⟨[], [], [], [], c7Store⟩ = .ok cs0
      ∧ (cs0.toUpd.map (·.1)).count (pyS "p") = 2
      ∧ c7Res.updated = cs0.toUpd.length
      ∧ 2 ≤ c7Res.updated :=
  sync_duplicate_id_counts_twice c7Store [pyS "p", pyS "p"]
    [pyS "u1", pyS "u2"] [c7Md, c7Md] 100 (pyS "N") 7 [] [] [] (pyS "p")
    (pyStrip (pyS "u1")) (pyStrip (pyS "u2")) (pyS "1") (pyS "2") c7Md c7Md
    c7Res c7StoreOut c7Trace
    (by decide) (by decide) (by decide) (by decide) (by decide) (by decide)
    (by decide) (by decide) (by decide) (by decide) (by decide) (by decide)
    (by decide) rfl

end NotionBot
